import Mathlib

/-!
# confguard — formal model of the guard/unguard transaction engine

A shallow embedding of the `confguard` Python sources
(`src/confguard/services.py`, `src/confguard/main.py`, `src/confguard/model.py`,
`src/adapter.py`, `src/confguard/helper.py`).

The filesystem is modelled as a finite association list from absolute paths
(lists of name segments) to nodes (regular file with abstract content,
directory, or symbolic link).  A directory's children are the entries whose
key extends the directory's key.  `Path.exists()`, `is_file()`, `is_dir()`
follow symbolic-link chains (with the OS hop bound, after which the Python
calls report `False`); `is_symlink()` and the `mkdir`/`symlink`/`unlink`
syscalls do not.
-/

namespace Confguard

/-- A filesystem path, as its list of segments from the root. -/
abbrev FPath := List String

/-- A filesystem node: regular file with abstract content, directory, or
symbolic link holding its referent path. -/
inductive FNode where
  | file (content : Nat)
  | dir
  | symlink (ref : FPath)
deriving DecidableEq, Repr

/-- A filesystem: finite association list from absolute paths to nodes.
Earlier entries shadow later ones. -/
abbrev FS := List (FPath × FNode)

namespace FS

/-- Look up the node stored at path `p` (the `lstat` view: does not follow
symlinks). -/
def find (fs : FS) (p : FPath) : Option FNode :=
  match fs with
  | [] => none
  | (q, n) :: rest => if q = p then some n else find rest p

/-- Remove the entry at exactly path `p` (Python `unlink`). -/
def erase : FS → FPath → FS
  | [], _ => []
  | kv :: rest, p => if kv.1 = p then erase rest p else kv :: erase rest p

/-- Store node `n` at path `p`, replacing any previous entry. -/
def set (fs : FS) (p : FPath) (n : FNode) : FS :=
  (p, n) :: fs.erase p

/-- Remove the entry at `p` and every entry below it (Python `shutil.rmtree`
on a directory). -/
def removeTree : FS → FPath → FS
  | [], _ => []
  | kv :: rest, p =>
    if p <+: kv.1 then removeTree rest p else kv :: removeTree rest p

/-- The entries of the subtree rooted at `src`, re-keyed under `tgt`. -/
def moveKeys (src tgt : FPath) : FS → FS
  | [] => []
  | kv :: rest =>
    if src <+: kv.1 then
      (tgt ++ kv.1.drop src.length, kv.2) :: moveKeys src tgt rest
    else moveKeys src tgt rest

/-- Move the subtree rooted at `src` to `tgt` (Python `os.rename`). -/
def renameTree (fs : FS) (src tgt : FPath) : FS :=
  moveKeys src tgt fs ++ fs.removeTree src

/-- All the directories `mkdir(parents=True)` considers on the way to `p`:
every leading part of `p`, shortest first, ending with `p` itself. -/
def parts (p : FPath) : List FPath :=
  (List.range (p.length + 1)).map (fun i => p.take i)

/-- Python `Path(p).mkdir(parents=True, exist_ok=True)`: create a directory
node at `p` and at every missing leading part of `p`. -/
def mkdirP (fs : FS) (p : FPath) : FS :=
  (parts p).foldl (fun fs q => if (fs.find q).isSome then fs else fs.set q .dir) fs

/-- Follow a chain of symbolic links starting at `p`, up to `fuel` hops,
returning the final path reached. -/
def resolveLink (fs : FS) : Nat → FPath → FPath
  | 0, p => p
  | fuel + 1, p =>
    match fs.find p with
    | some (.symlink q) => fs.resolveLink fuel q
    | _ => p

/-- The OS bound on symlink hops; beyond it the Python predicates report
`False` (`ELOOP` is swallowed by `Path.exists` and friends). -/
def hopBound : Nat := 40

/-- The node `stat` sees at `p` after following symlinks, if any. -/
def statNode (fs : FS) (p : FPath) : Option FNode :=
  match fs.find (fs.resolveLink hopBound p) with
  | some (.symlink _) => none
  | x => x

/-- Python `Path(p).exists()`: follows symlinks, `False` for a dangling link. -/
def existsP (fs : FS) (p : FPath) : Bool :=
  (fs.statNode p).isSome

/-- Python `Path(p).is_symlink()`: true iff the entry at `p` itself is a link. -/
def is_symlink (fs : FS) (p : FPath) : Bool :=
  match fs.find p with
  | some (.symlink _) => true
  | _ => false

/-- Python `Path(p).is_file()`: follows symlinks. -/
def is_file (fs : FS) (p : FPath) : Bool :=
  match fs.statNode p with
  | some (.file _) => true
  | _ => false

/-- Python `Path(p).is_dir()`: follows symlinks. -/
def is_dir (fs : FS) (p : FPath) : Bool :=
  match fs.statNode p with
  | some .dir => true
  | _ => false

/-- Python `shutil.copy2(src, dst)`: reads through symlinks at `src`, writes
through symlinks at `dst` (a dangling `dst` link receives the copy at its
referent path).  Call sites guarantee `src` resolves to a regular file. -/
def copy2 (fs : FS) (src dst : FPath) : FS :=
  let s := fs.resolveLink hopBound src
  let d := fs.resolveLink hopBound dst
  match fs.find s with
  | some (.file c) => fs.set d (.file c)
  | _ => fs

/-- The largest key length in the filesystem.  Any walk that only ever
descends into paths that exist as entries is no deeper than this; it is
the fuel `copyTree` runs its recursion with. -/
def maxKeyLen (fs : FS) : Nat :=
  fs.foldr (fun kv m => max kv.1.length m) 0

/-- The names `os.listdir p` returns: final segments of the entries
directly below `p`, each once. -/
def childNames (fs : FS) (p : FPath) : List String :=
  (fs.filterMap (fun kv =>
    if kv.1.length = p.length + 1 ∧ p <+: kv.1 then kv.1.getLast?
    else none)).dedup

/-- One child of `shutil.copytree(src, dst, symlinks=False)`'s walk: a
regular file is copied (`copy2`), a directory is recursed into, and a
symlinked child is dereferenced — a live link to a file is copied via
`copy2`, a live link to a directory is recursed into at its referent —
while a dangling (or looping) link fails the walk, as `copy2` raises
`FileNotFoundError` and `copytree` re-raises the collected errors.
`rec` is the continuation for subdirectories. -/
def ctStep (fs : FS) (src dst : FPath)
    (rec : FPath → FPath → FS → Option FS) (acc : FS) (name : String) :
    Option FS :=
  match fs.find (src ++ [name]) with
  | some (.file c) => some (acc.set (dst ++ [name]) (.file c))
  | some .dir =>
    rec (src ++ [name]) (dst ++ [name]) (acc.set (dst ++ [name]) .dir)
  | some (.symlink _) =>
    match fs.statNode (src ++ [name]) with
    | some (.file c) => some (acc.set (dst ++ [name]) (.file c))
    | some .dir =>
      rec (fs.resolveLink hopBound (src ++ [name])) (dst ++ [name])
        (acc.set (dst ++ [name]) .dir)
    | _ => none
  | none => some acc

/-- The recursive walk of `shutil.copytree(src, dst, symlinks=False)`.
It reads the directory tree from the snapshot `fs` and accumulates writes
into `acc` (the call sites keep `src` and `dst` disjoint, so the snapshot
view agrees with Python's incremental reads); `fuel` bounds the recursion
depth — Python dies with an `OSError` on symlink cycles, which the
exhausted-fuel failure models.  Python finishes the walk before raising
the collected errors, but every caller's error handler then
`shutil.rmtree`s the destination's root, discarding the partial copies,
so the failure result drops them. -/
def copyTreeRec (fs : FS) : Nat → FPath → FPath → FS → Option FS
  | 0, _, _, _ => none
  | fuel + 1, src, dst, acc =>
    (childNames fs src).foldlM
      (ctStep fs src dst (fun s d a => copyTreeRec fs fuel s d a)) acc

end FS

/-! ## Relative path computation

`_create_relative_path` appears twice in the sources, once in
`confguard/services.py` and once in `confguard/helper.py`.  Both compute
`os.path.relpath` between the parents and append a final name; they differ
in which final name they use.  An absolute path is modelled as its clean
list of segments (`Path(x).parent` is `dropLast`, `Path(x).name` is the
last segment, `""` for the root). -/

/-- Length of the longest common leading segment sequence of two paths
(`os.path.commonprefix` on segment lists, as used by `os.path.relpath`). -/
def commonLen : List String → List String → Nat
  | [], _ => 0
  | _, [] => 0
  | a :: as, b :: bs => if a = b then commonLen as bs + 1 else 0

/-- `os.path.relpath(path, start)` for absolute paths, as segments: one
`".."` per segment of `start` beyond the common part, then the rest of
`path`.  (Python returns `"."` for the empty result; `Path(".") / name`
then drops the `"."`, which the plain list concatenation models.) -/
def relpathSegs (path start : FPath) : List String :=
  let i := commonLen start path
  List.replicate (start.length - i) ".." ++ path.drop i

namespace Services

/-- `confguard/services.py::_create_relative_path`: relpath between the two
parents, then **`Path(source).name`** appended. -/
def _create_relative_path (source target : FPath) : List String :=
  relpathSegs target.dropLast source.dropLast ++ [source.getLastD ""]

end Services

namespace Helper

/-- `confguard/helper.py::_create_relative_path`: relpath between the two
parents, then **`Path(target).name`** appended (the module notes the
"Gotcha" that source and target names can differ). -/
def _create_relative_path (source target : FPath) : List String :=
  relpathSegs target.dropLast source.dropLast ++ [target.getLastD ""]

end Helper

/-- Modelled from the spec's words (§4.1): "`..` repeated for each remaining
segment of source's parent" beyond the longest common leading segment
sequence of the two parents, "+ (remaining segments of target's parent) +
(target's final name)".  Used only to compare against the implementations. -/
def specResolve (source target : FPath) : List String :=
  let i := commonLen source.dropLast target.dropLast
  List.replicate (source.dropLast.length - i) ".."
    ++ target.dropLast.drop i ++ [target.getLastD ""]

/-! ## Services layer (`confguard/services.py`) -/

/-- The error conditions of the transaction engine (the Python exceptions
raised by the services layer, plus the two precondition failures the CLI
reports with exit code 1). -/
inductive Err where
  | backupExists
  | backupNotDeleted
  | fileExists
  | rmtreeFailed
  | assertFailed
  | alreadyGuarded
  | notGuarded
  | copyFailed
deriving DecidableEq, Repr

/-- `environment.py::CONFGUARD_BKP_DIR`. -/
def CONFGUARD_BKP_DIR : String := ".confguard.bkp"

/-- `src.symlink_to(tgt)`: `FileExistsError` if anything (even a dangling
link) already sits at `src`, else create the link. -/
def FS.symlinkTo (fs : FS) (src tgt : FPath) : Except Err FS :=
  match fs.find src with
  | some _ => .error .fileExists
  | none => .ok (fs.set src (.symlink tgt))

/-- `shutil.copytree(src, dst, symlinks=False, dirs_exist_ok)`:
`os.makedirs(dst, exist_ok=dirs_exist_ok)` first — `FileExistsError` when
`dst` exists, unless `dirs_exist_ok` is set and `dst` resolves to a
directory, in which case the copies land at its resolution — then the
recursive dereferencing walk (`copyTreeRec`).  Any failure surfaces as
the `shutil.Error` (or `OSError`) the call sites let escape, modelled by
the single `copyFailed` error. -/
def FS.copyTree (fs : FS) (src dst : FPath) (dirs_exist_ok : Bool) :
    Except Err FS :=
  match fs.find dst with
  | none =>
    match fs.copyTreeRec (fs.maxKeyLen + 1) src dst (fs.mkdirP dst) with
    | some out => .ok out
    | none => .error .copyFailed
  | some _ =>
    if dirs_exist_ok && fs.is_dir dst then
      match fs.copyTreeRec (fs.maxKeyLen + 1) src
          (fs.resolveLink FS.hopBound dst) fs with
      | some out => .ok out
      | none => .error .copyFailed
    else .error .copyFailed

namespace Files

/-- The loop body of `Files.move_files` for one target `rel`. -/
def moveStep (source_dir target_dir : FPath) (fs : FS) (rel : FPath) : FS :=
  let tgt_path := target_dir ++ rel
  let src_path := source_dir ++ rel
  if fs.existsP src_path then
    let fs1 := if fs.existsP tgt_path.dropLast then fs
               else fs.mkdirP tgt_path.dropLast
    fs1.renameTree src_path tgt_path
  else fs

/-- `Files.move_files(source_dir, target_dir)`: create `target_dir`
(with parents, `exist_ok`), then for each target that exists (following
links) rename it from `source_dir` to `target_dir`, creating the
destination's parent chain when missing; non-existent targets are skipped. -/
def move_files (targets : List FPath) (source_dir target_dir : FPath)
    (fs : FS) : FS :=
  targets.foldl (moveStep source_dir target_dir) (fs.mkdirP target_dir)

/-- `Files.return_files(source_dir, target_dir)`: `move_files` in the
opposite direction, then `shutil.rmtree(target_dir)` — which removes the
directory and whatever is still inside it, and raises only when
`target_dir` is missing or not a directory. -/
def return_files (targets : List FPath) (source_dir target_dir : FPath)
    (fs : FS) : Except Err FS :=
  let fs1 := move_files targets target_dir source_dir fs
  match fs1.find target_dir with
  | some .dir => .ok (fs1.removeTree target_dir)
  | _ => .error .rmtreeFailed

/-- The loop body of `Files.create_bkp` for one target `rel`: a target
that exists and is not a symlink is copied (`copy2` for a file,
`copytree` for a directory, creating a file's missing backup parents
first); symlinked and missing targets are skipped with a warning.  A
`copytree` failure (e.g. a dangling symlink inside a directory target)
propagates out of the loop. -/
def bkpStep (source_dir bkp_dir : FPath) (fs : FS) (rel : FPath) :
    Except Err FS :=
  let bkp_path := bkp_dir ++ rel
  let src_path := source_dir ++ rel
  if fs.existsP src_path then
    if fs.is_symlink src_path then .ok fs
    else if fs.is_file src_path then
      let fs1 := if fs.existsP bkp_path.dropLast then fs
                 else fs.mkdirP bkp_path.dropLast
      .ok (fs1.copy2 src_path bkp_path)
    else if fs.is_dir src_path then fs.copyTree src_path bkp_path false
    else .ok fs
  else .ok fs

/-- `Files.create_bkp(source_dir, bkp_dir)`: `mkdir(parents=True,
exist_ok=False)` on `bkp_dir` (`BackupExistError` if it already exists),
then run `bkpStep` over the targets; the first failing step aborts the
loop and its exception escapes `create_bkp` (the CLI handlers then
`rmtree` the backup directory, discarding whatever partial backup the
aborted loop left in it). -/
def create_bkp (targets : List FPath) (source_dir bkp_dir : FPath)
    (fs : FS) : Except Err FS :=
  match fs.find bkp_dir with
  | some _ => .error .backupExists
  | none =>
    targets.foldlM (fun fs rel => bkpStep source_dir bkp_dir fs rel)
      (fs.mkdirP bkp_dir)

/-- `Files.restore_bkp(source_dir, bkp_dir)`: asserts the backup directory
exists; for each target present in the backup, a file is copied back unless
the destination exists (a destination that exists *and* is a symlink is
unlinked first), and a directory is merged back with `dirs_exist_ok=True`.
`home_dir` is the dataclass field `self.source_dir`, which the
parent-creation line uses instead of the `source_dir` argument.
This is the loop body for one target `rel`. -/
def restoreStep (source_dir bkp_dir home_dir : FPath) (fs : FS)
    (rel : FPath) : Except Err FS :=
  let bkp_path := bkp_dir ++ rel
  let src_path := source_dir ++ rel
  if fs.existsP bkp_path then
    if fs.is_file bkp_path then
      let fs1 := if fs.existsP (home_dir ++ rel).dropLast then fs
                 else fs.mkdirP (home_dir ++ rel).dropLast
      let fs2 := if fs1.existsP src_path && fs1.is_symlink src_path then
                   fs1.erase src_path
                 else fs1
      if fs2.existsP src_path then .ok fs2
      else .ok (fs2.copy2 bkp_path src_path)
    else if fs.is_dir bkp_path then fs.copyTree bkp_path src_path true
    else .ok fs
  else .ok fs

/-- `Files.restore_bkp(source_dir, bkp_dir)`: assert the backup directory
exists, then run `restoreStep` over the targets; a `copytree` failure
aborts the loop and escapes `restore_bkp`. -/
def restore_bkp (targets : List FPath) (source_dir bkp_dir home_dir : FPath)
    (fs : FS) : Except Err FS :=
  if fs.existsP bkp_dir then
    targets.foldlM (fun fs rel => restoreStep source_dir bkp_dir home_dir fs rel) fs
  else .error .assertFailed

/-- `Files.delete_dir(dir_)`: `shutil.rmtree`; `FileNotFoundError` is
swallowed, any other failure (the path is not a directory) becomes
`BackupNotDeleted`. -/
def delete_dir (dir_ : FPath) (fs : FS) : Except Err FS :=
  match fs.find dir_ with
  | none => .ok fs
  | some .dir => .ok (fs.removeTree dir_)
  | some _ => .error .backupNotDeleted

end Files

namespace Links

/-- `Links.create()` (absolute form, the one the CLI flow uses): for each
target, symlink `source_dir/target` to `target_dir/target`, failing if the
source location is occupied. -/
def create (targets : List FPath) (source_dir target_dir : FPath)
    (fs : FS) : Except Err FS :=
  targets.foldlM (fun fs rel =>
    fs.symlinkTo (source_dir ++ rel) (target_dir ++ rel)) fs

/-- The loop body of `Links.remove` for one target `rel`. -/
def removeStep (source_dir : FPath) (fs : FS) (rel : FPath) : FS :=
  let src_path := source_dir ++ rel
  if fs.existsP src_path then
    if fs.is_symlink src_path then fs.erase src_path else fs
  else fs

/-- `Links.remove()`: for each target, if `source_dir/target` exists
(following links!) and is a symlink, unlink it; anything else is skipped. -/
def remove (targets : List FPath) (source_dir : FPath) (fs : FS) : FS :=
  targets.foldl (removeStep source_dir) fs

/-- The back-link's file name, `.<sentinel>.confguard`. -/
def backName (sentinel : String) : String :=
  "." ++ sentinel ++ ".confguard"

/-- `Links.back_create()` (absolute form): symlink
`target_dir/.<sentinel>.confguard` to `source_dir`. -/
def back_create (source_dir target_dir : FPath) (sentinel : String)
    (fs : FS) : Except Err FS :=
  fs.symlinkTo (target_dir ++ [backName sentinel]) source_dir

/-- `Links.back_remove()`: unlink the back-link, `missing_ok=True`. -/
def back_remove (target_dir : FPath) (sentinel : String) (fs : FS) : FS :=
  fs.erase (target_dir ++ [backName sentinel])

end Links

/-! ## The transaction flows (`confguard/main.py`) -/

/-- The persisted project state: the filesystem plus the `_internal_`
sentinel recorded in the project's `.confguard` file. -/
structure PState where
  fs : FS
  sentinel : Option String
deriving DecidableEq, Repr

/-- Result of a CLI transaction: success, or failure with the error that
caused the non-zero exit. -/
inductive Outcome where
  | ok
  | err (e : Err)
deriving DecidableEq, Repr

/-- A `finally: files.delete_dir(bkp_dir)` clause: runs after the protected
block; if the deletion itself fails, its error replaces the outcome. -/
def finallyDelete (bkp_dir : FPath) (sentinel : Option String)
    (out : Outcome) (fs : FS) : PState × Outcome :=
  match Files.delete_dir bkp_dir fs with
  | .ok fs2 => (⟨fs2, sentinel⟩, out)
  | .error e2 => (⟨fs, sentinel⟩, .err e2)

/-- The `except` handler of `_guard`'s move/link block plus its `finally`:
remove forward links and back-link, restore the backup, delete the backup
directory.  The sentinel is *not* cleared on this path. -/
def guardRollback (targets : List FPath)
    (source_dir target_dir bkp_dir : FPath) (sent : String) (e : Err)
    (fs : FS) : PState × Outcome :=
  let fs1 := Links.remove targets source_dir fs
  let fs2 := Links.back_remove target_dir sent fs1
  match Files.restore_bkp targets source_dir bkp_dir source_dir fs2 with
  | .error e3 => finallyDelete bkp_dir (some sent) (.err e3) fs2
  | .ok fsR => finallyDelete bkp_dir (some sent) (.err e) fsR

/-- `main.py::_guard`, given the already-loaded configuration (`targets`),
the storage root (`confguard_path`) and the freshly allocated sentinel name
`sent` (project directory name plus random suffix). -/
def _guard (confguard_path : FPath) (targets : List FPath) (sent : String)
    (source_dir : FPath) (st : PState) : PState × Outcome :=
  match st.sentinel with
  | some _ => (st, .err .alreadyGuarded)
  | none =>
    let bkp_dir := source_dir ++ [CONFGUARD_BKP_DIR]
    let target_dir := confguard_path ++ [sent]
    match Files.create_bkp targets source_dir bkp_dir st.fs with
    | .error e =>
      match Files.delete_dir bkp_dir st.fs with
      | .ok fs2 => (⟨fs2, none⟩, .err e)
      | .error e2 => (⟨st.fs, some sent⟩, .err e2)
    | .ok fs1 =>
      let fs2 := Files.move_files targets source_dir target_dir fs1
      match Links.create targets source_dir target_dir fs2 with
      | .error e => guardRollback targets source_dir target_dir bkp_dir sent e fs2
      | .ok fs3 =>
        match Links.back_create source_dir target_dir sent fs3 with
        | .error e =>
          guardRollback targets source_dir target_dir bkp_dir sent e fs3
        | .ok fs4 => finallyDelete bkp_dir (some sent) .ok fs4

/-- The `except` handler of `_unguard`'s unlink/move block plus its
`finally`: restore the storage-side backup (note the argument swap:
`source_dir=target_dir`, while the parent-creation line still uses the
dataclass's `source_dir`), recreate forward links and back-link, delete the
backup directory.  The sentinel stays set on this path. -/
def unguardRollback (targets : List FPath)
    (source_dir target_dir bkp_dir : FPath) (sent : String) (e : Err)
    (fs : FS) : PState × Outcome :=
  match Files.restore_bkp targets target_dir bkp_dir source_dir fs with
  | .error e3 => finallyDelete bkp_dir (some sent) (.err e3) fs
  | .ok fsR =>
    match Links.create targets source_dir target_dir fsR with
    | .error e4 => finallyDelete bkp_dir (some sent) (.err e4) fsR
    | .ok fsL =>
      match Links.back_create source_dir target_dir sent fsL with
      | .error e4 => finallyDelete bkp_dir (some sent) (.err e4) fsL
      | .ok fsB => finallyDelete bkp_dir (some sent) (.err e) fsB

/-- `main.py::_unguard`, given the already-loaded configuration.  Note the
backup-failure handler: it deletes the partial backup **and removes the
sentinel** before exiting. -/
def _unguard (confguard_path : FPath) (targets : List FPath)
    (source_dir : FPath) (st : PState) : PState × Outcome :=
  match st.sentinel with
  | none => (st, .err .notGuarded)
  | some sent =>
    let target_dir := confguard_path ++ [sent]
    let bkp_dir := target_dir ++ [CONFGUARD_BKP_DIR]
    match Files.create_bkp targets target_dir bkp_dir st.fs with
    | .error e =>
      match Files.delete_dir bkp_dir st.fs with
      | .ok fs2 => (⟨fs2, none⟩, .err e)
      | .error e2 => (⟨st.fs, some sent⟩, .err e2)
    | .ok fs1 =>
      let fs2 := Links.remove targets source_dir fs1
      let fs3 := Links.back_remove target_dir sent fs2
      match Files.return_files targets source_dir target_dir fs3 with
      | .error e =>
        unguardRollback targets source_dir target_dir bkp_dir sent e fs3
      | .ok fs4 => finallyDelete bkp_dir none .ok fs4

/-! ## The `model.py` / `adapter.py` generation (for C4) -/

namespace Model

/-- `model.py::ConfGuard._move_files`: the per-target move loop, line for
line the same as `services.Files.move_files` without the initial `mkdir`. -/
def _move_files (targets : List FPath) (source_dir target_dir : FPath)
    (fs : FS) : FS :=
  targets.foldl (Files.moveStep source_dir target_dir) fs

/-- `model.py::ConfGuard.move_files`: `mkdir(parents=True, exist_ok=True)`
on `target_dir`, then `_move_files(source_dir, target_dir, targets)`. -/
def move_files (targets : List FPath) (source_dir target_dir : FPath)
    (fs : FS) : FS :=
  _move_files targets source_dir target_dir (fs.mkdirP target_dir)

/-- The machine-owned `_internal_` section of the `.confguard` file:
the sentinel and the base64-pickled `files` list. -/
structure TomlInternal where
  sentinel : String
  files : List FPath
deriving DecidableEq, Repr

/-- The `ConfGuard` aggregate fields that `TomlRepoConfGuard.add` reads. -/
structure ConfGuardAgg where
  targets : List FPath
  sentinel : Option String
deriving DecidableEq, Repr

/-- `adapter.py::TomlRepoConfGuard.add`: when the aggregate has a sentinel,
both the update branch and the new branch persist `confguard.sentinel` and
`serialize_to_base64(confguard.targets)` — the **configured targets list**
— as `files`; when the sentinel is `None` the `_internal_` table is
dropped. -/
def tomlRepoAdd (_internal_ : Option TomlInternal) (confguard : ConfGuardAgg) :
    Option TomlInternal :=
  match confguard.sentinel with
  | some s => some ⟨s, confguard.targets⟩
  | none => none

end Model

/-! ## Concrete worlds used by witnesses and counterexamples -/

/-- A small world: a project at `/home/proj` with a file target, a directory
target and a nested file target, and the storage root `/cg`. -/
def fsDemo : FS :=
  [([], .dir), (["home"], .dir), (["home", "proj"], .dir),
   (["home", "proj", ".envrc"], .file 1), (["home", "proj", ".run"], .dir),
   (["home", "proj", ".run", "cfg"], .file 2),
   (["home", "proj", "xxx"], .dir),
   (["home", "proj", "xxx", "xxx.txt"], .file 3), (["cg"], .dir)]

/-- The demo targets `.envrc`, `.run`, `xxx/xxx.txt`. -/
def demoTargets : List FPath := [[".envrc"], [".run"], ["xxx", "xxx.txt"]]

/-- A guarded world whose storage directory contains a stale backup dir. -/
def fsStale : FS :=
  [([], .dir), (["home"], .dir), (["home", "proj"], .dir),
   (["home", "proj", ".envrc"], .symlink ["cg", "s1", ".envrc"]),
   (["cg"], .dir), (["cg", "s1"], .dir), (["cg", "s1", ".envrc"], .file 1),
   (["cg", "s1", ".confguard.bkp"], .dir)]

/-- A storage directory holding a stored target plus a file that appeared
after guarding. -/
def fsLeftover : FS :=
  [([], .dir), (["home"], .dir), (["home", "proj"], .dir), (["cg"], .dir),
   (["cg", "s1"], .dir), (["cg", "s1", ".envrc"], .file 1),
   (["cg", "s1", "leftover.txt"], .file 9)]

/-- A project whose target path holds a dangling symlink. -/
def fsDangling : FS :=
  [([], .dir), (["home"], .dir), (["home", "proj"], .dir),
   (["home", "proj", ".envrc"], .symlink ["gone"])]

/-- A backup with a file entry whose restore destination is a dangling
symlink. -/
def fsBkpDangling : FS :=
  [([], .dir), (["home"], .dir), (["home", "proj"], .dir),
   (["home", "proj", ".envrc"], .symlink ["zz"]),
   (["home", "proj", ".confguard.bkp"], .dir),
   (["home", "proj", ".confguard.bkp", ".envrc"], .file 5)]

/-- A project whose directory target `.run` contains a dangling symlink:
`shutil.copytree` on it raises, so both `create_bkp` and the whole guard
transaction abort even though the backup directory is free. -/
def fsDirDangling : FS :=
  [([], .dir), (["home"], .dir), (["home", "proj"], .dir),
   (["home", "proj", ".run"], .dir),
   (["home", "proj", ".run", "cfg"], .symlink ["gone"]),
   (["cg"], .dir)]

/-- A project where target `a` exists on disk and target `b` does not. -/
def fsPartial : FS :=
  [([], .dir), (["home"], .dir), (["home", "proj"], .dir),
   (["home", "proj", "a"], .file 1), (["cg"], .dir)]

/-- A path currently holding a *live* symlink: the Python tests
`src_path.exists() and src_path.is_symlink()` both succeed, which is the
exact condition under which `Links.remove` unlinks the path. -/
def Live (fs : FS) (p : FPath) : Prop :=
  fs.existsP p = true ∧ fs.is_symlink p = true

/-- A lookup result that is a plain node — a regular file or a directory,
not a symlink and not missing.  Used to state decidable target hypotheses
on concrete worlds. -/
def plainNode : Option FNode → Bool
  | some (.file _) => true
  | some .dir => true
  | _ => false

/-- Whether a node is a symbolic link.  Used to state decidable
no-symlinks-inside-the-subtree hypotheses on concrete worlds. -/
def FNode.isLink : FNode → Bool
  | .symlink _ => true
  | _ => false

/-! ## Characterisation lemmas for the filesystem primitives -/

namespace FS

theorem find_eq_none (fs : FS) (q : FPath) (h : ∀ kv ∈ fs, kv.1 ≠ q) :
    fs.find q = none := by
  induction fs with
  | nil => rfl
  | cons kv rest ih =>
    rw [find, if_neg (h kv (List.mem_cons_self kv rest))]
    exact ih (fun kv' hm => h kv' (List.mem_cons_of_mem kv hm))

theorem find_erase (fs : FS) (p q : FPath) :
    (fs.erase p).find q = if q = p then none else fs.find q := by
  induction fs with
  | nil => simp [erase, find]
  | cons kv rest ih =>
    by_cases h1 : kv.1 = p <;> by_cases h2 : q = p
    · subst h2
      simp [erase, find, h1, ih]
    · have hkq : ¬ kv.1 = q := fun hc => h2 (hc ▸ h1)
      have hpq : ¬ p = q := fun hc => h2 hc.symm
      simp [erase, find, h1, h2, hkq, hpq, ih]
    · subst h2
      simp [erase, find, h1, ih]
    · simp [erase, find, h1, h2, ih]

theorem find_set (fs : FS) (p q : FPath) (n : FNode) :
    (fs.set p n).find q = if q = p then some n else fs.find q := by
  by_cases h : q = p
  · subst h
    simp [set, find, find_erase]
  · have hpq : ¬ p = q := fun hc => h hc.symm
    simp [set, find, find_erase, h, hpq]

theorem find_removeTree (fs : FS) (p q : FPath) :
    (fs.removeTree p).find q = if p <+: q then none else fs.find q := by
  induction fs with
  | nil => simp [removeTree, find]
  | cons kv rest ih =>
    by_cases h1 : p <+: kv.1 <;> by_cases h2 : kv.1 = q
    · have hpq : p <+: q := h2 ▸ h1
      simp [removeTree, find, h1, h2, hpq, ih]
    · simp [removeTree, find, h1, h2, ih]
    · have hpq : ¬ p <+: q := fun hc => h1 (h2.symm ▸ hc)
      simp [removeTree, find, h1, h2, hpq, ih]
    · simp [removeTree, find, h1, h2, ih]

theorem find_moveKeys (src tgt t : FPath) (fs : FS) :
    (moveKeys src tgt fs).find (tgt ++ t) = fs.find (src ++ t) := by
  induction fs with
  | nil => simp [moveKeys, find]
  | cons kv rest ih =>
    obtain ⟨k, n⟩ := kv
    by_cases h1 : src <+: k
    · obtain ⟨s, hs⟩ := h1
      subst hs
      rw [moveKeys, if_pos ⟨s, rfl⟩]
      simp only [find, List.drop_left]
      by_cases h2 : s = t
      · subst h2
        simp
      · rw [if_neg (fun hc => h2 (List.append_cancel_left hc)),
          if_neg (fun hc => h2 (List.append_cancel_left hc)), ih]
    · rw [moveKeys, if_neg h1, find,
        if_neg (fun hc : k = src ++ t => h1 ⟨t, hc.symm⟩), ih]

theorem find_moveKeys_none (src tgt : FPath) (fs : FS) (q : FPath)
    (h : ¬ tgt <+: q) : (moveKeys src tgt fs).find q = none := by
  induction fs with
  | nil => rfl
  | cons kv rest ih =>
    by_cases h1 : src <+: kv.1
    · rw [moveKeys, if_pos h1, find,
        if_neg (fun hc : tgt ++ kv.1.drop src.length = q =>
          h ⟨kv.1.drop src.length, hc⟩), ih]
    · rw [moveKeys, if_neg h1, ih]

theorem find_append_some (a b : FS) (q : FPath) (n : FNode)
    (h : a.find q = some n) : FS.find (a ++ b) q = some n := by
  induction a with
  | nil => exact absurd h (by simp [find])
  | cons kv rest ih =>
    rw [find] at h
    rw [List.cons_append, find]
    by_cases h1 : kv.1 = q
    · rw [if_pos h1] at h ⊢; exact h
    · rw [if_neg h1] at h ⊢; exact ih h

theorem find_append_none (a b : FS) (q : FPath) (h : a.find q = none) :
    FS.find (a ++ b) q = b.find q := by
  induction a with
  | nil => rfl
  | cons kv rest ih =>
    rw [find] at h
    rw [List.cons_append, find]
    by_cases h1 : kv.1 = q
    · rw [if_pos h1] at h; exact absurd h (by simp)
    · rw [if_neg h1] at h ⊢; exact ih h

/-- The general description of `renameTree`, valid when the lookup view of
the destination subtree is empty. -/
theorem find_renameTree (fs : FS) (src tgt q : FPath)
    (hfresh : ∀ q', tgt <+: q' → fs.find q' = none) :
    (fs.renameTree src tgt).find q =
      if tgt <+: q then fs.find (src ++ q.drop tgt.length)
      else if src <+: q then none else fs.find q := by
  rw [renameTree]
  by_cases h : tgt <+: q
  · obtain ⟨t, rfl⟩ := h
    rw [if_pos ⟨t, rfl⟩, List.drop_left]
    cases hf : fs.find (src ++ t) with
    | some n =>
      exact find_append_some _ _ _ _ ((find_moveKeys src tgt t fs).trans hf)
    | none =>
      rw [find_append_none _ _ _ ((find_moveKeys src tgt t fs).trans hf),
        find_removeTree]
      have hq : fs.find (tgt ++ t) = none := hfresh _ ⟨t, rfl⟩
      by_cases h2 : src <+: tgt ++ t
      · rw [if_pos h2]
      · rw [if_neg h2, hq]
  · rw [if_neg h, find_append_none _ _ _ (find_moveKeys_none src tgt fs q h),
      find_removeTree]

theorem mem_parts (p q : FPath) : q ∈ parts p ↔ q <+: p := by
  rw [parts]
  simp only [List.mem_map, List.mem_range]
  constructor
  · rintro ⟨i, _, rfl⟩
    exact List.take_prefix i p
  · intro h
    exact ⟨q.length, Nat.lt_succ_of_le h.length_le,
      (List.prefix_iff_eq_take.mp h).symm⟩

theorem find_mkdirFold (L : List FPath) (fs : FS) (q : FPath) :
    (L.foldl
        (fun fs q => if (fs.find q).isSome then fs else fs.set q .dir)
        fs).find q
      = if q ∈ L ∧ fs.find q = none then some .dir else fs.find q := by
  induction L generalizing fs with
  | nil => simp
  | cons a L ih =>
    rw [List.foldl_cons]
    by_cases h2 : q = a
    · subst h2
      by_cases h1 : (fs.find q).isSome
      · obtain ⟨n, hn⟩ := Option.isSome_iff_exists.mp h1
        rw [if_pos h1, ih]
        simp [hn]
      · have hnone := Option.not_isSome_iff_eq_none.mp h1
        rw [if_neg h1, ih]
        simp [find_set, hnone]
    · by_cases h1 : (fs.find a).isSome
      · rw [if_pos h1, ih]
        simp [List.mem_cons, h2]
      · rw [if_neg h1, ih]
        simp [find_set, List.mem_cons, h2]

theorem find_mkdirP (fs : FS) (p q : FPath) :
    (fs.mkdirP p).find q =
      if q <+: p ∧ fs.find q = none then some .dir else fs.find q := by
  rw [mkdirP, find_mkdirFold]
  simp only [mem_parts]

theorem resolveLink_no_link (fs : FS) (p : FPath)
    (h : ∀ r, fs.find p ≠ some (.symlink r)) :
    ∀ fuel, fs.resolveLink fuel p = p := by
  intro fuel
  cases fuel with
  | zero => rfl
  | succ fuel =>
    rw [resolveLink]
    cases hf : fs.find p with
    | none => rfl
    | some n =>
      cases n with
      | file c => rfl
      | dir => rfl
      | symlink r => exact absurd hf (h r)

theorem resolveLink_link (fs : FS) (p r : FPath) (fuel : Nat)
    (h : fs.find p = some (.symlink r)) :
    fs.resolveLink (fuel + 1) p = fs.resolveLink fuel r := by
  rw [resolveLink, h]

theorem statNode_no_link (fs : FS) (p : FPath)
    (h : ∀ r, fs.find p ≠ some (.symlink r)) : fs.statNode p = fs.find p := by
  rw [statNode, resolveLink_no_link fs p h hopBound]
  cases hf : fs.find p with
  | none => rfl
  | some n =>
    cases n with
    | file c => rfl
    | dir => rfl
    | symlink r => exact absurd hf (h r)

theorem statNode_file (fs : FS) (p : FPath) (c : Nat)
    (h : fs.find p = some (.file c)) : fs.statNode p = some (.file c) := by
  rw [statNode_no_link fs p (fun r hr => by rw [h] at hr; cases hr), h]

theorem statNode_dir (fs : FS) (p : FPath) (h : fs.find p = some .dir) :
    fs.statNode p = some .dir := by
  rw [statNode_no_link fs p (fun r hr => by rw [h] at hr; cases hr), h]

theorem statNode_none (fs : FS) (p : FPath) (h : fs.find p = none) :
    fs.statNode p = none := by
  rw [statNode_no_link fs p (fun r hr => by rw [h] at hr; cases hr), h]

theorem statNode_one_link (fs : FS) (p r : FPath)
    (h : fs.find p = some (.symlink r))
    (h2 : ∀ s, fs.find r ≠ some (.symlink s)) :
    fs.statNode p = fs.find r := by
  have h40 : hopBound = 39 + 1 := rfl
  rw [statNode, h40, resolveLink_link fs p r 39 h,
    resolveLink_no_link fs r h2 39]
  cases hf : fs.find r with
  | none => rfl
  | some n =>
    cases n with
    | file c => rfl
    | dir => rfl
    | symlink s => exact absurd hf (h2 s)

theorem existsP_file (fs : FS) (p : FPath) (c : Nat)
    (h : fs.find p = some (.file c)) : fs.existsP p = true := by
  rw [existsP, statNode_file fs p c h]; rfl

theorem existsP_dir (fs : FS) (p : FPath) (h : fs.find p = some .dir) :
    fs.existsP p = true := by
  rw [existsP, statNode_dir fs p h]; rfl

theorem existsP_none (fs : FS) (p : FPath) (h : fs.find p = none) :
    fs.existsP p = false := by
  rw [existsP, statNode_none fs p h]; rfl

theorem is_symlink_of_link (fs : FS) (p r : FPath)
    (h : fs.find p = some (.symlink r)) : fs.is_symlink p = true := by
  rw [is_symlink, h]

theorem is_symlink_of_no_link (fs : FS) (p : FPath)
    (h : ∀ r, fs.find p ≠ some (.symlink r)) : fs.is_symlink p = false := by
  rw [is_symlink]
  cases hf : fs.find p with
  | none => rfl
  | some n =>
    cases n with
    | file c => rfl
    | dir => rfl
    | symlink r => exact absurd hf (h r)

theorem is_file_of_file (fs : FS) (p : FPath) (c : Nat)
    (h : fs.find p = some (.file c)) : fs.is_file p = true := by
  rw [is_file, statNode_file fs p c h]

theorem is_dir_of_dir (fs : FS) (p : FPath) (h : fs.find p = some .dir) :
    fs.is_dir p = true := by
  rw [is_dir, statNode_dir fs p h]

theorem is_file_of_dir (fs : FS) (p : FPath) (h : fs.find p = some .dir) :
    fs.is_file p = false := by
  rw [is_file, statNode_dir fs p h]

end FS

/-- C9 counterexample: on `source = /a/s`, `target = /a/t` the
`services.py` implementation returns `s` (the **source**'s final name)
while the spec's algorithm yields `t` (the target's final name), so the
claim is false as stated for the `services.py` implementation. -/
theorem c9_counterexample :
    Services._create_relative_path ["a", "s"] ["a", "t"] ≠
      specResolve ["a", "s"] ["a", "t"] := by
  decide

/-- C9 (amended): the `helper.py` implementation computes exactly the
spec's formula (`..` per remaining source-parent segment, remaining
target-parent segments, target's final name); the `services.py`
implementation computes the same formula except that it ends with the
**source**'s final name instead of the target's. -/
theorem c9_relative_path_resolver (source target : FPath) :
    Helper._create_relative_path source target = specResolve source target ∧
    Services._create_relative_path source target =
      List.replicate
          (source.dropLast.length - commonLen source.dropLast target.dropLast)
          ".."
        ++ target.dropLast.drop (commonLen source.dropLast target.dropLast)
        ++ [source.getLastD ""] := by
  unfold Helper._create_relative_path Services._create_relative_path
    specResolve relpathSegs
  exact ⟨by simp, by simp⟩

/-- C10 counterexample: on `source = /a/s`, `target = /a/t` the two
implementations of `_create_relative_path` disagree (`helper.py` gives
`t`, `services.py` gives `s`), so they are not equal on every pair. -/
theorem c10_counterexample :
    Helper._create_relative_path ["a", "s"] ["a", "t"] ≠
      Services._create_relative_path ["a", "s"] ["a", "t"] := by
  decide

/-- C10 (amended): the two implementations of `_create_relative_path`
return equal results **exactly** on the pairs whose final names coincide
(which includes every call the link-creation code makes, since both sides
there end in the same relative target path). -/
theorem c10_implementations_agree (source target : FPath) :
    (Helper._create_relative_path source target =
      Services._create_relative_path source target)
    ↔ source.getLastD "" = target.getLastD "" := by
  constructor
  · intro h
    unfold Helper._create_relative_path Services._create_relative_path at h
    have h2 : [target.getLastD ""] = [source.getLastD ""] :=
      List.append_cancel_left h
    exact (List.cons.inj h2).1.symm
  · intro h
    unfold Helper._create_relative_path Services._create_relative_path
    rw [h]

/-- C10 witness: the implementations agree on the repository's own test
vector, whose source and target both end in `.envrc`. -/
theorem c10_implementations_agree_witness :
    Helper._create_relative_path ["c", "b", "a", "xxx", ".envrc"]
        ["c", "y", "xxx-123", ".envrc"] =
      Services._create_relative_path ["c", "b", "a", "xxx", ".envrc"]
        ["c", "y", "xxx-123", ".envrc"] :=
  (c10_implementations_agree ["c", "b", "a", "xxx", ".envrc"]
    ["c", "y", "xxx-123", ".envrc"]).mpr (by decide)

/-- C5: calling guard on an already-guarded project (sentinel set) fails
with the already-guarded precondition error and returns the state
unchanged: no file is moved, copied, linked or deleted. -/
theorem c5_double_guard_rejection (confguard_path : FPath)
    (targets : List FPath) (sent s : String) (source_dir : FPath)
    (st : PState) (h : st.sentinel = some s) :
    _guard confguard_path targets sent source_dir st =
      (st, .err .alreadyGuarded) := by
  unfold _guard
  rw [h]

/-- C5 witness: a concrete already-guarded project. -/
theorem c5_double_guard_rejection_witness :
    _guard ["cg"] demoTargets "proj-xyz" ["home", "proj"]
        ⟨fsDemo, some "s1"⟩ =
      (⟨fsDemo, some "s1"⟩, .err .alreadyGuarded) :=
  c5_double_guard_rejection ["cg"] demoTargets "proj-xyz" "s1"
    ["home", "proj"] ⟨fsDemo, some "s1"⟩ rfl

/-- C2 counterexample: unguarding a guarded project whose storage already
contains a backup directory makes `create_bkp` fail, and the handler then
**clears** the sentinel (`Sentinel(source_dir=source_dir).remove()`), so
after the aborted unguard the project is recorded as unguarded — the claim
says the sentinel remains set. -/
theorem c2_counterexample :
    (_unguard ["cg"] [[".envrc"]] ["home", "proj"]
        ⟨fsStale, some "s1"⟩).1.sentinel = none
  ∧ (_unguard ["cg"] [[".envrc"]] ["home", "proj"]
        ⟨fsStale, some "s1"⟩).2 = .err .backupExists :=
  ⟨rfl, rfl⟩

/-- C2 (amended): if unguard's backup step fails because the backup
directory already exists, the transaction aborts with only that directory
deleted — everything outside it is untouched — but the sentinel is
**removed**, so the project is recorded as unguarded even though its files
are still in storage. -/
theorem c2_unguard_backup_failure (confguard_path : FPath)
    (targets : List FPath) (source_dir : FPath) (fs : FS) (s : String)
    (hbkp : fs.find (confguard_path ++ [s] ++ [CONFGUARD_BKP_DIR])
        = some .dir) :
    _unguard confguard_path targets source_dir ⟨fs, some s⟩ =
      (⟨fs.removeTree (confguard_path ++ [s] ++ [CONFGUARD_BKP_DIR]), none⟩,
        .err .backupExists)
  ∧ ∀ q, ¬ (confguard_path ++ [s] ++ [CONFGUARD_BKP_DIR]) <+: q →
      (fs.removeTree
          (confguard_path ++ [s] ++ [CONFGUARD_BKP_DIR])).find q
        = fs.find q := by
  constructor
  · simp only [_unguard, Files.create_bkp, Files.delete_dir, hbkp]
  · intro q hq
    rw [FS.find_removeTree, if_neg hq]

/-- C2 witness: the amended behaviour on a concrete guarded project with a
stale backup directory. -/
theorem c2_unguard_backup_failure_witness :
    _unguard ["cg"] [[".envrc"]] ["home", "proj"] ⟨fsStale, some "s1"⟩ =
      (⟨fsStale.removeTree (["cg"] ++ ["s1"] ++ [CONFGUARD_BKP_DIR]), none⟩,
        .err .backupExists)
  ∧ ∀ q, ¬ (["cg"] ++ ["s1"] ++ [CONFGUARD_BKP_DIR]) <+: q →
      (fsStale.removeTree
          (["cg"] ++ ["s1"] ++ [CONFGUARD_BKP_DIR])).find q
        = fsStale.find q :=
  c2_unguard_backup_failure ["cg"] [[".envrc"]] ["home", "proj"] fsStale
    "s1" rfl

/-- C3 counterexample: a file (`leftover.txt`) is still inside the storage
directory after the reverse move, yet `return_files` **succeeds** and the
directory — leftover included — is silently deleted, where the claim says
the removal happens only for an empty directory and otherwise fails
loudly. -/
theorem c3_counterexample :
    fsLeftover.find ["cg", "s1", "leftover.txt"] = some (.file 9)
  ∧ (Files.return_files [[".envrc"]] ["home", "proj"] ["cg", "s1"]
        fsLeftover).toOption.map
      (fun fs => (fs.find ["cg", "s1", "leftover.txt"],
        fs.find ["cg", "s1"], fs.find ["home", "proj", ".envrc"]))
      = some (none, none, some (.file 1)) :=
  ⟨rfl, rfl⟩

/-- C3 (amended): after the reverse move, `return_files` removes `fromDir`
**unconditionally and recursively** (`shutil.rmtree`) whenever it is a
directory — empty or not — so any remaining file is deleted along with it
and no error is raised; the whole subtree is gone afterwards. -/
theorem c3_move_back_removes_unconditionally (targets : List FPath)
    (source_dir target_dir : FPath) (fs : FS)
    (hdir : (Files.move_files targets target_dir source_dir fs).find
        target_dir = some .dir) :
    Files.return_files targets source_dir target_dir fs =
      .ok ((Files.move_files targets target_dir source_dir fs).removeTree
        target_dir)
  ∧ ∀ q, target_dir <+: q →
      ((Files.move_files targets target_dir source_dir fs).removeTree
          target_dir).find q = none := by
  constructor
  · simp only [Files.return_files, hdir]
  · intro q hq
    rw [FS.find_removeTree, if_pos hq]

/-! ## Path-algebra helpers -/

theorem not_append_pre_self (B a : FPath) (h : a ≠ []) :
    ¬ B ++ a <+: B := by
  intro hc
  have h1 := hc.length_le
  rw [List.length_append] at h1
  have h2 : a.length = 0 := by omega
  exact h (List.length_eq_zero.mp h2)

theorem not_pre_dropLast_self (p : FPath) (h : p ≠ []) :
    ¬ p <+: p.dropLast := by
  intro hc
  have h1 := hc.length_le
  rw [List.length_dropLast] at h1
  have h2 : 0 < p.length := List.length_pos.mpr h
  omega

theorem append_ne_nil_of_right (B a : FPath) (h : a ≠ []) : B ++ a ≠ [] := by
  intro hc
  rcases List.append_eq_nil.mp hc with ⟨_, h2⟩
  exact h h2

theorem pre_append_iff (A x y : FPath) : A ++ x <+: A ++ y ↔ x <+: y :=
  List.prefix_append_right_inj A

theorem pre_of_pre_concat (q l : FPath) (x : String)
    (h : q <+: l ++ [x]) (hne : q ≠ l ++ [x]) : q <+: l := by
  have hlen := h.length_le
  rw [List.length_append, List.length_singleton] at hlen
  have hlt : q.length ≤ l.length := by
    rcases Nat.lt_or_ge q.length (l.length + 1) with h1 | h2
    · omega
    · exact absurd (h.eq_of_length (by
        have := h.length_le
        rw [List.length_append, List.length_singleton] at this ⊢
        omega)) hne
  have ht := List.prefix_iff_eq_take.mp h
  rw [List.take_append_of_le_length hlt] at ht
  rw [ht]
  exact List.take_prefix q.length l

theorem pre_singleton (rel : FPath) (x : String) (h : rel <+: [x])
    (hne : rel ≠ []) : rel = [x] := by
  refine h.eq_of_length ?_
  have h1 := h.length_le
  have h2 : 0 < rel.length := List.length_pos.mpr hne
  rw [List.length_singleton] at h1 ⊢
  omega

theorem pre_of_eq {x y : FPath} (h : x = y) : x <+: y :=
  ⟨[], by simp [h]⟩

theorem ne_append_singleton (p : FPath) (x : String) : p ≠ p ++ [x] := by
  intro he
  have hl := congrArg List.length he
  rw [List.length_append, List.length_singleton] at hl
  omega

theorem pairwise_non_pre (ts : List FPath)
    (Hpf : List.Pairwise (fun r1 r2 => ¬ r1 <+: r2 ∧ ¬ r2 <+: r1) ts) :
    ∀ r1 ∈ ts, ∀ r2 ∈ ts, r1 ≠ r2 → ¬ r1 <+: r2 := by
  induction ts with
  | nil => intro r1 h1; exact absurd h1 (List.not_mem_nil r1)
  | cons a ts ih =>
    obtain ⟨HRa, Hpf'⟩ := List.pairwise_cons.mp Hpf
    intro r1 h1 r2 h2 hne
    rcases List.mem_cons.mp h1 with rfl | h1'
    · rcases List.mem_cons.mp h2 with rfl | h2'
      · exact absurd rfl hne
      · exact (HRa r2 h2').1
    · rcases List.mem_cons.mp h2 with rfl | h2'
      · exact fun hc => (HRa r1 h1').2 hc
      · exact ih Hpf' r1 h1' r2 h2' hne

theorem pairwise_ne_of_non_pre (ts : List FPath)
    (Hpf : List.Pairwise (fun r1 r2 => ¬ r1 <+: r2 ∧ ¬ r2 <+: r1) ts) :
    List.Pairwise (fun r1 r2 => r1 ≠ r2) ts := by
  refine Hpf.imp ?_
  intro a b h he
  subst he
  exact h.1 List.prefix_rfl

theorem plainNode_cases (o : Option FNode) (h : plainNode o = true) :
    (∃ c, o = some (.file c)) ∨ o = some .dir := by
  match o with
  | some (.file c) => exact Or.inl ⟨c, rfl⟩
  | some .dir => exact Or.inr rfl
  | some (.symlink _) => exact absurd h (by simp [plainNode])
  | none => exact absurd h (by simp [plainNode])

/-! ## The effect of one `move_files` step -/

theorem moveStep_spec (A B a : FPath) (g : FS)
    (Hane : a ≠ [])
    (HgB : g.find B = some .dir)
    (HBparts : ∀ q, q <+: B → (g.find q).isSome = true)
    (Hnode : g.find (A ++ a) = none
      ∨ (∃ c, g.find (A ++ a) = some (.file c))
      ∨ g.find (A ++ a) = some .dir)
    (Hdst : ∀ q, (B ++ a) <+: q → g.find q = none)
    (HAB1 : ¬ (A ++ a) <+: B) (HAB2 : ¬ B <+: (A ++ a)) :
    (∀ q, ¬ B <+: q → ¬ (A ++ a) <+: q →
        (Files.moveStep A B g a).find q = g.find q)
  ∧ (Files.moveStep A B g a).find B = some .dir
  ∧ (∀ q, B <+: q → ¬ (B ++ a) <+: q → ¬ q <+: (B ++ a).dropLast →
        (Files.moveStep A B g a).find q = g.find q)
  ∧ ((g.find (A ++ a)).isSome = true →
      (∀ rest, (Files.moveStep A B g a).find ((B ++ a) ++ rest)
          = g.find ((A ++ a) ++ rest))
      ∧ (∀ rest, (Files.moveStep A B g a).find ((A ++ a) ++ rest) = none))
  ∧ (g.find (A ++ a) = none → Files.moveStep A B g a = g) := by
  have hBBa : B <+: B ++ a := List.prefix_append B a
  have hBane : B ++ a ≠ [] := append_ne_nil_of_right B a Hane
  rcases Hnode with hnone | hsome
  · -- the target does not exist: the step is skipped
    have hid : Files.moveStep A B g a = g := by
      rw [Files.moveStep]
      simp [FS.existsP_none g (A ++ a) hnone]
    refine ⟨fun q _ _ => by rw [hid], by rw [hid, HgB],
      fun q _ _ _ => by rw [hid], fun hs => ?_, fun _ => hid⟩
    rw [hnone] at hs
    cases hs
  · -- the target exists as a regular file or directory: it is renamed
    have hex : g.existsP (A ++ a) = true := by
      rcases hsome with ⟨c, hc⟩ | hd
      · exact FS.existsP_file g _ c hc
      · exact FS.existsP_dir g _ hd
    have hform : Files.moveStep A B g a =
        (if g.existsP ((B ++ a).dropLast) = true then g
         else g.mkdirP ((B ++ a).dropLast)).renameTree (A ++ a) (B ++ a) := by
      rw [Files.moveStep]
      simp only [hex, if_true]
    set gm := (if g.existsP ((B ++ a).dropLast) = true then g
      else g.mkdirP ((B ++ a).dropLast)) with hgm
    have hm1 : ∀ q, ¬ q <+: (B ++ a).dropLast → gm.find q = g.find q := by
      intro q hq
      rw [hgm]
      by_cases hE : g.existsP ((B ++ a).dropLast) = true
      · rw [if_pos hE]
      · rw [if_neg hE, FS.find_mkdirP,
          if_neg (fun hc => hq hc.1)]
    have hm2 : ∀ q, (g.find q).isSome = true → gm.find q = g.find q := by
      intro q hq
      rw [hgm]
      by_cases hE : g.existsP ((B ++ a).dropLast) = true
      · rw [if_pos hE]
      · rw [if_neg hE, FS.find_mkdirP,
          if_neg (fun hc => by rw [hc.2] at hq; cases hq)]
    have hm3 : ∀ q', (B ++ a) <+: q' → gm.find q' = none := by
      intro q' hq'
      have hnE : ¬ q' <+: (B ++ a).dropLast := fun hc =>
        not_pre_dropLast_self (B ++ a) hBane (hq'.trans hc)
      rw [hm1 q' hnE]
      exact Hdst q' hq'
    have hchar : ∀ q, (Files.moveStep A B g a).find q =
        if (B ++ a) <+: q then gm.find ((A ++ a) ++ q.drop (B ++ a).length)
        else if (A ++ a) <+: q then none else gm.find q := by
      intro q
      rw [hform, FS.find_renameTree gm (A ++ a) (B ++ a) q hm3]
    have hBE : B <+: (B ++ a).dropLast := by
      rw [List.dropLast_append_of_ne_nil B Hane]
      exact List.prefix_append B a.dropLast
    refine ⟨?_, ?_, ?_, fun _ => ⟨?_, ?_⟩, fun hn => ?_⟩
    · -- locality outside the storage region and the moved subtree
      intro q hqB hqA
      rw [hchar q, if_neg (fun hc => hqB (hBBa.trans hc)), if_neg hqA]
      by_cases hqE : q <+: (B ++ a).dropLast
      · rcases List.prefix_or_prefix_of_prefix hqE hBE with hqB' | hBq
        · exact hm2 q (HBparts q hqB')
        · exact absurd hBq hqB
      · exact hm1 q hqE
    · -- the storage directory itself remains a directory
      rw [hchar B, if_neg (not_append_pre_self B a Hane), if_neg HAB1,
        hm2 B (by rw [HgB]; rfl), HgB]
    · -- storage-region paths away from this target and its parent chain
      intro q hqB hqBa hqE
      rw [hchar q, if_neg hqBa]
      have hqA : ¬ (A ++ a) <+: q := by
        intro hc
        rcases List.prefix_or_prefix_of_prefix hc hqB with h1 | h2
        · exact HAB1 h1
        · exact HAB2 h2
      rw [if_neg hqA]
      exact hm1 q hqE
    · -- the moved subtree appears under the storage directory
      intro rest
      rw [hchar ((B ++ a) ++ rest), if_pos (List.prefix_append (B ++ a) rest),
        List.drop_left]
      apply hm1
      intro hc
      have hA : (A ++ a) <+: (B ++ a).dropLast :=
        (List.prefix_append (A ++ a) rest).trans hc
      rcases List.prefix_or_prefix_of_prefix hA hBE with h1 | h2
      · exact HAB1 h1
      · exact HAB2 h2
    · -- the vacated source subtree
      intro rest
      have hnBa : ¬ (B ++ a) <+: (A ++ a) ++ rest := by
        intro hc
        rcases List.prefix_or_prefix_of_prefix (hBBa.trans hc)
          (List.prefix_append (A ++ a) rest) with h1 | h2
        · exact HAB2 h1
        · exact HAB1 h2
      rw [hchar ((A ++ a) ++ rest), if_neg hnBa,
        if_pos (List.prefix_append (A ++ a) rest)]
    · rcases hsome with ⟨c, hc⟩ | hd
      · rw [hn] at hc
        cases hc
      · rw [hn] at hd
        cases hd

/-- Two relocated targets with incomparable relative paths can never both
be an ancestor of the same path. -/
theorem no_common_extension (A a rel q : FPath) (h1 : A ++ a <+: q)
    (h2 : A ++ rel <+: q) (hR : ¬ a <+: rel ∧ ¬ rel <+: a) : False := by
  rcases List.prefix_or_prefix_of_prefix h1 h2 with h | h
  · exact hR.1 ((pre_append_iff A a rel).mp h)
  · exact hR.2 ((pre_append_iff A rel a).mp h)

/-- A base directory and a disjoint relocated target can never both be an
ancestor of the same path. -/
theorem no_common_extension_base (B Ar q : FPath) (h1 : B <+: q)
    (h2 : Ar <+: q) (hA1 : ¬ Ar <+: B) (hA2 : ¬ B <+: Ar) : False := by
  rcases List.prefix_or_prefix_of_prefix h2 h1 with h | h
  · exact hA1 h
  · exact hA2 h

/-- A path below `B ++ a` is never on the parent chain of `B ++ rel` when
`a` is not a leading part of `rel`. -/
theorem no_chain_overlap (B a rel q : FPath) (h1 : B ++ a <+: q)
    (h2 : q <+: (B ++ rel).dropLast) (har : ¬ a <+: rel) : False := by
  have h3 : B ++ a <+: B ++ rel :=
    (h1.trans h2).trans (List.dropLast_prefix (B ++ rel))
  exact har ((pre_append_iff B a rel).mp h3)

/-! ## The effect of the whole `move_files` loop -/

theorem moveFold_spec (ts : List FPath) (A B : FPath) (g : FS)
    (HgB : g.find B = some .dir)
    (HBparts : ∀ q, q <+: B → (g.find q).isSome = true)
    (Hpf : List.Pairwise (fun r1 r2 => ¬ r1 <+: r2 ∧ ¬ r2 <+: r1) ts)
    (Hne : ∀ rel ∈ ts, rel ≠ [])
    (Hnode : ∀ rel ∈ ts, g.find (A ++ rel) = none
      ∨ (∃ c, g.find (A ++ rel) = some (.file c))
      ∨ g.find (A ++ rel) = some .dir)
    (Hdst : ∀ rel ∈ ts, ∀ q, (B ++ rel) <+: q → g.find q = none)
    (HAB : ∀ rel ∈ ts, ¬ (A ++ rel) <+: B ∧ ¬ B <+: (A ++ rel)) :
    (∀ q, ¬ B <+: q → (∀ rel ∈ ts, ¬ (A ++ rel) <+: q) →
        (ts.foldl (Files.moveStep A B) g).find q = g.find q)
  ∧ (ts.foldl (Files.moveStep A B) g).find B = some .dir
  ∧ (∀ q, B <+: q →
        (∀ rel ∈ ts, ¬ (B ++ rel) <+: q) →
        (∀ rel ∈ ts, ¬ q <+: (B ++ rel).dropLast) →
        (ts.foldl (Files.moveStep A B) g).find q = g.find q)
  ∧ (∀ rel ∈ ts, (g.find (A ++ rel)).isSome = true →
      (∀ rest, (ts.foldl (Files.moveStep A B) g).find ((B ++ rel) ++ rest)
          = g.find ((A ++ rel) ++ rest))
      ∧ (∀ rest, (ts.foldl (Files.moveStep A B) g).find ((A ++ rel) ++ rest)
          = none))
  ∧ (∀ rel ∈ ts, g.find (A ++ rel) = none →
      (∀ rest, (ts.foldl (Files.moveStep A B) g).find ((A ++ rel) ++ rest)
          = g.find ((A ++ rel) ++ rest))
      ∧ (∀ rest, (ts.foldl (Files.moveStep A B) g).find ((B ++ rel) ++ rest)
          = none)) := by
  induction ts generalizing g with
  | nil =>
    exact ⟨fun q _ _ => rfl, HgB, fun q _ _ _ => rfl,
      fun rel h => absurd h (List.not_mem_nil rel),
      fun rel h => absurd h (List.not_mem_nil rel)⟩
  | cons a ts ih =>
    obtain ⟨HRa, Hpf'⟩ := List.pairwise_cons.mp Hpf
    have hamem : a ∈ a :: ts := List.mem_cons_self a ts
    have Hane : a ≠ [] := Hne a hamem
    obtain ⟨sL, sB, sP, sM, sK⟩ := moveStep_spec A B a g Hane HgB HBparts
      (Hnode a hamem) (Hdst a hamem) (HAB a hamem).1 (HAB a hamem).2
    have hfold : (a :: ts).foldl (Files.moveStep A B) g
        = ts.foldl (Files.moveStep A B) (Files.moveStep A B g a) := rfl
    set g1 := Files.moveStep A B g a with hg1
    -- re-established hypotheses for the stepped state
    have hBparts1 : ∀ q, q <+: B → (g1.find q).isSome = true := by
      intro q hq
      by_cases hqB : B <+: q
      · have he : q = B := hq.eq_of_length
          (Nat.le_antisymm hq.length_le hqB.length_le)
        rw [he, sB]
        rfl
      · rw [sL q hqB (fun hc =>
          (HAB a hamem).1 (hc.trans hq))]
        exact HBparts q hq
    have hnode1 : ∀ rel ∈ ts, g1.find (A ++ rel) = g.find (A ++ rel) := by
      intro rel hm
      refine sL (A ++ rel) (fun hc =>
        no_common_extension_base B (A ++ rel) (A ++ rel) hc List.prefix_rfl
          (HAB rel (List.mem_cons_of_mem a hm)).1
          (HAB rel (List.mem_cons_of_mem a hm)).2) ?_
      intro hc
      exact (HRa rel hm).1 ((pre_append_iff A a rel).mp hc)
    have hdst1 : ∀ rel ∈ ts, ∀ q, (B ++ rel) <+: q → g1.find q = none := by
      intro rel hm q hq
      have hBq : B <+: q := (List.prefix_append B rel).trans hq
      rw [sP q hBq
        (fun hc => no_common_extension B a rel q hc hq (HRa rel hm))
        (fun hc => no_chain_overlap B rel a q hq hc (HRa rel hm).2)]
      exact Hdst rel (List.mem_cons_of_mem a hm) q hq
    have ihres := ih g1 sB hBparts1 Hpf'
      (fun rel hm => Hne rel (List.mem_cons_of_mem a hm))
      (fun rel hm => by
        rw [hnode1 rel hm]
        exact Hnode rel (List.mem_cons_of_mem a hm))
      hdst1
      (fun rel hm => HAB rel (List.mem_cons_of_mem a hm))
    obtain ⟨iL, iB, iP, iM, iK⟩ := ihres
    rw [hfold]
    refine ⟨?_, iB, ?_, ?_, ?_⟩
    · intro q hqB hq
      rw [iL q hqB (fun rel hm => hq rel (List.mem_cons_of_mem a hm))]
      exact sL q hqB (hq a hamem)
    · intro q hqB hq1 hq2
      rw [iP q hqB (fun rel hm => hq1 rel (List.mem_cons_of_mem a hm))
        (fun rel hm => hq2 rel (List.mem_cons_of_mem a hm))]
      exact sP q hqB (hq1 a hamem) (hq2 a hamem)
    · intro rel hm hsome
      rcases List.mem_cons.mp hm with heq | hm'
      · subst heq
        obtain ⟨hmv, hclr⟩ := sM hsome
        constructor
        · intro rest
          rw [iP ((B ++ rel) ++ rest)
            ((List.prefix_append B rel).trans
              (List.prefix_append (B ++ rel) rest))
            (fun rel' hm' hc => no_common_extension B rel' rel _ hc
              (List.prefix_append (B ++ rel) rest)
              ⟨(HRa rel' hm').2, (HRa rel' hm').1⟩)
            (fun rel' hm' hc => no_chain_overlap B rel rel' _
              (List.prefix_append (B ++ rel) rest) hc (HRa rel' hm').1)]
          exact hmv rest
        · intro rest
          rw [iL ((A ++ rel) ++ rest)
            (fun hc => no_common_extension_base B (A ++ rel) _ hc
              (List.prefix_append (A ++ rel) rest)
              (HAB rel hamem).1 (HAB rel hamem).2)
            (fun rel' hm' hc => no_common_extension A rel' rel _ hc
              (List.prefix_append (A ++ rel) rest)
              ⟨(HRa rel' hm').2, (HRa rel' hm').1⟩)]
          exact hclr rest
      · have hsome1 : (g1.find (A ++ rel)).isSome = true := by
          rw [hnode1 rel hm']
          exact hsome
        obtain ⟨imv, iclr⟩ := iM rel hm' hsome1
        constructor
        · intro rest
          rw [imv rest]
          refine sL ((A ++ rel) ++ rest)
            (fun hc => no_common_extension_base B (A ++ rel) _ hc
              (List.prefix_append (A ++ rel) rest)
              (HAB rel (List.mem_cons_of_mem a hm')).1
              (HAB rel (List.mem_cons_of_mem a hm')).2) ?_
          intro hc
          exact no_common_extension A a rel _ hc
            (List.prefix_append (A ++ rel) rest) (HRa rel hm')
        · intro rest
          exact iclr rest
    · intro rel hm hnone
      rcases List.mem_cons.mp hm with heq | hm'
      · subst heq
        have hid : g1 = g := sK hnone
        constructor
        · intro rest
          rw [iL ((A ++ rel) ++ rest)
            (fun hc => no_common_extension_base B (A ++ rel) _ hc
              (List.prefix_append (A ++ rel) rest)
              (HAB rel hamem).1 (HAB rel hamem).2)
            (fun rel' hm' hc => no_common_extension A rel' rel _ hc
              (List.prefix_append (A ++ rel) rest)
              ⟨(HRa rel' hm').2, (HRa rel' hm').1⟩),
            hid]
        · intro rest
          rw [iP ((B ++ rel) ++ rest)
            ((List.prefix_append B rel).trans
              (List.prefix_append (B ++ rel) rest))
            (fun rel' hm' hc => no_common_extension B rel' rel _ hc
              (List.prefix_append (B ++ rel) rest)
              ⟨(HRa rel' hm').2, (HRa rel' hm').1⟩)
            (fun rel' hm' hc => no_chain_overlap B rel rel' _
              (List.prefix_append (B ++ rel) rest) hc (HRa rel' hm').1),
            hid]
          exact Hdst rel hamem ((B ++ rel) ++ rest)
            (List.prefix_append (B ++ rel) rest)
      · have hnone1 : g1.find (A ++ rel) = none := by
          rw [hnode1 rel hm']
          exact hnone
        obtain ⟨ikeep, iempty⟩ := iK rel hm' hnone1
        constructor
        · intro rest
          rw [ikeep rest]
          refine sL ((A ++ rel) ++ rest)
            (fun hc => no_common_extension_base B (A ++ rel) _ hc
              (List.prefix_append (A ++ rel) rest)
              (HAB rel (List.mem_cons_of_mem a hm')).1
              (HAB rel (List.mem_cons_of_mem a hm')).2) ?_
          intro hc
          exact no_common_extension A a rel _ hc
            (List.prefix_append (A ++ rel) rest) (HRa rel hm')
        · intro rest
          exact iempty rest

/-- The full description of `Files.move_files` over a clean world:
locality outside the destination region and the moved subtrees, the
destination directory's creation, faithful transport of existing targets,
skipping of missing targets, and preservation of untouched
destination-region paths. -/
theorem move_files_spec (ts : List FPath) (A B : FPath) (fs : FS)
    (HB : fs.find B = none ∨ fs.find B = some .dir)
    (HBparts : ∀ q, q <+: B → q ≠ B → (fs.find q).isSome = true)
    (Hpf : List.Pairwise (fun r1 r2 => ¬ r1 <+: r2 ∧ ¬ r2 <+: r1) ts)
    (Hne : ∀ rel ∈ ts, rel ≠ [])
    (Hnode : ∀ rel ∈ ts, fs.find (A ++ rel) = none
      ∨ (∃ c, fs.find (A ++ rel) = some (.file c))
      ∨ fs.find (A ++ rel) = some .dir)
    (Hdst : ∀ rel ∈ ts, ∀ q, (B ++ rel) <+: q → fs.find q = none)
    (HAB : ∀ rel ∈ ts, ¬ (A ++ rel) <+: B ∧ ¬ B <+: (A ++ rel)) :
    (∀ q, ¬ B <+: q → (∀ rel ∈ ts, ¬ (A ++ rel) <+: q) →
        (Files.move_files ts A B fs).find q = fs.find q)
  ∧ (Files.move_files ts A B fs).find B = some .dir
  ∧ (∀ q, B <+: q → q ≠ B → fs.find q = none →
        (∀ rel ∈ ts, ¬ (B ++ rel) <+: q) →
        (∀ rel ∈ ts, ¬ q <+: (B ++ rel).dropLast) →
        (Files.move_files ts A B fs).find q = none)
  ∧ (∀ rel ∈ ts, (fs.find (A ++ rel)).isSome = true →
      (∀ rest, (Files.move_files ts A B fs).find ((B ++ rel) ++ rest)
          = fs.find ((A ++ rel) ++ rest))
      ∧ (∀ rest, (Files.move_files ts A B fs).find ((A ++ rel) ++ rest)
          = none))
  ∧ (∀ rel ∈ ts, fs.find (A ++ rel) = none →
      (∀ rest, (Files.move_files ts A B fs).find ((A ++ rel) ++ rest)
          = fs.find ((A ++ rel) ++ rest))
      ∧ (∀ rest, (Files.move_files ts A B fs).find ((B ++ rel) ++ rest)
          = none)) := by
  have hBB : B <+: B := List.prefix_rfl
  have hgB : (fs.mkdirP B).find B = some .dir := by
    rw [FS.find_mkdirP]
    rcases HB with h | h
    · rw [if_pos ⟨hBB, h⟩]
    · simp [h]
  have hgkeep : ∀ q, q ≠ B → (fs.mkdirP B).find q = fs.find q := by
    intro q hq
    rw [FS.find_mkdirP]
    by_cases hc : q <+: B ∧ fs.find q = none
    · have := HBparts q hc.1 hq
      rw [hc.2] at this
      cases this
    · rw [if_neg hc]
  have hgparts : ∀ q, q <+: B → ((fs.mkdirP B).find q).isSome = true := by
    intro q hq
    by_cases hqB : q = B
    · rw [hqB, hgB]
      rfl
    · rw [hgkeep q hqB]
      exact HBparts q hq hqB
  have hneB : ∀ rel ∈ ts, A ++ rel ≠ B := fun rel hm hc =>
    (HAB rel hm).1 (hc ▸ List.prefix_rfl)
  have hnode' : ∀ rel ∈ ts, (fs.mkdirP B).find (A ++ rel) = none
      ∨ (∃ c, (fs.mkdirP B).find (A ++ rel) = some (.file c))
      ∨ (fs.mkdirP B).find (A ++ rel) = some .dir := by
    intro rel hm
    rw [hgkeep (A ++ rel) (hneB rel hm)]
    exact Hnode rel hm
  have hdst' : ∀ rel ∈ ts, ∀ q, (B ++ rel) <+: q →
      (fs.mkdirP B).find q = none := by
    intro rel hm q hq
    have hqB : q ≠ B := by
      intro he
      exact not_append_pre_self B rel (Hne rel hm) (he ▸ hq)
    rw [hgkeep q hqB]
    exact Hdst rel hm q hq
  obtain ⟨fL, fB, fP, fM, fK⟩ := moveFold_spec ts A B (fs.mkdirP B) hgB
    hgparts Hpf Hne hnode' hdst' HAB
  have hmv : Files.move_files ts A B fs
      = ts.foldl (Files.moveStep A B) (fs.mkdirP B) := rfl
  rw [hmv]
  have hsub : ∀ rel ∈ ts, ∀ rest,
      (fs.mkdirP B).find ((A ++ rel) ++ rest) = fs.find ((A ++ rel) ++ rest) := by
    intro rel hm rest
    refine hgkeep _ (fun he => ?_)
    exact (HAB rel hm).1 (he ▸ List.prefix_append (A ++ rel) rest)
  refine ⟨?_, fB, ?_, ?_, ?_⟩
  · intro q hqB hq
    rw [fL q hqB hq]
    exact hgkeep q (fun he => hqB (he ▸ hBB))
  · intro q hqB hqne hnone hq1 hq2
    rw [fP q hqB hq1 hq2, hgkeep q hqne]
    exact hnone
  · intro rel hm hsome
    have hsome' : ((fs.mkdirP B).find (A ++ rel)).isSome = true := by
      rw [hgkeep (A ++ rel) (hneB rel hm)]
      exact hsome
    obtain ⟨hmvd, hclr⟩ := fM rel hm hsome'
    exact ⟨fun rest => (hmvd rest).trans (hsub rel hm rest),
      fun rest => hclr rest⟩
  · intro rel hm hnone
    have hnone' : (fs.mkdirP B).find (A ++ rel) = none := by
      rw [hgkeep (A ++ rel) (hneB rel hm)]
      exact hnone
    obtain ⟨hkeep, hempty⟩ := fK rel hm hnone'
    exact ⟨fun rest => (hkeep rest).trans (hsub rel hm rest),
      fun rest => hempty rest⟩

/-! ## Decidable-hypothesis bridges for concrete worlds -/

/-- Reduce "every strict leading part of `B` is present" to a finite
check over the indices of `B`. -/
theorem isSome_of_pre_short (fs : FS) (B : FPath)
    (hall : ∀ i < B.length, (fs.find (B.take i)).isSome = true) :
    ∀ q, q <+: B → q ≠ B → (fs.find q).isSome = true := by
  intro q hq hne
  have ht := List.prefix_iff_eq_take.mp hq
  rcases Nat.lt_or_ge q.length B.length with hlt | hge
  · rw [ht]
    exact hall q.length hlt
  · have hl : q.length = B.length := Nat.le_antisymm hq.length_le hge
    rw [hl, List.take_length] at ht
    exact absurd ht hne

/-- Reduce "nothing is stored at or below `p`" to a finite scan over the
entries of a concrete world. -/
theorem none_of_no_key (fs : FS) (p : FPath)
    (h : ∀ kv ∈ fs, ¬ p <+: kv.1) : ∀ q, p <+: q → fs.find q = none := by
  intro q hq
  exact FS.find_eq_none fs q (fun kv hm he => h kv hm (he.symm ▸ hq))

/-! ## C4: partial target tolerance and what is actually persisted -/

/-- C4 counterexample: with `targets = [a, b]` where only `a` exists on
disk, `b` is never moved (nothing appears for it in storage), yet
`TomlRepoConfGuard.add` persists the **full** configured targets list —
`b` included — as `files`, so the persisted list is not "exactly the
targets that were actually moved". -/
theorem c4_counterexample :
    fsPartial.find (["home", "proj"] ++ ["b"]) = none
  ∧ (Model.move_files [["a"], ["b"]] ["home", "proj"] ["cg", "s1"]
        fsPartial).find (["cg", "s1"] ++ ["b"]) = none
  ∧ Model.tomlRepoAdd none ⟨[["a"], ["b"]], some "s1"⟩
      = some ⟨"s1", [["a"], ["b"]]⟩
  ∧ ["b"] ∈ [["a"], ["b"]] :=
  ⟨rfl, rfl, rfl, by decide⟩

/-- C4 (amended): guarding a project with a missing configured target
succeeds for the remaining targets — every existing target is moved into
storage in full and the missing one is skipped, leaving nothing for it in
storage — but the persisted `files` list is the **configured targets
list**, including every missing target, not the list of what was actually
moved.  (The later reverse move tolerates the extra entries because it
skips missing paths.) -/
theorem c4_partial_target_tolerance (targets : List FPath)
    (source_dir target_dir : FPath) (fs : FS)
    (internal : Option Model.TomlInternal) (s : String) (relm : FPath)
    (hm : relm ∈ targets)
    (hmiss : fs.find (source_dir ++ relm) = none)
    (HB : fs.find target_dir = none ∨ fs.find target_dir = some .dir)
    (HBparts : ∀ i < target_dir.length,
      (fs.find (target_dir.take i)).isSome = true)
    (Hpf : List.Pairwise (fun r1 r2 => ¬ r1 <+: r2 ∧ ¬ r2 <+: r1) targets)
    (Hne : ∀ rel ∈ targets, rel ≠ [])
    (Hnode : ∀ rel ∈ targets, fs.find (source_dir ++ rel) = none
      ∨ (∃ c, fs.find (source_dir ++ rel) = some (.file c))
      ∨ fs.find (source_dir ++ rel) = some .dir)
    (Hdst : ∀ kv ∈ fs, ∀ rel ∈ targets, ¬ (target_dir ++ rel) <+: kv.1)
    (HAB : ∀ rel ∈ targets, ¬ (source_dir ++ rel) <+: target_dir
      ∧ ¬ target_dir <+: (source_dir ++ rel)) :
    (∀ rel ∈ targets, (fs.find (source_dir ++ rel)).isSome = true →
      ∀ rest, (Model.move_files targets source_dir target_dir fs).find
          ((target_dir ++ rel) ++ rest)
        = fs.find ((source_dir ++ rel) ++ rest))
  ∧ (∀ rest, (Model.move_files targets source_dir target_dir fs).find
        ((target_dir ++ relm) ++ rest) = none)
  ∧ Model.tomlRepoAdd internal ⟨targets, some s⟩ = some ⟨s, targets⟩
  ∧ relm ∈ targets := by
  have hsame : Model.move_files targets source_dir target_dir fs
      = Files.move_files targets source_dir target_dir fs := rfl
  obtain ⟨_, _, _, fM, fK⟩ := move_files_spec targets source_dir target_dir
    fs HB (isSome_of_pre_short fs target_dir HBparts) Hpf Hne Hnode
    (fun rel hrm q hq =>
      none_of_no_key fs (target_dir ++ rel)
        (fun kv hkv => Hdst kv hkv rel hrm) q hq)
    HAB
  rw [hsame]
  exact ⟨fun rel hrm hsome => (fM rel hrm hsome).1,
    fun rest => (fK relm hm hmiss).2 rest, rfl, hm⟩

/-- C4 witness: the amended behaviour on the concrete partial world. -/
theorem c4_partial_target_tolerance_witness :
    ((∀ rel ∈ [(["a"] : FPath), ["b"]],
        (fsPartial.find (["home", "proj"] ++ rel)).isSome = true →
      ∀ rest, (Model.move_files [["a"], ["b"]] ["home", "proj"] ["cg", "s1"]
          fsPartial).find ((["cg", "s1"] ++ rel) ++ rest)
        = fsPartial.find ((["home", "proj"] ++ rel) ++ rest))
  ∧ (∀ rest, (Model.move_files [["a"], ["b"]] ["home", "proj"] ["cg", "s1"]
        fsPartial).find ((["cg", "s1"] ++ ["b"]) ++ rest) = none)
  ∧ Model.tomlRepoAdd none ⟨[["a"], ["b"]], some "s1"⟩
      = some ⟨"s1", [["a"], ["b"]]⟩
  ∧ ["b"] ∈ [(["a"] : FPath), ["b"]]) :=
  c4_partial_target_tolerance [["a"], ["b"]] ["home", "proj"] ["cg", "s1"]
    fsPartial none "s1" ["b"] (by decide) rfl (Or.inl rfl) (by decide)
    (by decide) (by decide)
    (fun rel hrm => by
      rcases List.mem_cons.mp hrm with heq | hrm'
      · subst heq
        exact Or.inr (Or.inl ⟨1, rfl⟩)
      · rcases List.mem_cons.mp hrm' with heq | hrm''
        · subst heq
          exact Or.inl rfl
        · exact absurd hrm'' (List.not_mem_nil rel))
    (by decide) (by decide)

/-! ## Copy primitives -/

theorem copy2_spec (fs : FS) (src dst : FPath) (c : Nat)
    (hs : fs.find src = some (.file c)) (hd : fs.find dst = none) :
    fs.copy2 src dst = fs.set dst (.file c) := by
  rw [FS.copy2]
  simp only [FS.resolveLink_no_link fs src
      (fun r hr => by rw [hs] at hr; cases hr) FS.hopBound,
    FS.resolveLink_no_link fs dst
      (fun r hr => by rw [hd] at hr; cases hr) FS.hopBound,
    hs]

theorem pre_singleton_cons {x y : String} {l : List String}
    (h : [x] <+: y :: l) : x = y := by
  obtain ⟨t, ht⟩ := h
  rw [List.singleton_append] at ht
  have h2 := congrArg (fun z : List String => z.headD "") ht
  simpa using h2

theorem pre_dropLast_of_proper {q l : FPath} (h : q <+: l) (hne : q ≠ l) :
    q <+: l.dropLast := by
  obtain ⟨t, ht⟩ := h
  subst ht
  cases t with
  | nil => exact absurd (List.append_nil q).symm hne
  | cons x t' =>
    rw [List.dropLast_append_of_ne_nil q (List.cons_ne_nil x t')]
    exact List.prefix_append q _

theorem take_append_len (l1 l2 : FPath) (n : Nat) :
    (l1 ++ l2).take (l1.length + n) = l1 ++ l2.take n := by
  rw [List.take_append_eq_append_take,
    List.take_of_length_le (Nat.le_add_right _ _), Nat.add_sub_cancel_left]

theorem find_isSome_of_key (fs : FS) (q : FPath)
    (h : ∃ kv ∈ fs, kv.1 = q) : (fs.find q).isSome = true := by
  induction fs with
  | nil =>
    obtain ⟨kv, hm, _⟩ := h
    exact absurd hm (List.not_mem_nil kv)
  | cons kv rest ih =>
    rw [FS.find]
    by_cases he : kv.1 = q
    · rw [if_pos he]
      rfl
    · rw [if_neg he]
      obtain ⟨kv', hm', hk'⟩ := h
      rcases List.mem_cons.mp hm' with rfl | hm''
      · exact absurd hk' he
      · exact ih ⟨kv', hm'', hk'⟩

theorem find_some_mem (fs : FS) (q : FPath) (n : FNode)
    (h : fs.find q = some n) : ∃ kv ∈ fs, kv.1 = q ∧ kv.2 = n := by
  induction fs with
  | nil => cases h
  | cons kv rest ih =>
    rw [FS.find] at h
    by_cases he : kv.1 = q
    · rw [if_pos he] at h
      exact ⟨kv, List.mem_cons_self kv rest, he, Option.some.inj h⟩
    · rw [if_neg he] at h
      obtain ⟨kv', hm', hk⟩ := ih h
      exact ⟨kv', List.mem_cons_of_mem kv hm', hk⟩

theorem find_isSome_mem (fs : FS) (q : FPath)
    (h : (fs.find q).isSome = true) : ∃ kv ∈ fs, kv.1 = q := by
  cases hf : fs.find q with
  | none =>
    rw [hf] at h
    cases h
  | some n =>
    obtain ⟨kv, hm, hk, _⟩ := find_some_mem fs q n hf
    exact ⟨kv, hm, hk⟩

theorem maxKeyLen_bound (fs : FS) (kv : FPath × FNode) (h : kv ∈ fs) :
    kv.1.length ≤ FS.maxKeyLen fs := by
  induction fs with
  | nil => exact absurd h (List.not_mem_nil kv)
  | cons kv' rest ih =>
    have hstep : FS.maxKeyLen (kv' :: rest)
        = max kv'.1.length (FS.maxKeyLen rest) := rfl
    rw [hstep]
    rcases List.mem_cons.mp h with rfl | hm
    · exact le_max_left _ _
    · exact le_trans (ih hm) (le_max_right _ _)

theorem mem_childNames (fs : FS) (p : FPath) (name : String) :
    name ∈ FS.childNames fs p ↔ ∃ kv ∈ fs, kv.1 = p ++ [name] := by
  rw [FS.childNames, List.mem_dedup, List.mem_filterMap]
  constructor
  · rintro ⟨kv, hm, hif⟩
    by_cases hc : kv.1.length = p.length + 1 ∧ p <+: kv.1
    · rw [if_pos hc] at hif
      obtain ⟨t, ht⟩ := hc.2
      have hlt : t.length = 1 := by
        have hl := congrArg List.length ht
        rw [List.length_append] at hl
        have h1 := hc.1
        omega
      obtain ⟨x, rfl⟩ := List.length_eq_one.mp hlt
      rw [← ht, List.getLast?_concat] at hif
      have hx : x = name := Option.some.inj hif
      exact ⟨kv, hm, by rw [← ht, hx]⟩
    · rw [if_neg hc] at hif
      cases hif
  · rintro ⟨kv, hm, hk⟩
    refine ⟨kv, hm, ?_⟩
    rw [if_pos ⟨by rw [hk, List.length_append, List.length_singleton],
      by rw [hk]; exact List.prefix_append p [name]⟩, hk,
      List.getLast?_concat]

/-- The generic effect of a left fold whose every step writes one child
subtree of `dst`: outside the written subtrees nothing changes, and each
written subtree holds the canonical values `val`. -/
theorem foldlM_writes (dst : FPath) (val : String → FPath → Option FNode)
    (names : List String) (step : FS → String → Option FS)
    (hstep : ∀ name ∈ names, ∀ acc : FS, ∃ acc', step acc name = some acc'
      ∧ (∀ q, ¬ (dst ++ [name]) <+: q → acc'.find q = acc.find q)
      ∧ (∀ rest, acc'.find ((dst ++ [name]) ++ rest)
          = if (val name rest).isSome = true then val name rest
            else acc.find ((dst ++ [name]) ++ rest))) :
    ∀ acc : FS, ∃ out, names.foldlM step acc = some out
      ∧ (∀ q, (∀ name ∈ names, ¬ (dst ++ [name]) <+: q) →
          out.find q = acc.find q)
      ∧ (∀ name ∈ names, ∀ rest, out.find ((dst ++ [name]) ++ rest)
          = if (val name rest).isSome = true then val name rest
            else acc.find ((dst ++ [name]) ++ rest)) := by
  induction names with
  | nil =>
    intro acc
    exact ⟨acc, rfl, fun q _ => rfl,
      fun name h => absurd h (List.not_mem_nil name)⟩
  | cons a names ih =>
    intro acc
    have hamem : a ∈ a :: names := List.mem_cons_self a names
    obtain ⟨acc1, hstepEq, sL, sB⟩ := hstep a hamem acc
    obtain ⟨out, hfold, L2, B2⟩ := ih
      (fun name hm => hstep name (List.mem_cons_of_mem a hm)) acc1
    refine ⟨out, ?_, ?_, ?_⟩
    · show List.foldlM step acc (a :: names) = some out
      rw [List.foldlM_cons, hstepEq]
      exact hfold
    · intro q hq
      rw [L2 q (fun name hm => hq name (List.mem_cons_of_mem a hm))]
      exact sL q (hq a hamem)
    · intro name hm rest
      rcases List.mem_cons.mp hm with heq | hm'
      · subst heq
        by_cases hin : name ∈ names
        · rw [B2 name hin rest]
          by_cases hv : (val name rest).isSome = true
          · rw [if_pos hv, if_pos hv]
          · rw [if_neg hv, if_neg hv, sB rest, if_neg hv]
        · have hcond : ∀ n' ∈ names,
              ¬ (dst ++ [n']) <+: (dst ++ [name]) ++ rest := by
            intro n' hm2 hc
            rw [List.append_assoc] at hc
            have h2 := (pre_append_iff dst [n'] ([name] ++ rest)).mp hc
            rw [List.singleton_append] at h2
            exact hin (pre_singleton_cons h2 ▸ hm2)
          rw [L2 _ hcond]
          exact sB rest
      · rw [B2 name hm' rest]
        by_cases hv : (val name rest).isSome = true
        · rw [if_pos hv, if_pos hv]
        · rw [if_neg hv, if_neg hv]
          by_cases hna : name = a
          · subst hna
            rw [sB rest, if_neg hv]
          · refine sL _ (fun hc => ?_)
            rw [List.append_assoc] at hc
            have h2 := (pre_append_iff dst [a] ([name] ++ rest)).mp hc
            rw [List.singleton_append] at h2
            exact hna (pre_singleton_cons h2).symm

/-- The `copytree` walk over a source subtree that is closed (every deeper
entry's intermediate components are directories) and symlink-free: it
succeeds, writes only strictly below `dst`, and reproduces the source's
lookup view there. -/
theorem copyTreeRec_clean (fs : FS) (fuel : Nat) :
    ∀ (src dst : FPath) (acc : FS),
    FS.maxKeyLen fs < fuel + src.length →
    src.length ≤ FS.maxKeyLen fs →
    (∀ rest, rest ≠ [] → ∀ r, fs.find (src ++ rest) ≠ some (.symlink r)) →
    (∀ rest, rest ≠ [] → (fs.find (src ++ rest)).isSome = true →
      ∀ i, 0 < i → i < rest.length →
      fs.find (src ++ rest.take i) = some .dir) →
    ∃ out, fs.copyTreeRec fuel src dst acc = some out
      ∧ (∀ q, (∀ rest, rest ≠ [] → q ≠ dst ++ rest) →
          out.find q = acc.find q)
      ∧ (∀ rest, rest ≠ [] → out.find (dst ++ rest)
          = if (fs.find (src ++ rest)).isSome = true
            then fs.find (src ++ rest) else acc.find (dst ++ rest)) := by
  induction fuel with
  | zero =>
    intro src dst acc hfuel hsrcb _ _
    omega
  | succ f ih =>
    intro src dst acc hfuel hsrcb Hnl Hclose
    have hstep : ∀ name ∈ FS.childNames fs src, ∀ a : FS,
        ∃ a2, FS.ctStep fs src dst
            (fun s d a => fs.copyTreeRec f s d a) a name = some a2
        ∧ (∀ q, ¬ (dst ++ [name]) <+: q → a2.find q = a.find q)
        ∧ (∀ rest, a2.find ((dst ++ [name]) ++ rest)
            = if (fs.find ((src ++ [name]) ++ rest)).isSome = true
              then fs.find ((src ++ [name]) ++ rest)
              else a.find ((dst ++ [name]) ++ rest)) := by
      intro name hname a
      have hkey : ∃ kv ∈ fs, kv.1 = src ++ [name] :=
        (mem_childNames fs src name).mp hname
      have hsome : (fs.find (src ++ [name])).isSome = true :=
        find_isSome_of_key fs (src ++ [name]) hkey
      cases hn : fs.find (src ++ [name]) with
      | none =>
        rw [hn] at hsome
        cases hsome
      | some node =>
        cases node with
        | symlink r => exact absurd hn (Hnl [name] (List.cons_ne_nil _ _) r)
        | file c =>
          refine ⟨a.set (dst ++ [name]) (.file c), ?_, ?_, ?_⟩
          · simp only [FS.ctStep, hn]
          · intro q hq
            rw [FS.find_set, if_neg (fun he => hq (pre_of_eq he.symm))]
          · intro rest
            cases rest with
            | nil =>
              rw [List.append_nil, List.append_nil, FS.find_set,
                if_pos rfl, hn]
              rfl
            | cons y rest2 =>
              rw [FS.find_set, if_neg (fun he =>
                not_append_pre_self (dst ++ [name]) (y :: rest2)
                  (List.cons_ne_nil y rest2) (pre_of_eq he))]
              by_cases hv :
                  (fs.find ((src ++ [name]) ++ (y :: rest2))).isSome = true
              · exfalso
                have hc := Hclose ([name] ++ (y :: rest2)) (by simp)
                  (by rw [← List.append_assoc]; exact hv) 1 (by omega)
                  (by rw [List.length_append, List.length_singleton,
                    List.length_cons]; omega)
                have hc2 : fs.find (src ++ [name]) = some .dir := hc
                rw [hn] at hc2
                cases hc2
              · rw [if_neg hv]
        | dir =>
          have hkv_len : src.length + 1 ≤ FS.maxKeyLen fs := by
            obtain ⟨kv, hm, hk⟩ := hkey
            have hb := maxKeyLen_bound fs kv hm
            rw [hk, List.length_append, List.length_singleton] at hb
            omega
          have Hnl2 : ∀ rest, rest ≠ [] → ∀ r,
              fs.find ((src ++ [name]) ++ rest) ≠ some (.symlink r) := by
            intro rest hne r
            rw [List.append_assoc]
            exact Hnl ([name] ++ rest) (by simp) r
          have Hclose2 : ∀ rest, rest ≠ [] →
              (fs.find ((src ++ [name]) ++ rest)).isSome = true →
              ∀ i, 0 < i → i < rest.length →
              fs.find ((src ++ [name]) ++ rest.take i) = some .dir := by
            intro rest hne hs i h0 hi
            have hc := Hclose ([name] ++ rest) (by simp)
              (by rw [← List.append_assoc]; exact hs) (i + 1) (by omega)
              (by rw [List.length_append, List.length_singleton]; omega)
            have ht : ([name] ++ rest).take (i + 1) = [name] ++ rest.take i :=
              rfl
            rw [ht] at hc
            rw [List.append_assoc]
            exact hc
          obtain ⟨out2, hrec, L2, B2⟩ := ih (src ++ [name]) (dst ++ [name])
            (a.set (dst ++ [name]) .dir)
            (by rw [List.length_append, List.length_singleton]; omega)
            (by rw [List.length_append, List.length_singleton]; omega)
            Hnl2 Hclose2
          refine ⟨out2, ?_, ?_, ?_⟩
          · simp only [FS.ctStep, hn]
            exact hrec
          · intro q hq
            rw [L2 q (fun rest hne he =>
              hq (he.symm ▸ List.prefix_append (dst ++ [name]) rest)),
              FS.find_set, if_neg (fun he => hq (pre_of_eq he.symm))]
          · intro rest
            cases rest with
            | nil =>
              rw [List.append_nil, List.append_nil, hn]
              have h0 := L2 (dst ++ [name]) (fun rest2 hne2 he =>
                not_append_pre_self (dst ++ [name]) rest2 hne2
                  (pre_of_eq he.symm))
              rw [h0, FS.find_set, if_pos rfl]
              rfl
            | cons y rest2 =>
              rw [B2 (y :: rest2) (List.cons_ne_nil y rest2)]
              by_cases hv :
                  (fs.find ((src ++ [name]) ++ (y :: rest2))).isSome = true
              · rw [if_pos hv, if_pos hv]
              · rw [if_neg hv, if_neg hv, FS.find_set,
                  if_neg (fun he => not_append_pre_self (dst ++ [name])
                    (y :: rest2) (List.cons_ne_nil y rest2) (pre_of_eq he))]
    obtain ⟨out, hfold, L, B⟩ := foldlM_writes dst
      (fun name rest => fs.find ((src ++ [name]) ++ rest))
      (FS.childNames fs src)
      (FS.ctStep fs src dst (fun s d a => fs.copyTreeRec f s d a))
      hstep acc
    refine ⟨out, ?_, ?_, ?_⟩
    · show (FS.childNames fs src).foldlM
        (FS.ctStep fs src dst (fun s d a => fs.copyTreeRec f s d a)) acc
        = some out
      exact hfold
    · intro q hq
      refine L q ?_
      intro name hm hc
      obtain ⟨t, ht⟩ := hc
      exact hq ([name] ++ t) (by simp) (by rw [← ht, List.append_assoc])
    · intro rest hne
      cases rest with
      | nil => exact absurd rfl hne
      | cons y tail =>
        by_cases hy : y ∈ FS.childNames fs src
        · have hb := B y hy tail
          have e1 : (dst ++ [y]) ++ tail = dst ++ (y :: tail) := by
            rw [List.append_assoc]
            rfl
          have e2 : (src ++ [y]) ++ tail = src ++ (y :: tail) := by
            rw [List.append_assoc]
            rfl
          rw [e1, e2] at hb
          exact hb
        · have hnone : fs.find (src ++ (y :: tail)) = none := by
            cases hf : fs.find (src ++ (y :: tail)) with
            | none => rfl
            | some n =>
              exfalso
              obtain ⟨kv, hm, hk, _⟩ := find_some_mem fs _ n hf
              cases tail with
              | nil => exact hy ((mem_childNames fs src y).mpr ⟨kv, hm, hk⟩)
              | cons z tail2 =>
                have hs : (fs.find (src ++ (y :: z :: tail2))).isSome
                    = true := by
                  rw [hf]
                  rfl
                have hc := Hclose (y :: z :: tail2) (List.cons_ne_nil _ _)
                  hs 1 (by omega)
                  (by rw [List.length_cons, List.length_cons]; omega)
                have hc2 : fs.find (src ++ [y]) = some .dir := hc
                obtain ⟨kv2, hm2, hk2, _⟩ := find_some_mem fs _ _ hc2
                exact hy ((mem_childNames fs src y).mpr ⟨kv2, hm2, hk2⟩)
          rw [hnone, if_neg (by simp)]
          refine L _ ?_
          intro name hm hc
          have h2 := (pre_append_iff dst [name] (y :: tail)).mp hc
          exact hy (pre_singleton_cons h2 ▸ hm)

/-- `shutil.copytree` on a free destination slot, from a closed,
symlink-free source subtree: it succeeds, creates the destination
directory (and its missing parents), reproduces the source subtree at the
destination, and changes nothing else. -/
theorem copyTree_clean (fs : FS) (src dst : FPath) (b : Bool)
    (hsrc : (fs.find src).isSome = true)
    (hfresh : ∀ q, dst <+: q → fs.find q = none)
    (Hnl : ∀ rest, rest ≠ [] → ∀ r, fs.find (src ++ rest) ≠ some (.symlink r))
    (Hclose : ∀ rest, rest ≠ [] → (fs.find (src ++ rest)).isSome = true →
      ∀ i, 0 < i → i < rest.length → fs.find (src ++ rest.take i) = some .dir) :
    ∃ out, fs.copyTree src dst b = .ok out
      ∧ (∀ q, ¬ dst <+: q → out.find q = (fs.mkdirP dst).find q)
      ∧ out.find dst = some .dir
      ∧ (∀ rest, rest ≠ [] → out.find (dst ++ rest) = fs.find (src ++ rest)) := by
  have hdst : fs.find dst = none := hfresh dst List.prefix_rfl
  have hsrcb : src.length ≤ FS.maxKeyLen fs := by
    obtain ⟨kv, hm, hk⟩ := find_isSome_mem fs src hsrc
    have hb := maxKeyLen_bound fs kv hm
    rwa [hk] at hb
  obtain ⟨out, hwalk, L, B⟩ := copyTreeRec_clean fs (FS.maxKeyLen fs + 1)
    src dst (fs.mkdirP dst) (by omega) hsrcb Hnl Hclose
  refine ⟨out, ?_, ?_, ?_, ?_⟩
  · simp only [FS.copyTree, hdst, hwalk]
  · intro q hq
    exact L q (fun rest hne he => hq (he.symm ▸ List.prefix_append dst rest))
  · have h0 := L dst (fun rest hne he =>
      not_append_pre_self dst rest hne (pre_of_eq he.symm))
    rw [h0, FS.find_mkdirP, if_pos ⟨List.prefix_rfl, hdst⟩]
  · intro rest hne
    rw [B rest hne]
    by_cases hv : (fs.find (src ++ rest)).isSome = true
    · rw [if_pos hv]
    · rw [if_neg hv, FS.find_mkdirP,
        if_neg (fun hc => not_append_pre_self dst rest hne hc.1),
        hfresh (dst ++ rest) (List.prefix_append dst rest)]
      cases hf : fs.find (src ++ rest) with
      | none => rfl
      | some n =>
        rw [hf] at hv
        exact absurd rfl hv

/-- A dangling symlink among the children of `src` makes the `copytree`
walk fail. -/
theorem copyTreeRec_err (fs : FS) (fuel : Nat) (src dst : FPath) (acc : FS)
    (name : String) (hmem : name ∈ FS.childNames fs src) (r : FPath)
    (hlink : fs.find (src ++ [name]) = some (.symlink r))
    (hdead : fs.statNode (src ++ [name]) = none) :
    fs.copyTreeRec fuel src dst acc = none := by
  cases fuel with
  | zero => rfl
  | succ f =>
    show (FS.childNames fs src).foldlM
      (FS.ctStep fs src dst (fun s d a => fs.copyTreeRec f s d a)) acc
      = none
    have key : ∀ (names : List String), name ∈ names → ∀ acc : FS,
        List.foldlM
          (FS.ctStep fs src dst (fun s d a => fs.copyTreeRec f s d a))
          acc names = none := by
      intro names
      induction names with
      | nil =>
        intro h
        exact absurd h (List.not_mem_nil name)
      | cons a names ih =>
        intro h acc
        rw [List.foldlM_cons]
        cases hstep : FS.ctStep fs src dst
            (fun s d a => fs.copyTreeRec f s d a) acc a with
        | none => rfl
        | some acc1 =>
          rcases List.mem_cons.mp h with heq | hm
          · exfalso
            subst heq
            simp only [FS.ctStep, hlink, hdead] at hstep
            exact Option.noConfusion hstep
          · exact ih hm acc1
    exact key (FS.childNames fs src) hmem acc

/-! ## The effect of one `create_bkp` step -/

theorem bkpStep_spec (A bkp a : FPath) (g : FS)
    (Hane : a ≠ [])
    (Hparts : ∀ q, q <+: bkp → (g.find q).isSome = true)
    (Hreg : ∀ q, (bkp ++ a) <+: q → g.find q = none)
    (Hnl : ∀ rest, rest ≠ [] → ∀ r,
      g.find ((A ++ a) ++ rest) ≠ some (.symlink r))
    (Hclose : ∀ rest, rest ≠ [] →
      (g.find ((A ++ a) ++ rest)).isSome = true →
      ∀ i, 0 < i → i < rest.length →
      g.find ((A ++ a) ++ rest.take i) = some .dir) :
    ∃ g2, Files.bkpStep A bkp g a = .ok g2
  ∧ (∀ q, ¬ bkp <+: q → g2.find q = g.find q)
  ∧ (∀ q, bkp <+: q → ¬ (bkp ++ a) <+: q → ¬ q <+: (bkp ++ a).dropLast →
      g2.find q = g.find q)
  ∧ (∀ q, (g.find q).isSome = true → g2.find q = g.find q)
  ∧ (g.find (A ++ a) = none → g2 = g)
  ∧ (∀ r, g.find (A ++ a) = some (.symlink r) → g2 = g)
  ∧ (∀ c, g.find (A ++ a) = some (.file c) →
      g2.find (bkp ++ a) = some (.file c)
      ∧ ∀ rest, rest ≠ [] →
        g2.find ((bkp ++ a) ++ rest) = g.find ((bkp ++ a) ++ rest))
  ∧ (g.find (A ++ a) = some .dir →
      ∀ rest, g2.find ((bkp ++ a) ++ rest)
        = g.find ((A ++ a) ++ rest)) := by
  have hbane : bkp ++ a ≠ [] := append_ne_nil_of_right bkp a Hane
  have hbE : bkp <+: (bkp ++ a).dropLast := by
    rw [List.dropLast_append_of_ne_nil bkp Hane]
    exact List.prefix_append bkp a.dropLast
  have hnotE : ¬ (bkp ++ a) <+: (bkp ++ a).dropLast :=
    not_pre_dropLast_self (bkp ++ a) hbane
  cases hn : g.find (A ++ a) with
  | none =>
    have hid : Files.bkpStep A bkp g a = .ok g := by
      rw [Files.bkpStep]
      simp [FS.existsP_none g (A ++ a) hn]
    refine ⟨g, hid, fun q _ => rfl, fun q _ _ _ => rfl, fun q _ => rfl,
      fun _ => rfl, fun r hr => by simp at hr, fun c hc => by simp at hc,
      fun hd => by simp at hd⟩
  | some node =>
    cases node with
    | symlink r =>
      have hid : Files.bkpStep A bkp g a = .ok g := by
        rw [Files.bkpStep]
        by_cases hex : g.existsP (A ++ a) = true
        · simp [hex, FS.is_symlink_of_link g (A ++ a) r hn]
        · simp [hex]
      refine ⟨g, hid, fun q _ => rfl, fun q _ _ _ => rfl, fun q _ => rfl,
        fun hc => by simp at hc, fun _ _ => rfl,
        fun c hc => by simp at hc, fun hd => by simp at hd⟩
    | file c =>
      have hform : Files.bkpStep A bkp g a =
          .ok ((if g.existsP ((bkp ++ a).dropLast) = true then g
           else g.mkdirP ((bkp ++ a).dropLast)).copy2 (A ++ a)
            (bkp ++ a)) := by
        rw [Files.bkpStep]
        simp only [FS.existsP_file g (A ++ a) c hn,
          FS.is_symlink_of_no_link g (A ++ a)
            (fun r hr => by rw [hn] at hr; cases hr),
          FS.is_file_of_file g (A ++ a) c hn, if_true, Bool.false_eq_true,
          if_false]
      set gm := (if g.existsP ((bkp ++ a).dropLast) = true then g
        else g.mkdirP ((bkp ++ a).dropLast)) with hgm
      have hm1 : ∀ q, ¬ q <+: (bkp ++ a).dropLast → gm.find q = g.find q := by
        intro q hq
        rw [hgm]
        by_cases hE : g.existsP ((bkp ++ a).dropLast) = true
        · rw [if_pos hE]
        · rw [if_neg hE, FS.find_mkdirP, if_neg (fun hc => hq hc.1)]
      have hm2 : ∀ q, (g.find q).isSome = true → gm.find q = g.find q := by
        intro q hq
        rw [hgm]
        by_cases hE : g.existsP ((bkp ++ a).dropLast) = true
        · rw [if_pos hE]
        · rw [if_neg hE, FS.find_mkdirP,
            if_neg (fun hc => by rw [hc.2] at hq; cases hq)]
      have hmsrc : gm.find (A ++ a) = some (.file c) := by
        rw [hm2 (A ++ a) (by rw [hn]; rfl)]
        exact hn
      have hmdst : gm.find (bkp ++ a) = none := by
        rw [hm1 (bkp ++ a) hnotE]
        exact Hreg (bkp ++ a) List.prefix_rfl
      have hcpy : Files.bkpStep A bkp g a
          = .ok (gm.set (bkp ++ a) (.file c)) := by
        rw [hform, copy2_spec gm (A ++ a) (bkp ++ a) c hmsrc hmdst]
      have hkeep : ∀ q, ¬ q <+: (bkp ++ a).dropLast → q ≠ bkp ++ a →
          (gm.set (bkp ++ a) (.file c)).find q = g.find q := by
        intro q hq hne
        rw [FS.find_set, if_neg hne, hm1 q hq]
      refine ⟨gm.set (bkp ++ a) (.file c), hcpy, ?_, ?_, ?_,
        fun hc => by simp at hc, fun r hr => by simp at hr,
        fun c2 hc2 => ?_, fun hd => by simp at hd⟩
      · intro q hqb
        by_cases hqE : q <+: (bkp ++ a).dropLast
        · rcases List.prefix_or_prefix_of_prefix hqE hbE with h1 | h2
          · rw [FS.find_set,
              if_neg (fun (he : q = bkp ++ a) =>
                hqb (he.symm ▸ List.prefix_append bkp a)),
              hm2 q (Hparts q h1)]
          · exact absurd h2 hqb
        · exact hkeep q hqE
            (fun (he : q = bkp ++ a) =>
              hqb (he.symm ▸ List.prefix_append bkp a))
      · intro q hqb hq1 hq2
        exact hkeep q hq2 (fun (he : q = bkp ++ a) =>
          hq1 (he.symm ▸ List.prefix_rfl))
      · intro q hq
        have hne : q ≠ bkp ++ a := by
          intro he
          rw [he, Hreg (bkp ++ a) List.prefix_rfl] at hq
          cases hq
        rw [FS.find_set, if_neg hne, hm2 q hq]
      · have hcc : c2 = c := by
          have := Option.some.inj hc2
          cases this
          rfl
        subst hcc
        constructor
        · rw [FS.find_set, if_pos rfl]
        · intro rest hrest
          refine hkeep ((bkp ++ a) ++ rest) ?_ ?_
          · intro hc
            exact hnotE ((List.prefix_append (bkp ++ a) rest).trans hc)
          · intro he
            have h2 := congrArg List.length he
            rw [List.length_append] at h2
            have h3 : rest.length = 0 := by omega
            exact hrest (List.length_eq_zero.mp h3)
    | dir =>
      have hform : Files.bkpStep A bkp g a =
          g.copyTree (A ++ a) (bkp ++ a) false := by
        rw [Files.bkpStep]
        simp only [FS.existsP_dir g (A ++ a) hn,
          FS.is_symlink_of_no_link g (A ++ a)
            (fun r hr => by rw [hn] at hr; cases hr),
          FS.is_file_of_dir g (A ++ a) hn,
          FS.is_dir_of_dir g (A ++ a) hn, if_true, Bool.false_eq_true,
          if_false]
      obtain ⟨out, hctEq, ctL, ctRoot, ctUnder⟩ := copyTree_clean g (A ++ a)
        (bkp ++ a) false (by rw [hn]; rfl) Hreg Hnl Hclose
      refine ⟨out, by rw [hform, hctEq], ?_, ?_, ?_,
        fun hc => by simp at hc, fun r hr => by simp at hr,
        fun c2 hc2 => by simp at hc2, fun _ rest => ?_⟩
      · intro q hqb
        have hnba : ¬ (bkp ++ a) <+: q := fun hc =>
          hqb ((List.prefix_append bkp a).trans hc)
        rw [ctL q hnba, FS.find_mkdirP]
        by_cases hq2 : q <+: bkp ++ a ∧ g.find q = none
        · exfalso
          rcases List.prefix_or_prefix_of_prefix hq2.1
            (List.prefix_append bkp a) with h1 | h1
          · have hs := Hparts q h1
            rw [hq2.2] at hs
            cases hs
          · exact hqb h1
        · rw [if_neg hq2]
      · intro q hqb hq1 hq2
        rw [ctL q hq1, FS.find_mkdirP]
        by_cases hq3 : q <+: bkp ++ a ∧ g.find q = none
        · exfalso
          by_cases hqe : q = bkp ++ a
          · exact hq1 (pre_of_eq hqe.symm)
          · exact hq2 (pre_dropLast_of_proper hq3.1 hqe)
        · rw [if_neg hq3]
      · intro q hq
        have hnreg : ¬ (bkp ++ a) <+: q := by
          intro hc
          rw [Hreg q hc] at hq
          cases hq
        rw [ctL q hnreg, FS.find_mkdirP,
          if_neg (fun hc => by rw [hc.2] at hq; cases hq)]
      · cases rest with
        | nil => rw [List.append_nil, List.append_nil, ctRoot, hn]
        | cons y rest2 =>
          exact ctUnder (y :: rest2) (List.cons_ne_nil y rest2)

/-! ## The effect of the whole `create_bkp` loop -/

theorem bkpFold_spec (ts : List FPath) (A bkp : FPath) (g : FS)
    (Hparts : ∀ q, q <+: bkp → (g.find q).isSome = true)
    (Hpf : List.Pairwise (fun r1 r2 => ¬ r1 <+: r2 ∧ ¬ r2 <+: r1) ts)
    (Hne : ∀ rel ∈ ts, rel ≠ [])
    (Hreg : ∀ rel ∈ ts, ∀ q, (bkp ++ rel) <+: q → g.find q = none)
    (HAreg : ∀ rel ∈ ts, ¬ bkp <+: (A ++ rel) ∧ ¬ (A ++ rel) <+: bkp)
    (Hnls : ∀ rel ∈ ts, ∀ rest, rest ≠ [] → ∀ r,
      g.find ((A ++ rel) ++ rest) ≠ some (.symlink r))
    (Hcloses : ∀ rel ∈ ts, ∀ rest, rest ≠ [] →
      (g.find ((A ++ rel) ++ rest)).isSome = true →
      ∀ i, 0 < i → i < rest.length →
      g.find ((A ++ rel) ++ rest.take i) = some .dir) :
    ∃ out, ts.foldlM (fun fs rel => Files.bkpStep A bkp fs rel) g = .ok out
  ∧ (∀ q, ¬ bkp <+: q → out.find q = g.find q)
  ∧ (∀ q, (g.find q).isSome = true → out.find q = g.find q)
  ∧ (∀ q, bkp <+: q → (∀ rel ∈ ts, ¬ (bkp ++ rel) <+: q) →
        (∀ rel ∈ ts, ¬ q <+: (bkp ++ rel).dropLast) →
        out.find q = g.find q)
  ∧ (∀ rel ∈ ts,
      ((g.find (A ++ rel) = none
          ∨ (∃ r, g.find (A ++ rel) = some (.symlink r))) →
        ∀ rest, out.find ((bkp ++ rel) ++ rest)
          = g.find ((bkp ++ rel) ++ rest))
      ∧ (∀ c, g.find (A ++ rel) = some (.file c) →
          out.find (bkp ++ rel) = some (.file c)
          ∧ ∀ rest, rest ≠ [] →
            out.find ((bkp ++ rel) ++ rest)
              = g.find ((bkp ++ rel) ++ rest))
      ∧ (g.find (A ++ rel) = some .dir →
          ∀ rest, out.find ((bkp ++ rel) ++ rest)
            = g.find ((A ++ rel) ++ rest))) := by
  induction ts generalizing g with
  | nil =>
    exact ⟨g, rfl, fun q _ => rfl, fun q _ => rfl, fun q _ _ _ => rfl,
      fun rel h => absurd h (List.not_mem_nil rel)⟩
  | cons a ts ih =>
    obtain ⟨HRa, Hpf'⟩ := List.pairwise_cons.mp Hpf
    have hamem : a ∈ a :: ts := List.mem_cons_self a ts
    have Hane : a ≠ [] := Hne a hamem
    obtain ⟨g1, hstep, k1, k2, k0, kn, ks, kf, kd⟩ := bkpStep_spec A bkp a g
      Hane Hparts (Hreg a hamem) (Hnls a hamem) (Hcloses a hamem)
    have Hparts1 : ∀ q, q <+: bkp → (g1.find q).isSome = true := by
      intro q hq
      rw [k0 q (Hparts q hq)]
      exact Hparts q hq
    have Hreg1 : ∀ rel ∈ ts, ∀ q, (bkp ++ rel) <+: q → g1.find q = none := by
      intro rel hm q hq
      rw [k2 q ((List.prefix_append bkp rel).trans hq)
        (fun hc => no_common_extension bkp a rel q hc hq (HRa rel hm))
        (fun hc => no_chain_overlap bkp rel a q hq hc (HRa rel hm).2)]
      exact Hreg rel (List.mem_cons_of_mem a hm) q hq
    have htrans : ∀ rel ∈ ts, ∀ rest,
        g1.find ((A ++ rel) ++ rest) = g.find ((A ++ rel) ++ rest) := by
      intro rel hm rest
      refine k1 ((A ++ rel) ++ rest) (fun hc => ?_)
      rcases List.prefix_or_prefix_of_prefix hc
        (List.prefix_append (A ++ rel) rest) with h1 | h2
      · exact (HAreg rel (List.mem_cons_of_mem a hm)).1 h1
      · exact (HAreg rel (List.mem_cons_of_mem a hm)).2 h2
    have Hnls1 : ∀ rel ∈ ts, ∀ rest, rest ≠ [] → ∀ r,
        g1.find ((A ++ rel) ++ rest) ≠ some (.symlink r) := by
      intro rel hm rest hne r
      rw [htrans rel hm rest]
      exact Hnls rel (List.mem_cons_of_mem a hm) rest hne r
    have Hcloses1 : ∀ rel ∈ ts, ∀ rest, rest ≠ [] →
        (g1.find ((A ++ rel) ++ rest)).isSome = true →
        ∀ i, 0 < i → i < rest.length →
        g1.find ((A ++ rel) ++ rest.take i) = some .dir := by
      intro rel hm rest hne hs i h0 hi
      rw [htrans rel hm (rest.take i)]
      rw [htrans rel hm rest] at hs
      exact Hcloses rel (List.mem_cons_of_mem a hm) rest hne hs i h0 hi
    obtain ⟨out, hfoldEq, iK1, iK0, iK2, iPer⟩ := ih g1 Hparts1 Hpf'
      (fun rel hm => Hne rel (List.mem_cons_of_mem a hm)) Hreg1
      (fun rel hm => HAreg rel (List.mem_cons_of_mem a hm)) Hnls1 Hcloses1
    have htransA : ∀ rel ∈ ts,
        g1.find (A ++ rel) = g.find (A ++ rel) := by
      intro rel hm
      have h := htrans rel hm []
      rwa [List.append_nil] at h
    have hregion : ∀ rest, out.find ((bkp ++ a) ++ rest)
        = g1.find ((bkp ++ a) ++ rest) := by
      intro rest
      refine iK2 ((bkp ++ a) ++ rest)
        ((List.prefix_append bkp a).trans
          (List.prefix_append (bkp ++ a) rest))
        (fun rel hm hc => no_common_extension bkp rel a _ hc
          (List.prefix_append (bkp ++ a) rest)
          ⟨(HRa rel hm).2, (HRa rel hm).1⟩)
        (fun rel hm hc => no_chain_overlap bkp a rel _
          (List.prefix_append (bkp ++ a) rest) hc (HRa rel hm).1)
    refine ⟨out, ?_, ?_, ?_, ?_, ?_⟩
    · rw [List.foldlM_cons, hstep]
      exact hfoldEq
    · intro q hq
      rw [iK1 q hq]
      exact k1 q hq
    · intro q hq
      rw [iK0 q (by rw [k0 q hq]; exact hq)]
      exact k0 q hq
    · intro q hq hq1 hq2
      rw [iK2 q hq (fun rel hm => hq1 rel (List.mem_cons_of_mem a hm))
        (fun rel hm => hq2 rel (List.mem_cons_of_mem a hm))]
      exact k2 q hq (hq1 a hamem) (hq2 a hamem)
    · intro rel hm
      rcases List.mem_cons.mp hm with heq | hm'
      · subst heq
        refine ⟨?_, ?_, ?_⟩
        · intro hcase rest
          rw [hregion rest]
          rcases hcase with hnone | ⟨r, hr⟩
          · rw [kn hnone]
          · rw [ks r hr]
        · intro c hc
          obtain ⟨hfile, hrest⟩ := kf c hc
          constructor
          · have h0 := hregion []
            rw [List.append_nil] at h0
            rw [h0, hfile]
          · intro rest hrne
            rw [hregion rest]
            exact hrest rest hrne
        · intro hd rest
          rw [hregion rest]
          exact kd hd rest
      · obtain ⟨iskip, ifile, idir⟩ := iPer rel hm'
        have hpre : ∀ rest, g1.find ((bkp ++ rel) ++ rest)
            = g.find ((bkp ++ rel) ++ rest) := by
          intro rest
          refine k2 ((bkp ++ rel) ++ rest)
            ((List.prefix_append bkp rel).trans
              (List.prefix_append (bkp ++ rel) rest))
            (fun hc => no_common_extension bkp a rel _ hc
              (List.prefix_append (bkp ++ rel) rest) (HRa rel hm'))
            (fun hc => no_chain_overlap bkp rel a _
              (List.prefix_append (bkp ++ rel) rest) hc (HRa rel hm').2)
        refine ⟨?_, ?_, ?_⟩
        · intro hcase rest
          have hcase1 : g1.find (A ++ rel) = none
              ∨ (∃ r, g1.find (A ++ rel) = some (.symlink r)) := by
            rw [htransA rel hm']
            exact hcase
          rw [iskip hcase1 rest]
          exact hpre rest
        · intro c hc
          obtain ⟨hfile, hrest⟩ := ifile c (by rw [htransA rel hm']; exact hc)
          refine ⟨hfile, fun rest hrne => ?_⟩
          rw [hrest rest hrne]
          exact hpre rest
        · intro hd rest
          rw [idir (by rw [htransA rel hm']; exact hd) rest]
          exact htrans rel hm' rest

/-- The full description of `Files.create_bkp` over a clean world with
closed, symlink-free target subtrees. -/
theorem create_bkp_spec (ts : List FPath) (A bkp : FPath) (fs : FS)
    (Hfree : fs.find bkp = none)
    (Hparts : ∀ q, q <+: bkp → q ≠ bkp → (fs.find q).isSome = true)
    (Hpf : List.Pairwise (fun r1 r2 => ¬ r1 <+: r2 ∧ ¬ r2 <+: r1) ts)
    (Hne : ∀ rel ∈ ts, rel ≠ [])
    (Hreg : ∀ rel ∈ ts, ∀ q, (bkp ++ rel) <+: q → fs.find q = none)
    (HAreg : ∀ rel ∈ ts, ¬ bkp <+: (A ++ rel) ∧ ¬ (A ++ rel) <+: bkp)
    (Hnls : ∀ rel ∈ ts, ∀ rest, rest ≠ [] → ∀ r,
      fs.find ((A ++ rel) ++ rest) ≠ some (.symlink r))
    (Hcloses : ∀ rel ∈ ts, ∀ rest, rest ≠ [] →
      (fs.find ((A ++ rel) ++ rest)).isSome = true →
      ∀ i, 0 < i → i < rest.length →
      fs.find ((A ++ rel) ++ rest.take i) = some .dir) :
    ∃ out, Files.create_bkp ts A bkp fs = .ok out
  ∧ (∀ q, ¬ bkp <+: q → out.find q = fs.find q)
  ∧ out.find bkp = some .dir
  ∧ (∀ rel ∈ ts,
      (∀ c, fs.find (A ++ rel) = some (.file c) →
        out.find (bkp ++ rel) = some (.file c))
      ∧ (fs.find (A ++ rel) = some .dir →
        ∀ rest, out.find ((bkp ++ rel) ++ rest)
          = fs.find ((A ++ rel) ++ rest))
      ∧ ((fs.find (A ++ rel) = none
          ∨ (∃ r, fs.find (A ++ rel) = some (.symlink r))) →
        ∀ rest, out.find ((bkp ++ rel) ++ rest) = none)) := by
  have hgB : (fs.mkdirP bkp).find bkp = some .dir := by
    rw [FS.find_mkdirP, if_pos ⟨List.prefix_rfl, Hfree⟩]
  have hgkeep : ∀ q, q ≠ bkp → (fs.mkdirP bkp).find q = fs.find q := by
    intro q hq
    rw [FS.find_mkdirP]
    by_cases hc : q <+: bkp ∧ fs.find q = none
    · have hs := Hparts q hc.1 hq
      rw [hc.2] at hs
      cases hs
    · rw [if_neg hc]
  have hgparts : ∀ q, q <+: bkp → ((fs.mkdirP bkp).find q).isSome = true := by
    intro q hq
    by_cases hqB : q = bkp
    · rw [hqB, hgB]
      rfl
    · rw [hgkeep q hqB]
      exact Hparts q hq hqB
  have hneb : ∀ rel ∈ ts, ∀ q, (bkp ++ rel) <+: q → q ≠ bkp := by
    intro rel hm q hq he
    exact not_append_pre_self bkp rel (Hne rel hm) (he ▸ hq)
  have hreg' : ∀ rel ∈ ts, ∀ q, (bkp ++ rel) <+: q →
      (fs.mkdirP bkp).find q = none := by
    intro rel hm q hq
    rw [hgkeep q (hneb rel hm q hq)]
    exact Hreg rel hm q hq
  have hAkeep : ∀ rel ∈ ts, ∀ rest,
      (fs.mkdirP bkp).find ((A ++ rel) ++ rest)
        = fs.find ((A ++ rel) ++ rest) := by
    intro rel hm rest
    refine hgkeep _ (fun he => ?_)
    exact (HAreg rel hm).2 (he ▸ List.prefix_append (A ++ rel) rest)
  have hAkeep0 : ∀ rel ∈ ts,
      (fs.mkdirP bkp).find (A ++ rel) = fs.find (A ++ rel) := by
    intro rel hm
    have h := hAkeep rel hm []
    rwa [List.append_nil] at h
  have hnls' : ∀ rel ∈ ts, ∀ rest, rest ≠ [] → ∀ r,
      (fs.mkdirP bkp).find ((A ++ rel) ++ rest) ≠ some (.symlink r) := by
    intro rel hm rest hne r
    rw [hAkeep rel hm rest]
    exact Hnls rel hm rest hne r
  have hcloses' : ∀ rel ∈ ts, ∀ rest, rest ≠ [] →
      ((fs.mkdirP bkp).find ((A ++ rel) ++ rest)).isSome = true →
      ∀ i, 0 < i → i < rest.length →
      (fs.mkdirP bkp).find ((A ++ rel) ++ rest.take i) = some .dir := by
    intro rel hm rest hne hs i h0 hi
    rw [hAkeep rel hm (rest.take i)]
    rw [hAkeep rel hm rest] at hs
    exact Hcloses rel hm rest hne hs i h0 hi
  obtain ⟨out, hfoldEq, bK1, bK0, _, bPer⟩ := bkpFold_spec ts A bkp
    (fs.mkdirP bkp) hgparts Hpf Hne hreg' HAreg hnls' hcloses'
  refine ⟨out, ?_, ?_, ?_, ?_⟩
  · simp only [Files.create_bkp, Hfree]
    exact hfoldEq
  · intro q hq
    rw [bK1 q hq]
    exact hgkeep q (fun he => hq (he ▸ List.prefix_rfl))
  · rw [bK0 bkp (by rw [hgB]; rfl)]
    exact hgB
  · intro rel hm
    obtain ⟨iskip, ifile, idir⟩ := bPer rel hm
    refine ⟨?_, ?_, ?_⟩
    · intro c hc
      exact (ifile c (by rw [hAkeep0 rel hm]; exact hc)).1
    · intro hd rest
      rw [idir (by rw [hAkeep0 rel hm]; exact hd) rest]
      exact hAkeep rel hm rest
    · intro hcase rest
      have hcase' : (fs.mkdirP bkp).find (A ++ rel) = none
          ∨ (∃ r, (fs.mkdirP bkp).find (A ++ rel) = some (.symlink r)) := by
        rw [hAkeep0 rel hm]
        exact hcase
      rw [iskip hcase' rest]
      exact hreg' rel hm ((bkp ++ rel) ++ rest)
        (List.prefix_append (bkp ++ rel) rest)

/-- Bridge: a finite scan showing no entry strictly below `root` is a
symlink gives the lookup-level form. -/
theorem nls_of_scan (fs : FS) (root : FPath)
    (h : ∀ kv ∈ fs, root <+: kv.1 → kv.1 ≠ root → kv.2.isLink = false) :
    ∀ rest, rest ≠ [] → ∀ r, fs.find (root ++ rest) ≠ some (.symlink r) := by
  intro rest hne r hf
  obtain ⟨kv, hm, hk, hv⟩ := find_some_mem fs _ _ hf
  have hpre : root <+: kv.1 := by
    rw [hk]
    exact List.prefix_append root rest
  have hne2 : kv.1 ≠ root := by
    rw [hk]
    intro he
    exact not_append_pre_self root rest hne (pre_of_eq he)
  have h2 := h kv hm hpre hne2
  rw [hv] at h2
  simp [FNode.isLink] at h2

/-- Bridge: a finite scan showing every entry below `root` has directory
nodes at all its intermediate components gives the lookup-level closure
form. -/
theorem closes_of_scan (fs : FS) (root : FPath)
    (h : ∀ kv ∈ fs, root <+: kv.1 →
      ∀ i, root.length < i → i < kv.1.length →
      fs.find (kv.1.take i) = some .dir) :
    ∀ rest, rest ≠ [] → (fs.find (root ++ rest)).isSome = true →
      ∀ i, 0 < i → i < rest.length →
      fs.find (root ++ rest.take i) = some .dir := by
  intro rest hne hs i h0 hi
  obtain ⟨kv, hm, hk⟩ := find_isSome_mem fs _ hs
  have hpre : root <+: kv.1 := by
    rw [hk]
    exact List.prefix_append root rest
  have h2 := h kv hm hpre (root.length + i) (by omega)
    (by rw [hk, List.length_append]; omega)
  rw [hk, take_append_len] at h2
  exact h2

/-- C6 counterexample: the backup directory is free, yet `create_bkp`
fails — the directory target `.run` contains a dangling symlink, so
`shutil.copytree` raises `shutil.Error`; the claim says the operation
fails **exactly** when the backup directory already exists. -/
theorem c6_counterexample :
    fsDirDangling.find ["home", "proj", ".confguard.bkp"] = none
  ∧ Files.create_bkp [[".run"]] ["home", "proj"]
      ["home", "proj", ".confguard.bkp"] fsDirDangling
      = .error .copyFailed :=
  ⟨rfl, rfl⟩

/-- C6 (amended): `create_bkp` fails with `BackupExistError` when the
backup directory already exists (never overwriting the prior backup), and
**also** fails — with `copytree`'s `shutil.Error` — when a directory
target's subtree contains a dangling symlink.  Over targets whose
subtrees are closed and symlink-free (inner live symlinks would instead
be silently dereferenced by `copytree`), it fails exactly when the backup
directory exists; otherwise it succeeds and, for each target, copies an
existing non-symlink file (with its content) or directory (recursively)
into the backup, while symlinked and missing targets are skipped —
nothing appears for them in the backup and they never make the operation
fail. -/
theorem c6_create_backup (targets : List FPath) (A bkp : FPath) (fs : FS)
    (Hparts : ∀ i < bkp.length, (fs.find (bkp.take i)).isSome = true)
    (Hpf : List.Pairwise (fun r1 r2 => ¬ r1 <+: r2 ∧ ¬ r2 <+: r1) targets)
    (Hne : ∀ rel ∈ targets, rel ≠ [])
    (Hreg : ∀ kv ∈ fs, ∀ rel ∈ targets, ¬ (bkp ++ rel) <+: kv.1)
    (HAreg : ∀ rel ∈ targets,
      ¬ bkp <+: (A ++ rel) ∧ ¬ (A ++ rel) <+: bkp)
    (Hnl : ∀ kv ∈ fs, ∀ rel ∈ targets, (A ++ rel) <+: kv.1 →
      kv.1 ≠ A ++ rel → kv.2.isLink = false)
    (Hclose : ∀ kv ∈ fs, ∀ rel ∈ targets, (A ++ rel) <+: kv.1 →
      ∀ i < kv.1.length, (A ++ rel).length < i →
      fs.find (kv.1.take i) = some .dir) :
    (∀ e, Files.create_bkp targets A bkp fs = .error e ↔
      (fs.find bkp).isSome = true ∧ e = .backupExists)
  ∧ (fs.find bkp = none →
      ∀ fs', Files.create_bkp targets A bkp fs = .ok fs' →
      (∀ q, ¬ bkp <+: q → fs'.find q = fs.find q)
      ∧ fs'.find bkp = some .dir
      ∧ (∀ rel ∈ targets,
          (∀ c, fs.find (A ++ rel) = some (.file c) →
            fs'.find (bkp ++ rel) = some (.file c))
          ∧ (fs.find (A ++ rel) = some .dir →
            ∀ rest, fs'.find ((bkp ++ rel) ++ rest)
              = fs.find ((A ++ rel) ++ rest))
          ∧ ((fs.find (A ++ rel) = none
              ∨ (∃ r, fs.find (A ++ rel) = some (.symlink r))) →
            ∀ rest, fs'.find ((bkp ++ rel) ++ rest) = none))) := by
  have hspec : fs.find bkp = none →
      ∃ out, Files.create_bkp targets A bkp fs = .ok out
        ∧ (∀ q, ¬ bkp <+: q → out.find q = fs.find q)
        ∧ out.find bkp = some .dir
        ∧ (∀ rel ∈ targets,
            (∀ c, fs.find (A ++ rel) = some (.file c) →
              out.find (bkp ++ rel) = some (.file c))
            ∧ (fs.find (A ++ rel) = some .dir →
              ∀ rest, out.find ((bkp ++ rel) ++ rest)
                = fs.find ((A ++ rel) ++ rest))
            ∧ ((fs.find (A ++ rel) = none
                ∨ (∃ r, fs.find (A ++ rel) = some (.symlink r))) →
              ∀ rest, out.find ((bkp ++ rel) ++ rest) = none)) :=
    fun Hfree => create_bkp_spec targets A bkp fs Hfree
      (isSome_of_pre_short fs bkp Hparts) Hpf Hne
      (fun rel hm q hq => none_of_no_key fs (bkp ++ rel)
        (fun kv hkv => Hreg kv hkv rel hm) q hq)
      HAreg
      (fun rel hm => nls_of_scan fs (A ++ rel)
        (fun kv hkv hp hne2 => Hnl kv hkv rel hm hp hne2))
      (fun rel hm => closes_of_scan fs (A ++ rel)
        (fun kv hkv hp i hlt hle => Hclose kv hkv rel hm hp i hle hlt))
  constructor
  · intro e
    cases hf : fs.find bkp with
    | some n =>
      constructor
      · intro he
        refine ⟨rfl, ?_⟩
        have hc : Files.create_bkp targets A bkp fs
            = .error .backupExists := by
          simp only [Files.create_bkp, hf]
        rw [hc] at he
        exact (Except.error.inj he).symm
      · rintro ⟨_, rfl⟩
        simp only [Files.create_bkp, hf]
    | none =>
      constructor
      · intro he
        obtain ⟨out, heq, _⟩ := hspec hf
        rw [heq] at he
        cases he
      · rintro ⟨hs, _⟩
        simp at hs
  · intro Hfree fs' hok
    obtain ⟨out, heq, hloc, hdir, hper⟩ := hspec Hfree
    rw [heq] at hok
    have hfs' : fs' = out := (Except.ok.inj hok).symm
    subst hfs'
    exact ⟨hloc, hdir, hper⟩

/-- C6 witness: backing up the demo project into `.confguard.bkp`. -/
theorem c6_create_backup_witness :
    ((∀ e, Files.create_bkp demoTargets ["home", "proj"]
        ["home", "proj", ".confguard.bkp"] fsDemo = .error e ↔
      (fsDemo.find ["home", "proj", ".confguard.bkp"]).isSome = true
        ∧ e = .backupExists)
  ∧ (fsDemo.find ["home", "proj", ".confguard.bkp"] = none →
      ∀ fs', Files.create_bkp demoTargets ["home", "proj"]
          ["home", "proj", ".confguard.bkp"] fsDemo = .ok fs' →
      (∀ q, ¬ ["home", "proj", ".confguard.bkp"] <+: q →
        fs'.find q = fsDemo.find q)
      ∧ fs'.find ["home", "proj", ".confguard.bkp"] = some .dir
      ∧ (∀ rel ∈ demoTargets,
          (∀ c, fsDemo.find (["home", "proj"] ++ rel) = some (.file c) →
            fs'.find (["home", "proj", ".confguard.bkp"] ++ rel)
              = some (.file c))
          ∧ (fsDemo.find (["home", "proj"] ++ rel) = some .dir →
            ∀ rest, fs'.find
                ((["home", "proj", ".confguard.bkp"] ++ rel) ++ rest)
              = fsDemo.find ((["home", "proj"] ++ rel) ++ rest))
          ∧ ((fsDemo.find (["home", "proj"] ++ rel) = none
              ∨ (∃ r, fsDemo.find (["home", "proj"] ++ rel)
                  = some (.symlink r))) →
            ∀ rest, fs'.find
                ((["home", "proj", ".confguard.bkp"] ++ rel) ++ rest)
              = none)))) :=
  c6_create_backup demoTargets ["home", "proj"]
    ["home", "proj", ".confguard.bkp"] fsDemo (by decide) (by decide)
    (by decide) (by decide) (by decide) (by decide) (by decide)

/-- `copy2` writing through a one-hop symlink at the destination: the copy
lands at the link's referent and the link itself survives. -/
theorem copy2_through_link (fs : FS) (src dst r : FPath) (c : Nat)
    (hs : fs.find src = some (.file c))
    (hd : fs.find dst = some (.symlink r))
    (hr : ∀ s', fs.find r ≠ some (.symlink s')) :
    fs.copy2 src dst = fs.set r (.file c) := by
  have h40 : FS.hopBound = 39 + 1 := rfl
  rw [FS.copy2]
  simp only [h40,
    FS.resolveLink_no_link fs src
      (fun r' hr' => by rw [hs] at hr'; cases hr') (39 + 1),
    FS.resolveLink_link fs dst r 39 hd,
    FS.resolveLink_no_link fs r hr 39, hs]

/-! ## C7: what `restore_bkp` actually does per target -/

/-- C7 counterexample: the restore destination holds a **dangling**
symlink (`.envrc -> zz`, with `zz` missing).  After `restore_bkp` the
symlink is still there — it was not unlinked — and the backed-up content
was written through the link to `zz`; the claim says the symlink is
unlinked first and replaced by the backup copy. -/
theorem c7_counterexample :
    fsBkpDangling.find ["home", "proj", ".envrc"] = some (.symlink ["zz"])
  ∧ fsBkpDangling.find ["zz"] = none
  ∧ (Files.restore_bkp [[".envrc"]] ["home", "proj"]
        ["home", "proj", ".confguard.bkp"] ["home", "proj"]
        fsBkpDangling).toOption.map
      (fun fs => (fs.find ["home", "proj", ".envrc"], fs.find ["zz"]))
      = some (some (.symlink ["zz"]), some (.file 5)) :=
  ⟨rfl, rfl, rfl⟩

/-- C7 (amended): with the backup directory present, `restore_bkp` runs
the per-target step over each target; per target: a backup entry missing
from the backup is skipped without error; a backed-up file is restored
when the destination is missing; a destination symlink **whose referent
exists** is unlinked first and replaced by the copy; a **dangling**
destination symlink is *not* unlinked — the copy writes through it,
creating the referent while the link stays; an existing non-symlink
destination is left untouched; a backed-up directory is handed to
`shutil.copytree(..., dirs_exist_ok=True)`: from a closed, symlink-free
backup subtree onto a free destination it is reproduced entry for entry,
while a dangling symlink directly inside it makes the restore raise
`shutil.Error`. -/
theorem c7_restore_backup (rel src bkp home : FPath) (fs : FS)
    (hb : fs.existsP bkp = true) :
    Files.restore_bkp [rel] src bkp home fs
      = Files.restoreStep src bkp home fs rel
  ∧ (fs.existsP (bkp ++ rel) = false →
      Files.restoreStep src bkp home fs rel = .ok fs)
  ∧ (∀ c, fs.find (bkp ++ rel) = some (.file c) →
      fs.existsP ((home ++ rel).dropLast) = true →
      fs.find (src ++ rel) = none →
      Files.restoreStep src bkp home fs rel
        = .ok (fs.set (src ++ rel) (.file c)))
  ∧ (∀ c r, fs.find (bkp ++ rel) = some (.file c) →
      fs.existsP ((home ++ rel).dropLast) = true →
      fs.find (src ++ rel) = some (.symlink r) →
      (fs.statNode (src ++ rel)).isSome = true →
      bkp ++ rel ≠ src ++ rel →
      Files.restoreStep src bkp home fs rel
        = .ok ((fs.erase (src ++ rel)).set (src ++ rel) (.file c)))
  ∧ (∀ c r, fs.find (bkp ++ rel) = some (.file c) →
      fs.existsP ((home ++ rel).dropLast) = true →
      fs.find (src ++ rel) = some (.symlink r) →
      fs.find r = none →
      Files.restoreStep src bkp home fs rel
        = .ok (fs.set r (.file c)))
  ∧ (∀ c, fs.find (bkp ++ rel) = some (.file c) →
      fs.existsP ((home ++ rel).dropLast) = true →
      (fs.statNode (src ++ rel)).isSome = true →
      fs.is_symlink (src ++ rel) = false →
      Files.restoreStep src bkp home fs rel = .ok fs)
  ∧ (fs.find (bkp ++ rel) = some .dir →
      Files.restoreStep src bkp home fs rel
        = fs.copyTree (bkp ++ rel) (src ++ rel) true)
  ∧ (fs.find (bkp ++ rel) = some .dir →
      (∀ q, (src ++ rel) <+: q → fs.find q = none) →
      (∀ rest, rest ≠ [] → ∀ r,
        fs.find ((bkp ++ rel) ++ rest) ≠ some (.symlink r)) →
      (∀ rest, rest ≠ [] →
        (fs.find ((bkp ++ rel) ++ rest)).isSome = true →
        ∀ i, 0 < i → i < rest.length →
        fs.find ((bkp ++ rel) ++ rest.take i) = some .dir) →
      ∃ out, Files.restoreStep src bkp home fs rel = .ok out
        ∧ (∀ q, ¬ (src ++ rel) <+: q →
            out.find q = (fs.mkdirP (src ++ rel)).find q)
        ∧ out.find (src ++ rel) = some .dir
        ∧ (∀ rest, rest ≠ [] →
            out.find ((src ++ rel) ++ rest)
              = fs.find ((bkp ++ rel) ++ rest)))
  ∧ (∀ name r, fs.find (bkp ++ rel) = some .dir →
      fs.find (src ++ rel) = none →
      fs.find ((bkp ++ rel) ++ [name]) = some (.symlink r) →
      fs.statNode ((bkp ++ rel) ++ [name]) = none →
      Files.restoreStep src bkp home fs rel = .error .copyFailed) := by
  have hdirFwd : fs.find (bkp ++ rel) = some .dir →
      Files.restoreStep src bkp home fs rel
        = fs.copyTree (bkp ++ rel) (src ++ rel) true := by
    intro hd
    rw [Files.restoreStep]
    simp only [FS.existsP_dir fs (bkp ++ rel) hd,
      FS.is_file_of_dir fs (bkp ++ rel) hd,
      FS.is_dir_of_dir fs (bkp ++ rel) hd, if_true, Bool.false_eq_true,
      if_false]
  refine ⟨?_, ?_, ?_, ?_, ?_, ?_, hdirFwd, ?_, ?_⟩
  · simp only [Files.restore_bkp, hb, if_true, List.foldlM_cons,
      List.foldlM_nil, bind_pure]
  · intro hmiss
    rw [Files.restoreStep]
    simp [hmiss]
  · intro c hf hpar hdst
    rw [Files.restoreStep]
    have hdead : fs.existsP (src ++ rel) = false :=
      FS.existsP_none fs (src ++ rel) hdst
    simp only [FS.existsP_file fs (bkp ++ rel) c hf,
      FS.is_file_of_file fs (bkp ++ rel) c hf, hpar, hdead, if_true,
      Bool.false_and, Bool.false_eq_true, if_false]
    exact congrArg Except.ok
      (copy2_spec fs (bkp ++ rel) (src ++ rel) c hf hdst)
  · intro c r hf hpar hdst hlive hne
    rw [Files.restoreStep]
    have hex : fs.existsP (src ++ rel) = true := hlive
    simp only [FS.existsP_file fs (bkp ++ rel) c hf,
      FS.is_file_of_file fs (bkp ++ rel) c hf, hpar, hex,
      FS.is_symlink_of_link fs (src ++ rel) r hdst, Bool.and_self,
      if_true]
    have herased : (fs.erase (src ++ rel)).find (src ++ rel) = none := by
      rw [FS.find_erase, if_pos rfl]
    have hex2 : (fs.erase (src ++ rel)).existsP (src ++ rel) = false :=
      FS.existsP_none _ _ herased
    simp only [hex2, Bool.false_eq_true, if_false]
    refine congrArg Except.ok
      (copy2_spec (fs.erase (src ++ rel)) (bkp ++ rel) (src ++ rel) c
        ?_ herased)
    rw [FS.find_erase, if_neg hne]
    exact hf
  · intro c r hf hpar hdst hrnone
    rw [Files.restoreStep]
    have hdead : fs.existsP (src ++ rel) = false := by
      have h40 : FS.hopBound = 39 + 1 := rfl
      rw [FS.existsP, FS.statNode, h40, FS.resolveLink_link fs _ r 39 hdst,
        FS.resolveLink_no_link fs r
          (fun s' hs' => by rw [hrnone] at hs'; cases hs') 39, hrnone]
      rfl
    simp only [FS.existsP_file fs (bkp ++ rel) c hf,
      FS.is_file_of_file fs (bkp ++ rel) c hf, hpar, hdead, if_true,
      Bool.false_and, Bool.false_eq_true, if_false]
    exact congrArg Except.ok
      (copy2_through_link fs (bkp ++ rel) (src ++ rel) r c hf hdst
        (fun s' hs' => by rw [hrnone] at hs'; cases hs'))
  · intro c hf hpar hlive hnsym
    rw [Files.restoreStep]
    have hex : fs.existsP (src ++ rel) = true := hlive
    simp only [FS.existsP_file fs (bkp ++ rel) c hf,
      FS.is_file_of_file fs (bkp ++ rel) c hf, hpar, hex, hnsym,
      Bool.and_false, Bool.false_eq_true, if_false, if_true]
  · intro hd hfresh Hnl Hclose
    rw [hdirFwd hd]
    exact copyTree_clean fs (bkp ++ rel) (src ++ rel) true
      (by rw [hd]; rfl) hfresh Hnl Hclose
  · intro name r hd hdst hlink hdead
    rw [hdirFwd hd]
    obtain ⟨kv, hm, hk, _⟩ := find_some_mem fs _ _ hlink
    have hmem : name ∈ FS.childNames fs (bkp ++ rel) :=
      (mem_childNames fs (bkp ++ rel) name).mpr ⟨kv, hm, hk⟩
    simp only [FS.copyTree, hdst,
      copyTreeRec_err fs (fs.maxKeyLen + 1) (bkp ++ rel) (src ++ rel)
        (fs.mkdirP (src ++ rel)) name hmem r hlink hdead]

/-- C7 witness: the amended behaviour on the dangling-destination world
(write-through case), together with the per-target decomposition of the
overall call. -/
theorem c7_restore_backup_witness :
    Files.restore_bkp [[".envrc"]] ["home", "proj"]
        ["home", "proj", ".confguard.bkp"] ["home", "proj"] fsBkpDangling
      = Files.restoreStep ["home", "proj"]
          ["home", "proj", ".confguard.bkp"] ["home", "proj"]
          fsBkpDangling [".envrc"]
  ∧ Files.restoreStep ["home", "proj"] ["home", "proj", ".confguard.bkp"]
        ["home", "proj"] fsBkpDangling [".envrc"]
      = .ok (fsBkpDangling.set ["zz"] (.file 5)) :=
  ⟨(c7_restore_backup [".envrc"] ["home", "proj"]
      ["home", "proj", ".confguard.bkp"] ["home", "proj"] fsBkpDangling
      rfl).1,
    (c7_restore_backup [".envrc"] ["home", "proj"]
      ["home", "proj", ".confguard.bkp"] ["home", "proj"] fsBkpDangling
      rfl).2.2.2.2.1 5 ["zz"] rfl rfl rfl rfl⟩

/-! ## Link creation and live-link removal over clean worlds -/

theorem links_create_spec (ts : List FPath) (S T : FPath) (fs : FS)
    (Hpf : List.Pairwise (fun r1 r2 => r1 ≠ r2) ts)
    (Hfree : ∀ rel ∈ ts, fs.find (S ++ rel) = none) :
    ∃ fsL, Links.create ts S T fs = .ok fsL
      ∧ (∀ rel ∈ ts, fsL.find (S ++ rel) = some (.symlink (T ++ rel)))
      ∧ (∀ q, (∀ rel ∈ ts, q ≠ S ++ rel) → fsL.find q = fs.find q) := by
  induction ts generalizing fs with
  | nil => exact ⟨fs, rfl, fun rel h => absurd h (List.not_mem_nil rel),
      fun q _ => rfl⟩
  | cons a ts ih =>
    obtain ⟨HRa, Hpf'⟩ := List.pairwise_cons.mp Hpf
    have hamem : a ∈ a :: ts := List.mem_cons_self a ts
    set g1 := fs.set (S ++ a) (.symlink (T ++ a)) with hg1
    have hstep : fs.symlinkTo (S ++ a) (T ++ a) = .ok g1 := by
      rw [FS.symlinkTo, Hfree a hamem]
    have hfree1 : ∀ rel ∈ ts, g1.find (S ++ rel) = none := by
      intro rel hm
      rw [hg1, FS.find_set, if_neg (fun hc =>
        HRa rel hm (List.append_cancel_left hc).symm)]
      exact Hfree rel (List.mem_cons_of_mem a hm)
    obtain ⟨fsL, hEq, hLinks, hKeep⟩ := ih g1 Hpf' hfree1
    refine ⟨fsL, ?_, ?_, ?_⟩
    · show List.foldlM (fun fs rel =>
        fs.symlinkTo (S ++ rel) (T ++ rel)) fs (a :: ts) = .ok fsL
      rw [List.foldlM_cons, hstep]
      exact hEq
    · intro rel hm
      rcases List.mem_cons.mp hm with heq | hm'
      · subst heq
        rw [hKeep (S ++ rel) (fun rel' hm' hc =>
          HRa rel' hm' (List.append_cancel_left hc)), hg1, FS.find_set,
          if_pos rfl]
      · exact hLinks rel hm'
    · intro q hq
      rw [hKeep q (fun rel hm => hq rel (List.mem_cons_of_mem a hm)), hg1,
        FS.find_set, if_neg (hq a hamem)]

theorem links_remove_live_spec (ts : List FPath) (S T : FPath) (fs : FS)
    (Hpf : List.Pairwise (fun r1 r2 => r1 ≠ r2) ts)
    (Hlink : ∀ rel ∈ ts, fs.find (S ++ rel) = some (.symlink (T ++ rel)))
    (Href : ∀ rel ∈ ts, (∃ c, fs.find (T ++ rel) = some (.file c))
      ∨ fs.find (T ++ rel) = some .dir)
    (Hdiff : ∀ rel ∈ ts, ∀ rel' ∈ ts, T ++ rel ≠ S ++ rel') :
    (∀ rel ∈ ts, (Links.remove ts S fs).find (S ++ rel) = none)
  ∧ (∀ q, (∀ rel ∈ ts, q ≠ S ++ rel) →
      (Links.remove ts S fs).find q = fs.find q) := by
  induction ts generalizing fs with
  | nil => exact ⟨fun rel h => absurd h (List.not_mem_nil rel),
      fun q _ => rfl⟩
  | cons a ts ih =>
    obtain ⟨HRa, Hpf'⟩ := List.pairwise_cons.mp Hpf
    have hamem : a ∈ a :: ts := List.mem_cons_self a ts
    have hrefnl : ∀ s', fs.find (T ++ a) ≠ some (.symlink s') := by
      intro s' hs'
      rcases Href a hamem with ⟨c, hc⟩ | hd
      · rw [hc] at hs'
        cases hs'
      · rw [hd] at hs'
        cases hs'
    have hex : fs.existsP (S ++ a) = true := by
      rw [FS.existsP, FS.statNode_one_link fs (S ++ a) (T ++ a)
        (Hlink a hamem) hrefnl]
      rcases Href a hamem with ⟨c, hc⟩ | hd
      · rw [hc]
        rfl
      · rw [hd]
        rfl
    have hstep : Links.removeStep S fs a = fs.erase (S ++ a) := by
      rw [Links.removeStep]
      simp only [hex,
        FS.is_symlink_of_link fs (S ++ a) (T ++ a) (Hlink a hamem), if_true]
    have hg1keep : ∀ q, q ≠ S ++ a →
        (fs.erase (S ++ a)).find q = fs.find q := by
      intro q hq
      rw [FS.find_erase, if_neg hq]
    have hlink1 : ∀ rel ∈ ts,
        (fs.erase (S ++ a)).find (S ++ rel)
          = some (.symlink (T ++ rel)) := by
      intro rel hm
      rw [hg1keep (S ++ rel) (fun hc =>
        HRa rel hm (List.append_cancel_left hc).symm)]
      exact Hlink rel (List.mem_cons_of_mem a hm)
    have href1 : ∀ rel ∈ ts,
        (∃ c, (fs.erase (S ++ a)).find (T ++ rel) = some (.file c))
          ∨ (fs.erase (S ++ a)).find (T ++ rel) = some .dir := by
      intro rel hm
      rw [hg1keep (T ++ rel)
        (Hdiff rel (List.mem_cons_of_mem a hm) a hamem)]
      exact Href rel (List.mem_cons_of_mem a hm)
    have hdiff1 : ∀ rel ∈ ts, ∀ rel' ∈ ts,
        T ++ rel ≠ S ++ rel' := fun rel hm rel' hm' =>
      Hdiff rel (List.mem_cons_of_mem a hm) rel' (List.mem_cons_of_mem a hm')
    obtain ⟨iGone, iKeep⟩ := ih (fs.erase (S ++ a)) Hpf' hlink1 href1 hdiff1
    have hfold : Links.remove (a :: ts) S fs
        = Links.remove ts S (fs.erase (S ++ a)) := by
      show Links.remove ts S (Links.removeStep S fs a)
        = Links.remove ts S (fs.erase (S ++ a))
      rw [hstep]
    rw [hfold]
    constructor
    · intro rel hm
      rcases List.mem_cons.mp hm with heq | hm'
      · subst heq
        rw [iKeep (S ++ rel) (fun rel' hm' hc =>
          HRa rel' hm' (List.append_cancel_left hc)), FS.find_erase,
          if_pos rfl]
      · exact iGone rel hm'
    · intro q hq
      rw [iKeep q (fun rel hm => hq rel (List.mem_cons_of_mem a hm))]
      exact hg1keep q (hq a hamem)

/-! ## Liveness monotonicity: unlinking entries never revives a symlink -/

theorem erase_resolve_mono (fs : FS) (p : FPath) :
    ∀ (fuel : Nat) (A : FPath) (n : FNode),
      (fs.erase p).find ((fs.erase p).resolveLink fuel A) = some n →
      (n = .dir ∨ ∃ c, n = .file c) →
      fs.resolveLink fuel A = (fs.erase p).resolveLink fuel A := by
  intro fuel
  induction fuel with
  | zero =>
    intro A n _ _
    rfl
  | succ fuel ih =>
    intro A n hn hfd
    cases hA : (fs.erase p).find A with
    | none =>
      rw [FS.resolveLink_no_link _ _
        (fun r hr => by rw [hA] at hr; cases hr) (fuel + 1), hA] at hn
      cases hn
    | some m =>
      have hAq : ¬ A = p := by
        intro he
        rw [FS.find_erase, if_pos he] at hA
        cases hA
      have hfsA : fs.find A = some m := by
        rw [FS.find_erase, if_neg hAq] at hA
        exact hA
      cases m with
      | symlink r =>
        have e1 := FS.resolveLink_link (fs.erase p) A r fuel hA
        have e2 := FS.resolveLink_link fs A r fuel hfsA
        rw [e1] at hn
        rw [e1, e2]
        exact ih r n hn hfd
      | file c =>
        rw [FS.resolveLink_no_link (fs.erase p) A
            (fun r hr => by rw [hA] at hr; cases hr) (fuel + 1),
          FS.resolveLink_no_link fs A
            (fun r hr => by rw [hfsA] at hr; cases hr) (fuel + 1)]
      | dir =>
        rw [FS.resolveLink_no_link (fs.erase p) A
            (fun r hr => by rw [hA] at hr; cases hr) (fuel + 1),
          FS.resolveLink_no_link fs A
            (fun r hr => by rw [hfsA] at hr; cases hr) (fuel + 1)]

theorem statNode_erase_isSome (fs : FS) (p A : FPath)
    (h : ((fs.erase p).statNode A).isSome = true) :
    (fs.statNode A).isSome = true := by
  rw [FS.statNode] at h
  cases hz : (fs.erase p).find ((fs.erase p).resolveLink FS.hopBound A) with
  | none =>
    rw [hz] at h
    simp at h
  | some n =>
    cases n with
    | symlink r =>
      rw [hz] at h
      simp at h
    | file c =>
      have heq := erase_resolve_mono fs p FS.hopBound A (.file c) hz
        (Or.inr ⟨c, rfl⟩)
      have hzq : ¬ ((fs.erase p).resolveLink FS.hopBound A) = p := by
        intro he
        rw [FS.find_erase, if_pos he] at hz
        cases hz
      have hfs :
          fs.find ((fs.erase p).resolveLink FS.hopBound A)
            = some (.file c) := by
        rw [FS.find_erase, if_neg hzq] at hz
        exact hz
      rw [FS.statNode, heq, hfs]
      rfl
    | dir =>
      have heq := erase_resolve_mono fs p FS.hopBound A .dir hz (Or.inl rfl)
      have hzq : ¬ ((fs.erase p).resolveLink FS.hopBound A) = p := by
        intro he
        rw [FS.find_erase, if_pos he] at hz
        cases hz
      have hfs :
          fs.find ((fs.erase p).resolveLink FS.hopBound A) = some .dir := by
        rw [FS.find_erase, if_neg hzq] at hz
        exact hz
      rw [FS.statNode, heq, hfs]
      rfl

theorem notLive_erase (fs : FS) (q A : FPath) (h : ¬ Live fs A) :
    ¬ Live (fs.erase q) A := by
  rintro ⟨he, hs⟩
  apply h
  have hsym : ∃ r, (fs.erase q).find A = some (.symlink r) := by
    rw [FS.is_symlink] at hs
    cases hf : (fs.erase q).find A with
    | none => rw [hf] at hs; cases hs
    | some m =>
      cases m with
      | symlink r => exact ⟨r, rfl⟩
      | file c => rw [hf] at hs; cases hs
      | dir => rw [hf] at hs; cases hs
  obtain ⟨r, hr⟩ := hsym
  have hAq : ¬ A = q := by
    intro he'
    rw [FS.find_erase, if_pos he'] at hr
    cases hr
  have hfs : fs.find A = some (.symlink r) := by
    rw [FS.find_erase, if_neg hAq] at hr
    exact hr
  exact ⟨statNode_erase_isSome fs q A he, FS.is_symlink_of_link fs A r hfs⟩

theorem removeStep_of_notLive (source_dir : FPath) (fs : FS) (rel : FPath)
    (h : ¬ Live fs (source_dir ++ rel)) :
    Links.removeStep source_dir fs rel = fs := by
  rw [Links.removeStep]
  by_cases h1 : fs.existsP (source_dir ++ rel) = true
  · by_cases h2 : fs.is_symlink (source_dir ++ rel) = true
    · exact absurd ⟨h1, h2⟩ h
    · simp [h1, h2]
  · simp [h1]

theorem removeStep_notLive_self (source_dir : FPath) (fs : FS)
    (rel : FPath) :
    ¬ Live (Links.removeStep source_dir fs rel) (source_dir ++ rel) := by
  by_cases h1 : fs.existsP (source_dir ++ rel) = true
  · by_cases h2 : fs.is_symlink (source_dir ++ rel) = true
    · rw [Links.removeStep]
      simp only [h1, h2, if_true]
      rintro ⟨_, hs⟩
      rw [FS.is_symlink, FS.find_erase, if_pos rfl] at hs
      cases hs
    · rw [removeStep_of_notLive source_dir fs rel (fun hl => h2 hl.2)]
      exact fun hl => h2 hl.2
  · rw [removeStep_of_notLive source_dir fs rel (fun hl => h1 hl.1)]
    exact fun hl => h1 hl.1

theorem notLive_removeStep (source_dir : FPath) (fs : FS) (rel A : FPath)
    (h : ¬ Live fs A) :
    ¬ Live (Links.removeStep source_dir fs rel) A := by
  rw [Links.removeStep]
  by_cases h1 : fs.existsP (source_dir ++ rel) = true
  · by_cases h2 : fs.is_symlink (source_dir ++ rel) = true
    · simp only [h1, h2, if_true]
      exact notLive_erase fs (source_dir ++ rel) A h
    · simp [h1, h2, h]
  · simp [h1, h]

theorem notLive_remove (targets : List FPath) (source_dir : FPath)
    (fs : FS) (A : FPath) (h : ¬ Live fs A) :
    ¬ Live (Links.remove targets source_dir fs) A := by
  induction targets generalizing fs with
  | nil => exact h
  | cons a ts ih =>
    exact ih (Links.removeStep source_dir fs a)
      (notLive_removeStep source_dir fs a A h)

theorem remove_notLive_all (targets : List FPath) (source_dir : FPath)
    (fs : FS) :
    ∀ rel ∈ targets,
      ¬ Live (Links.remove targets source_dir fs) (source_dir ++ rel) := by
  induction targets generalizing fs with
  | nil =>
    intro rel h
    cases h
  | cons a ts ih =>
    intro rel hmem
    rcases List.mem_cons.mp hmem with rfl | hm
    · exact notLive_remove ts source_dir _ _
        (removeStep_notLive_self source_dir fs rel)
    · exact ih (Links.removeStep source_dir fs a) rel hm

theorem remove_id_of_notLive (targets : List FPath) (source_dir : FPath)
    (fs : FS) (h : ∀ rel ∈ targets, ¬ Live fs (source_dir ++ rel)) :
    Links.remove targets source_dir fs = fs := by
  induction targets with
  | nil => rfl
  | cons a ts ih =>
    show Links.remove ts source_dir (Links.removeStep source_dir fs a) = fs
    rw [removeStep_of_notLive source_dir fs a (h a (List.mem_cons_self a ts))]
    exact ih (fun rel hm => h rel (List.mem_cons_of_mem a hm))

/-- C8 counterexample: a **dangling** symlink at the target path
(`exists()` is `False` because it follows the link) is *not* unlinked by
`Links.remove` — the claim says a symlink whose referent no longer exists
is unlinked. -/
theorem c8_counterexample :
    fsDangling.find ["home", "proj", ".envrc"] = some (.symlink ["gone"])
  ∧ fsDangling.find ["gone"] = none
  ∧ (Links.remove [[".envrc"]] ["home", "proj"] fsDangling).find
      ["home", "proj", ".envrc"] = some (.symlink ["gone"]) :=
  ⟨rfl, rfl, rfl⟩

/-- C8 (amended): `removeForwardLinks` unlinks a target only when it is a
symlink **whose referent exists**; a dangling symlink fails the `exists()`
test and is skipped (left in place); anything that is not a symlink —
a real file or directory, or a missing path — is never deleted; and the
operation is idempotent, so a second consecutive call changes nothing and
produces no error. -/
theorem c8_remove_forward_links (targets : List FPath)
    (source_dir rel : FPath) (fs : FS) :
    (fs.is_symlink (source_dir ++ rel) = false →
      Links.remove [rel] source_dir fs = fs)
  ∧ (∀ r, fs.find (source_dir ++ rel) = some (.symlink r) →
      (fs.statNode (source_dir ++ rel)).isSome = false →
      Links.remove [rel] source_dir fs = fs)
  ∧ (∀ r, fs.find (source_dir ++ rel) = some (.symlink r) →
      (fs.statNode (source_dir ++ rel)).isSome = true →
      Links.remove [rel] source_dir fs = fs.erase (source_dir ++ rel))
  ∧ Links.remove targets source_dir (Links.remove targets source_dir fs)
      = Links.remove targets source_dir fs := by
  refine ⟨?_, ?_, ?_, ?_⟩
  · intro hs
    exact removeStep_of_notLive source_dir fs rel
      (fun hl => by rw [hl.2] at hs; cases hs)
  · intro r _ hdead
    refine removeStep_of_notLive source_dir fs rel (fun hl => ?_)
    have h1 : (fs.statNode (source_dir ++ rel)).isSome = true := hl.1
    rw [hdead] at h1
    cases h1
  · intro r hlink hlive
    show Links.removeStep source_dir fs rel = fs.erase (source_dir ++ rel)
    have hex : fs.existsP (source_dir ++ rel) = true := hlive
    rw [Links.removeStep]
    simp only [hex, FS.is_symlink_of_link fs _ r hlink, if_true]
  · exact remove_id_of_notLive targets source_dir _
      (remove_notLive_all targets source_dir fs)

/-- C8 witness: on the concrete dangling-link world, the link is left in
place and the removal is idempotent. -/
theorem c8_remove_forward_links_witness :
    Links.remove [[".envrc"]] ["home", "proj"] fsDangling = fsDangling
  ∧ Links.remove [[".envrc"]] ["home", "proj"]
        (Links.remove [[".envrc"]] ["home", "proj"] fsDangling)
      = Links.remove [[".envrc"]] ["home", "proj"] fsDangling :=
  ⟨(c8_remove_forward_links [[".envrc"]] ["home", "proj"] [".envrc"]
      fsDangling).2.1 ["gone"] rfl rfl,
    (c8_remove_forward_links [[".envrc"]] ["home", "proj"] [".envrc"]
      fsDangling).2.2.2⟩

/-- C3 witness: the amended behaviour on the concrete leftover world. -/
theorem c3_move_back_removes_unconditionally_witness :
    Files.return_files [[".envrc"]] ["home", "proj"] ["cg", "s1"]
        fsLeftover =
      .ok ((Files.move_files [[".envrc"]] ["cg", "s1"] ["home", "proj"]
        fsLeftover).removeTree ["cg", "s1"])
  ∧ ∀ q, ["cg", "s1"] <+: q →
      ((Files.move_files [[".envrc"]] ["cg", "s1"] ["home", "proj"]
          fsLeftover).removeTree ["cg", "s1"]).find q = none :=
  c3_move_back_removes_unconditionally [[".envrc"]] ["home", "proj"]
    ["cg", "s1"] fsLeftover rfl

/-! ## C1: the guard / unguard round trip

`guard_spec` runs the full `_guard` transaction on a clean world and
characterises the resulting filesystem; `unguard_spec` runs `_unguard` on
any filesystem with that shape and shows it restores the original world at
every target, clears the storage directory and the sentinel. -/

theorem guard_spec (C S : FPath) (ts : List FPath) (sent : String) (fs₀ : FS)
    (Hpf : List.Pairwise (fun r1 r2 => ¬ r1 <+: r2 ∧ ¬ r2 <+: r1) ts)
    (Hne : ∀ rel ∈ ts, rel ≠ [])
    (Hnode : ∀ rel ∈ ts, (∃ c, fs₀.find (S ++ rel) = some (.file c))
      ∨ fs₀.find (S ++ rel) = some .dir)
    (HSdir : fs₀.find S = some .dir)
    (HSparts : ∀ i < S.length, (fs₀.find (S.take i)).isSome = true)
    (HCdir : fs₀.find C = some .dir)
    (HCparts : ∀ i < C.length, (fs₀.find (C.take i)).isSome = true)
    (Hsfresh : ∀ kv ∈ fs₀, ¬ (C ++ [sent]) <+: kv.1)
    (Hbfresh : ∀ kv ∈ fs₀, ¬ (S ++ [CONFGUARD_BKP_DIR]) <+: kv.1)
    (HdisjSB : ¬ S <+: C ++ [sent]) (HdisjBS : ¬ C ++ [sent] <+: S)
    (Hbkpname : ∀ rel ∈ ts, ¬ [CONFGUARD_BKP_DIR] <+: rel)
    (Hbackname : ∀ rel ∈ ts, ¬ [Links.backName sent] <+: rel)
    (Hnls : ∀ rel ∈ ts, ∀ rest, rest ≠ [] → ∀ r,
      fs₀.find ((S ++ rel) ++ rest) ≠ some (.symlink r))
    (Hcloses : ∀ rel ∈ ts, ∀ rest, rest ≠ [] →
      (fs₀.find ((S ++ rel) ++ rest)).isSome = true →
      ∀ i, 0 < i → i < rest.length →
      fs₀.find ((S ++ rel) ++ rest.take i) = some .dir) :
    ∃ g : FS, _guard C ts sent S ⟨fs₀, none⟩ = (⟨g, some sent⟩, .ok)
      ∧ (∀ q, ¬ (C ++ [sent]) <+: q → (∀ rel ∈ ts, ¬ (S ++ rel) <+: q) →
          ¬ (S ++ [CONFGUARD_BKP_DIR]) <+: q → g.find q = fs₀.find q)
      ∧ (∀ rel ∈ ts, g.find (S ++ rel)
          = some (.symlink ((C ++ [sent]) ++ rel)))
      ∧ (∀ rel ∈ ts, ∀ rest, rest ≠ [] →
          g.find ((S ++ rel) ++ rest) = none)
      ∧ (∀ rel ∈ ts, ∀ rest, g.find (((C ++ [sent]) ++ rel) ++ rest)
          = fs₀.find ((S ++ rel) ++ rest))
      ∧ g.find (C ++ [sent]) = some .dir
      ∧ g.find ((C ++ [sent]) ++ [Links.backName sent]) = some (.symlink S)
      ∧ (∀ q, (C ++ [sent]) <+: q → q ≠ C ++ [sent] →
          (∀ rel ∈ ts, ¬ ((C ++ [sent]) ++ rel) <+: q) →
          (∀ rel ∈ ts, ¬ q <+: ((C ++ [sent]) ++ rel).dropLast) →
          q ≠ (C ++ [sent]) ++ [Links.backName sent] → g.find q = none)
      ∧ (∀ q, (S ++ [CONFGUARD_BKP_DIR]) <+: q → g.find q = none) := by
  have hBnone : ∀ q, (C ++ [sent]) <+: q → fs₀.find q = none :=
    none_of_no_key fs₀ (C ++ [sent]) Hsfresh
  have hb1none : ∀ q, (S ++ [CONFGUARD_BKP_DIR]) <+: q → fs₀.find q = none :=
    none_of_no_key fs₀ (S ++ [CONFGUARD_BKP_DIR]) Hbfresh
  have hSall : ∀ q, q <+: S → (fs₀.find q).isSome = true := by
    intro q hq
    by_cases hqS : q = S
    · rw [hqS, HSdir]
      rfl
    · exact isSome_of_pre_short fs₀ S HSparts q hq hqS
  have hCall : ∀ q, q <+: C → (fs₀.find q).isSome = true := by
    intro q hq
    by_cases hqC : q = C
    · rw [hqC, HCdir]
      rfl
    · exact isSome_of_pre_short fs₀ C HCparts q hq hqC
  have hnotb1B : ¬ (S ++ [CONFGUARD_BKP_DIR]) <+: (C ++ [sent]) := fun h =>
    HdisjSB ((List.prefix_append S [CONFGUARD_BKP_DIR]).trans h)
  have hnotBb1 : ¬ (C ++ [sent]) <+: (S ++ [CONFGUARD_BKP_DIR]) := by
    intro h
    rcases List.prefix_or_prefix_of_prefix h
      (List.prefix_append S [CONFGUARD_BKP_DIR]) with h1 | h1
    · exact HdisjBS h1
    · exact HdisjSB h1
  have hcompat_b1 : ∀ q, (C ++ [sent]) <+: q →
      ¬ (S ++ [CONFGUARD_BKP_DIR]) <+: q := by
    intro q hB hb1
    rcases List.prefix_or_prefix_of_prefix hB hb1 with h1 | h1
    · exact hnotBb1 h1
    · exact hnotb1B h1
  have dA : ∀ rel ∈ ts, ¬ (S ++ rel) <+: (C ++ [sent])
      ∧ ¬ (C ++ [sent]) <+: (S ++ rel) := by
    intro rel hm
    constructor
    · intro h
      exact HdisjSB ((List.prefix_append S rel).trans h)
    · intro h
      rcases List.prefix_or_prefix_of_prefix h
        (List.prefix_append S rel) with h1 | h1
      · exact HdisjBS h1
      · exact HdisjSB h1
  have hb1A : ∀ rel ∈ ts, ¬ (S ++ [CONFGUARD_BKP_DIR]) <+: (S ++ rel)
      ∧ ¬ (S ++ rel) <+: (S ++ [CONFGUARD_BKP_DIR]) := by
    intro rel hm
    constructor
    · intro h
      exact Hbkpname rel hm ((pre_append_iff S _ rel).mp h)
    · intro h
      have h2 := (pre_append_iff S rel _).mp h
      have h3 := pre_singleton rel CONFGUARD_BKP_DIR h2 (Hne rel hm)
      exact Hbkpname rel hm (pre_of_eq h3.symm)
  obtain ⟨F1, hcbEq, loc1, dir1, _⟩ := create_bkp_spec ts S
    (S ++ [CONFGUARD_BKP_DIR]) fs₀
    (hb1none _ List.prefix_rfl)
    (fun q hq hne => hSall q (pre_of_pre_concat q S CONFGUARD_BKP_DIR hq hne))
    Hpf Hne
    (fun rel hm q hq =>
      hb1none q ((List.prefix_append (S ++ [CONFGUARD_BKP_DIR]) rel).trans hq))
    hb1A Hnls Hcloses
  have hF1B : ∀ q, (C ++ [sent]) <+: q → F1.find q = none := by
    intro q hq
    rw [loc1 q (hcompat_b1 q hq)]
    exact hBnone q hq
  obtain ⟨mvL, mvB, mvP, mvM, _⟩ := move_files_spec ts S (C ++ [sent]) F1
    (Or.inl (hF1B _ List.prefix_rfl))
    (fun q hq hne => by
      rw [loc1 q (fun h => hnotb1B (h.trans hq))]
      exact hCall q (pre_of_pre_concat q C sent hq hne))
    Hpf Hne
    (fun rel hm => by
      rw [loc1 _ (hb1A rel hm).1]
      exact Or.inr (Hnode rel hm))
    (fun rel hm q hq =>
      hF1B q ((List.prefix_append (C ++ [sent]) rel).trans hq))
    dA
  set F2 : FS := Files.move_files ts S (C ++ [sent]) F1 with hF2
  have hF1t : ∀ rel ∈ ts, (F1.find (S ++ rel)).isSome = true := by
    intro rel hm
    rw [loc1 _ (hb1A rel hm).1]
    rcases Hnode rel hm with ⟨c, hc⟩ | hd
    · rw [hc]
      rfl
    · rw [hd]
      rfl
  have hlkfree : ∀ rel ∈ ts, F2.find (S ++ rel) = none := by
    intro rel hm
    have h := (mvM rel hm (hF1t rel hm)).2 []
    rwa [List.append_nil] at h
  obtain ⟨fsL, hlcEq, lkL, lkKeep⟩ := links_create_spec ts S (C ++ [sent]) F2
    (pairwise_ne_of_non_pre ts Hpf) hlkfree
  have hblB : (C ++ [sent]) <+: (C ++ [sent]) ++ [Links.backName sent] :=
    List.prefix_append _ _
  have hbl_ne_t : ∀ rel ∈ ts,
      (C ++ [sent]) ++ [Links.backName sent] ≠ S ++ rel := by
    intro rel hm he
    exact (dA rel hm).2 (he ▸ hblB)
  have hblneB : (C ++ [sent]) ++ [Links.backName sent] ≠ C ++ [sent] :=
    (ne_append_singleton (C ++ [sent]) (Links.backName sent)).symm
  have hblnone : fsL.find ((C ++ [sent]) ++ [Links.backName sent]) = none := by
    rw [lkKeep _ hbl_ne_t]
    refine mvP _ hblB hblneB (hF1B _ hblB) ?_ ?_
    · intro rel hm hc
      have h2 := (pre_append_iff (C ++ [sent]) rel [Links.backName sent]).mp hc
      have h3 := pre_singleton rel (Links.backName sent) h2 (Hne rel hm)
      exact Hbackname rel hm (pre_of_eq h3.symm)
    · intro rel hm hc
      rw [List.dropLast_append_of_ne_nil (C ++ [sent]) (Hne rel hm)] at hc
      have h2 := (pre_append_iff (C ++ [sent]) _ _).mp hc
      exact Hbackname rel hm (h2.trans ( List.dropLast_prefix rel))
  have hbcEq : Links.back_create S (C ++ [sent]) sent fsL
      = .ok (fsL.set ((C ++ [sent]) ++ [Links.backName sent])
          (.symlink S)) := by
    simp only [Links.back_create, FS.symlinkTo, hblnone]
  set FB : FS := fsL.set ((C ++ [sent]) ++ [Links.backName sent])
    (.symlink S) with hFB
  have hb1_ne_bl : S ++ [CONFGUARD_BKP_DIR]
      ≠ (C ++ [sent]) ++ [Links.backName sent] := by
    intro he
    exact hnotBb1 (he.symm ▸ hblB)
  have hb1_ne_t : ∀ rel ∈ ts, S ++ [CONFGUARD_BKP_DIR] ≠ S ++ rel := by
    intro rel hm he
    exact Hbkpname rel hm (pre_of_eq (List.append_cancel_left he))
  have hFBb1 : FB.find (S ++ [CONFGUARD_BKP_DIR]) = some .dir := by
    rw [hFB, FS.find_set, if_neg hb1_ne_bl, lkKeep _ hb1_ne_t,
      mvL _ hnotBb1 (fun rel hm => (hb1A rel hm).2)]
    exact dir1
  have hddEq : Files.delete_dir (S ++ [CONFGUARD_BKP_DIR]) FB
      = .ok (FB.removeTree (S ++ [CONFGUARD_BKP_DIR])) := by
    simp only [Files.delete_dir, hFBb1]
  set g : FS := FB.removeTree (S ++ [CONFGUARD_BKP_DIR]) with hg
  refine ⟨g, ?_, ?_, ?_, ?_, ?_, ?_, ?_, ?_, ?_⟩
  · simp only [_guard, hcbEq, ← hF2, hlcEq, hbcEq, finallyDelete, hddEq,
      ← hg]
  · intro q h1 h2 h3
    have hq_ne_bl : q ≠ (C ++ [sent]) ++ [Links.backName sent] := by
      intro he
      exact h1 (by rw [he]; exact hblB)
    have hq_ne_t : ∀ rel ∈ ts, q ≠ S ++ rel := by
      intro rel hm he
      exact h2 rel hm (pre_of_eq he.symm)
    rw [hg, FS.find_removeTree, if_neg h3, hFB, FS.find_set,
      if_neg hq_ne_bl, lkKeep q hq_ne_t, mvL q h1 h2, loc1 q h3]
  · intro rel hm
    have hnbl : S ++ rel ≠ (C ++ [sent]) ++ [Links.backName sent] := by
      intro he
      exact (dA rel hm).2 (by rw [he]; exact hblB)
    rw [hg, FS.find_removeTree, if_neg (hb1A rel hm).1, hFB, FS.find_set,
      if_neg hnbl]
    exact lkL rel hm
  · intro rel hm rest hrest
    have hq : (S ++ rel) <+: (S ++ rel) ++ rest := List.prefix_append _ _
    have h3 : ¬ (S ++ [CONFGUARD_BKP_DIR]) <+: (S ++ rel) ++ rest := by
      intro h
      rcases List.prefix_or_prefix_of_prefix h hq with h1 | h1
      · exact (hb1A rel hm).1 h1
      · exact (hb1A rel hm).2 h1
    have hnbl : (S ++ rel) ++ rest
        ≠ (C ++ [sent]) ++ [Links.backName sent] := by
      intro he
      have hB : (C ++ [sent]) <+: (S ++ rel) ++ rest := by
        rw [he]
        exact hblB
      rcases List.prefix_or_prefix_of_prefix hB hq with h1 | h1
      · exact (dA rel hm).2 h1
      · exact (dA rel hm).1 h1
    have hne_t : ∀ rel' ∈ ts, (S ++ rel) ++ rest ≠ S ++ rel' := by
      intro rel' hm' he
      rw [List.append_assoc] at he
      have h2 : rel ++ rest = rel' := List.append_cancel_left he
      by_cases hrr : rel = rel'
      · subst hrr
        have hlen := congrArg List.length h2
        rw [List.length_append] at hlen
        have hz : rest.length = 0 := by omega
        exact hrest (List.length_eq_zero.mp hz)
      · exact pairwise_non_pre ts Hpf rel hm rel' hm' hrr ⟨rest, h2⟩
    rw [hg, FS.find_removeTree, if_neg h3, hFB, FS.find_set, if_neg hnbl,
      lkKeep _ hne_t]
    exact (mvM rel hm (hF1t rel hm)).2 rest
  · intro rel hm rest
    have hBq : (C ++ [sent]) <+: ((C ++ [sent]) ++ rel) ++ rest :=
      (List.prefix_append _ rel).trans (List.prefix_append _ rest)
    have h3 : ¬ (S ++ [CONFGUARD_BKP_DIR]) <+: ((C ++ [sent]) ++ rel) ++ rest :=
      hcompat_b1 _ hBq
    have hnbl : ((C ++ [sent]) ++ rel) ++ rest
        ≠ (C ++ [sent]) ++ [Links.backName sent] := by
      intro he
      rw [List.append_assoc] at he
      have h2 : rel ++ rest = [Links.backName sent] :=
        List.append_cancel_left he
      have h4 := pre_singleton rel (Links.backName sent) ⟨rest, h2⟩
        (Hne rel hm)
      exact Hbackname rel hm (pre_of_eq h4.symm)
    have hne_t : ∀ rel' ∈ ts, ((C ++ [sent]) ++ rel) ++ rest ≠ S ++ rel' := by
      intro rel' hm' he
      have hS : S <+: ((C ++ [sent]) ++ rel) ++ rest := by
        rw [he]
        exact List.prefix_append S rel'
      rcases List.prefix_or_prefix_of_prefix hBq hS with h1 | h1
      · exact HdisjBS h1
      · exact HdisjSB h1
    have hb1q : ¬ (S ++ [CONFGUARD_BKP_DIR]) <+: (S ++ rel) ++ rest := by
      intro h
      rcases List.prefix_or_prefix_of_prefix h
        (List.prefix_append (S ++ rel) rest) with h1 | h1
      · exact (hb1A rel hm).1 h1
      · exact (hb1A rel hm).2 h1
    rw [hg, FS.find_removeTree, if_neg h3, hFB, FS.find_set, if_neg hnbl,
      lkKeep _ hne_t, (mvM rel hm (hF1t rel hm)).1 rest, loc1 _ hb1q]
  · have hne_t : ∀ rel ∈ ts, C ++ [sent] ≠ S ++ rel := by
      intro rel hm he
      exact HdisjSB (by rw [he]; exact List.prefix_append S rel)
    rw [hg, FS.find_removeTree, if_neg hnotb1B, hFB, FS.find_set,
      if_neg (ne_append_singleton (C ++ [sent]) (Links.backName sent)),
      lkKeep _ hne_t]
    exact mvB
  · rw [hg, FS.find_removeTree, if_neg (hcompat_b1 _ hblB), hFB,
      FS.find_set, if_pos rfl]
  · intro q hBq hqneB hnq1 hnq2 hqnbl
    have hne_t : ∀ rel ∈ ts, q ≠ S ++ rel := by
      intro rel hm he
      have hS : S <+: q := by
        rw [he]
        exact List.prefix_append S rel
      rcases List.prefix_or_prefix_of_prefix hBq hS with h1 | h1
      · exact HdisjBS h1
      · exact HdisjSB h1
    rw [hg, FS.find_removeTree, if_neg (hcompat_b1 q hBq), hFB,
      FS.find_set, if_neg hqnbl, lkKeep _ hne_t]
    exact mvP q hBq hqneB (hF1B q hBq) hnq1 hnq2
  · intro q hq
    rw [hg, FS.find_removeTree, if_pos hq]

theorem unguard_spec (C S : FPath) (ts : List FPath) (sent : String)
    (fs₀ g : FS)
    (Hpf : List.Pairwise (fun r1 r2 => ¬ r1 <+: r2 ∧ ¬ r2 <+: r1) ts)
    (Hne : ∀ rel ∈ ts, rel ≠ [])
    (Hnode : ∀ rel ∈ ts, (∃ c, fs₀.find (S ++ rel) = some (.file c))
      ∨ fs₀.find (S ++ rel) = some .dir)
    (HSdir : fs₀.find S = some .dir)
    (HSparts : ∀ i < S.length, (fs₀.find (S.take i)).isSome = true)
    (HCdir : fs₀.find C = some .dir)
    (HCparts : ∀ i < C.length, (fs₀.find (C.take i)).isSome = true)
    (HdisjSB : ¬ S <+: C ++ [sent]) (HdisjBS : ¬ C ++ [sent] <+: S)
    (Hbkpname : ∀ rel ∈ ts, ¬ [CONFGUARD_BKP_DIR] <+: rel)
    (Hbackname : ∀ rel ∈ ts, ¬ [Links.backName sent] <+: rel)
    (Hnames : Links.backName sent ≠ CONFGUARD_BKP_DIR)
    (HL : ∀ q, ¬ (C ++ [sent]) <+: q → (∀ rel ∈ ts, ¬ (S ++ rel) <+: q) →
      ¬ (S ++ [CONFGUARD_BKP_DIR]) <+: q → g.find q = fs₀.find q)
    (H1 : ∀ rel ∈ ts, g.find (S ++ rel)
      = some (.symlink ((C ++ [sent]) ++ rel)))
    (H2 : ∀ rel ∈ ts, ∀ rest, rest ≠ [] →
      g.find ((S ++ rel) ++ rest) = none)
    (H3 : ∀ rel ∈ ts, ∀ rest, g.find (((C ++ [sent]) ++ rel) ++ rest)
      = fs₀.find ((S ++ rel) ++ rest))
    (H4 : g.find (C ++ [sent]) = some .dir)
    (H6 : ∀ q, (C ++ [sent]) <+: q → q ≠ C ++ [sent] →
      (∀ rel ∈ ts, ¬ ((C ++ [sent]) ++ rel) <+: q) →
      (∀ rel ∈ ts, ¬ q <+: ((C ++ [sent]) ++ rel).dropLast) →
      q ≠ (C ++ [sent]) ++ [Links.backName sent] → g.find q = none)
    (Hnls : ∀ rel ∈ ts, ∀ rest, rest ≠ [] → ∀ r,
      fs₀.find ((S ++ rel) ++ rest) ≠ some (.symlink r))
    (Hcloses : ∀ rel ∈ ts, ∀ rest, rest ≠ [] →
      (fs₀.find ((S ++ rel) ++ rest)).isSome = true →
      ∀ i, 0 < i → i < rest.length →
      fs₀.find ((S ++ rel) ++ rest.take i) = some .dir) :
    ∃ u : FS, _unguard C ts S ⟨g, some sent⟩ = (⟨u, none⟩, .ok)
      ∧ (∀ rel ∈ ts, ∀ rest, u.find ((S ++ rel) ++ rest)
          = fs₀.find ((S ++ rel) ++ rest))
      ∧ (∀ q, (C ++ [sent]) <+: q → u.find q = none)
      ∧ (∀ rel ∈ ts, u.is_symlink (S ++ rel) = false) := by
  have hSall : ∀ q, q <+: S → (fs₀.find q).isSome = true := by
    intro q hq
    by_cases hqS : q = S
    · rw [hqS, HSdir]
      rfl
    · exact isSome_of_pre_short fs₀ S HSparts q hq hqS
  have hCall : ∀ q, q <+: C → (fs₀.find q).isSome = true := by
    intro q hq
    by_cases hqC : q = C
    · rw [hqC, HCdir]
      rfl
    · exact isSome_of_pre_short fs₀ C HCparts q hq hqC
  have dA : ∀ rel ∈ ts, ¬ (S ++ rel) <+: (C ++ [sent])
      ∧ ¬ (C ++ [sent]) <+: (S ++ rel) := by
    intro rel hm
    constructor
    · intro h
      exact HdisjSB ((List.prefix_append S rel).trans h)
    · intro h
      rcases List.prefix_or_prefix_of_prefix h
        (List.prefix_append S rel) with h1 | h1
      · exact HdisjBS h1
      · exact HdisjSB h1
  have hfresh : ∀ q, ((C ++ [sent]) ++ [CONFGUARD_BKP_DIR]) <+: q →
      g.find q = none := by
    intro q hq
    obtain ⟨rest, hrest⟩ := hq
    subst hrest
    refine H6 _ ((List.prefix_append _ [CONFGUARD_BKP_DIR]).trans
      (List.prefix_append _ rest)) ?_ ?_ ?_ ?_
    · intro he
      have hl := congrArg List.length he
      simp only [List.length_append, List.length_singleton] at hl
      omega
    · intro rel hm hc
      rw [List.append_assoc (C ++ [sent]) [CONFGUARD_BKP_DIR] rest] at hc
      have h2 := (pre_append_iff (C ++ [sent]) rel _).mp hc
      rcases List.prefix_or_prefix_of_prefix h2
        (List.prefix_append [CONFGUARD_BKP_DIR] rest) with h1 | h1
      · have h4 := pre_singleton rel CONFGUARD_BKP_DIR h1 (Hne rel hm)
        exact Hbkpname rel hm (pre_of_eq h4.symm)
      · exact Hbkpname rel hm h1
    · intro rel hm hc
      rw [List.dropLast_append_of_ne_nil (C ++ [sent]) (Hne rel hm),
        List.append_assoc] at hc
      have h2 := (pre_append_iff (C ++ [sent]) _ _).mp hc
      have h3 : [CONFGUARD_BKP_DIR] <+: rel.dropLast :=
        (List.prefix_append [CONFGUARD_BKP_DIR] rest).trans h2
      exact Hbkpname rel hm (h3.trans ( List.dropLast_prefix rel))
    · intro he
      rw [List.append_assoc] at he
      have h2 : [CONFGUARD_BKP_DIR] ++ rest = [Links.backName sent] :=
        List.append_cancel_left he
      rw [List.singleton_append] at h2
      injection h2 with h4 h5
      exact Hnames h4.symm
  have Hnls_g : ∀ rel ∈ ts, ∀ rest, rest ≠ [] → ∀ r,
      g.find (((C ++ [sent]) ++ rel) ++ rest) ≠ some (.symlink r) := by
    intro rel hm rest hne r
    rw [H3 rel hm rest]
    exact Hnls rel hm rest hne r
  have Hcloses_g : ∀ rel ∈ ts, ∀ rest, rest ≠ [] →
      (g.find (((C ++ [sent]) ++ rel) ++ rest)).isSome = true →
      ∀ i, 0 < i → i < rest.length →
      g.find (((C ++ [sent]) ++ rel) ++ rest.take i) = some .dir := by
    intro rel hm rest hne hs i h0 hi
    rw [H3 rel hm rest] at hs
    rw [H3 rel hm (rest.take i)]
    exact Hcloses rel hm rest hne hs i h0 hi
  obtain ⟨F6, hcb2Eq, loc6, dir6, _⟩ := create_bkp_spec ts (C ++ [sent])
    ((C ++ [sent]) ++ [CONFGUARD_BKP_DIR]) g
    (hfresh _ List.prefix_rfl)
    (by
      intro q hq hne
      have hqB : q <+: C ++ [sent] :=
        pre_of_pre_concat q (C ++ [sent]) CONFGUARD_BKP_DIR hq hne
      by_cases hqB' : q = C ++ [sent]
      · rw [hqB', H4]
        rfl
      · have hqC : q <+: C := pre_of_pre_concat q C sent hqB hqB'
        have hx1 : ¬ (C ++ [sent]) <+: q := by
          intro h
          have hl := (h.trans hqC).length_le
          rw [List.length_append, List.length_singleton] at hl
          omega
        have hx2 : ∀ rel ∈ ts, ¬ (S ++ rel) <+: q := by
          intro rel hm h
          have hS : S <+: C := (List.prefix_append S rel).trans (h.trans hqC)
          exact HdisjSB (hS.trans (List.prefix_append C [sent]))
        have hx3 : ¬ (S ++ [CONFGUARD_BKP_DIR]) <+: q := by
          intro h
          have hS : S <+: C :=
            (List.prefix_append S [CONFGUARD_BKP_DIR]).trans (h.trans hqC)
          exact HdisjSB (hS.trans (List.prefix_append C [sent]))
        rw [HL q hx1 hx2 hx3]
        exact hCall q hqC)
    Hpf Hne
    (fun rel hm q hq => hfresh q
      ((List.prefix_append ((C ++ [sent]) ++ [CONFGUARD_BKP_DIR]) rel).trans hq))
    (by
      intro rel hm
      constructor
      · intro h
        exact Hbkpname rel hm ((pre_append_iff (C ++ [sent]) _ rel).mp h)
      · intro h
        have h2 := (pre_append_iff (C ++ [sent]) rel _).mp h
        have h3 := pre_singleton rel CONFGUARD_BKP_DIR h2 (Hne rel hm)
        exact Hbkpname rel hm (pre_of_eq h3.symm))
    Hnls_g Hcloses_g
  have hnb2_t : ∀ rel ∈ ts,
      ¬ ((C ++ [sent]) ++ [CONFGUARD_BKP_DIR]) <+: S ++ rel := by
    intro rel hm h
    exact (dA rel hm).2
      ((List.prefix_append (C ++ [sent]) [CONFGUARD_BKP_DIR]).trans h)
  have hnb2_Bt : ∀ rel ∈ ts,
      ¬ ((C ++ [sent]) ++ [CONFGUARD_BKP_DIR]) <+: (C ++ [sent]) ++ rel := by
    intro rel hm h
    exact Hbkpname rel hm ((pre_append_iff (C ++ [sent]) _ rel).mp h)
  have hnb2_B : ¬ ((C ++ [sent]) ++ [CONFGUARD_BKP_DIR]) <+: C ++ [sent] := by
    intro h
    have hl := h.length_le
    rw [List.length_append, List.length_singleton] at hl
    omega
  have hnb2_S : ¬ ((C ++ [sent]) ++ [CONFGUARD_BKP_DIR]) <+: S := fun h =>
    HdisjBS ((List.prefix_append (C ++ [sent]) [CONFGUARD_BKP_DIR]).trans h)
  have hg3 : ∀ rel ∈ ts, g.find ((C ++ [sent]) ++ rel)
      = fs₀.find (S ++ rel) := by
    intro rel hm
    have h3 := H3 rel hm []
    rwa [List.append_nil, List.append_nil] at h3
  have hlink6 : ∀ rel ∈ ts, F6.find (S ++ rel)
      = some (.symlink ((C ++ [sent]) ++ rel)) := by
    intro rel hm
    rw [loc6 _ (hnb2_t rel hm)]
    exact H1 rel hm
  have href6 : ∀ rel ∈ ts,
      (∃ c, F6.find ((C ++ [sent]) ++ rel) = some (.file c))
        ∨ F6.find ((C ++ [sent]) ++ rel) = some .dir := by
    intro rel hm
    rw [loc6 _ (hnb2_Bt rel hm), hg3 rel hm]
    exact Hnode rel hm
  have hdiff6 : ∀ rel ∈ ts, ∀ rel' ∈ ts,
      (C ++ [sent]) ++ rel ≠ S ++ rel' := by
    intro rel hm rel' hm' he
    exact (dA rel' hm').2 (he ▸ List.prefix_append (C ++ [sent]) rel)
  obtain ⟨remGone, remKeep⟩ := links_remove_live_spec ts S (C ++ [sent]) F6
    (pairwise_ne_of_non_pre ts Hpf) hlink6 href6 hdiff6
  set F7 : FS := Links.remove ts S F6 with hF7
  set F8 : FS := Links.back_remove (C ++ [sent]) sent F7 with hF8
  have hF8e : ∀ q, F8.find q =
      if q = (C ++ [sent]) ++ [Links.backName sent] then none
      else F7.find q := by
    intro q
    rw [hF8, Links.back_remove, FS.find_erase]
  have hF8g : ∀ q, q ≠ (C ++ [sent]) ++ [Links.backName sent] →
      (∀ rel ∈ ts, q ≠ S ++ rel) →
      ¬ ((C ++ [sent]) ++ [CONFGUARD_BKP_DIR]) <+: q →
      F8.find q = g.find q := by
    intro q h1 h2 h3
    rw [hF8e q, if_neg h1, remKeep q h2, loc6 q h3]
  have hblB : (C ++ [sent]) <+: (C ++ [sent]) ++ [Links.backName sent] :=
    List.prefix_append _ _
  have hmv2HB : F8.find S = some .dir := by
    rw [hF8g S
      (fun he => HdisjBS (by rw [he]; exact hblB))
      (fun rel hm he =>
        not_append_pre_self S rel (Hne rel hm) (pre_of_eq he.symm))
      hnb2_S]
    have hb1S : ¬ (S ++ [CONFGUARD_BKP_DIR]) <+: S :=
      not_append_pre_self S [CONFGUARD_BKP_DIR] (List.cons_ne_nil _ _)
    rw [HL S HdisjBS
      (fun rel hm => not_append_pre_self S rel (Hne rel hm)) hb1S]
    exact HSdir
  have hmv2HBparts : ∀ q, q <+: S → q ≠ S → (F8.find q).isSome = true := by
    intro q hq hne
    have hnBq : ¬ (C ++ [sent]) <+: q := fun h => HdisjBS (h.trans hq)
    have hb : ¬ (S ++ [CONFGUARD_BKP_DIR]) <+: q := fun h =>
      not_append_pre_self S [CONFGUARD_BKP_DIR] (List.cons_ne_nil _ _)
        (h.trans hq)
    have ht : ∀ rel ∈ ts, ¬ (S ++ rel) <+: q := fun rel hm h =>
      not_append_pre_self S rel (Hne rel hm) (h.trans hq)
    rw [hF8g q (fun he => hnBq (by rw [he]; exact hblB))
      (fun rel hm he => ht rel hm (pre_of_eq he.symm))
      (fun h => hnBq ((List.prefix_append (C ++ [sent]) _).trans h)),
      HL q hnBq ht hb]
    exact hSall q hq
  have hbl_ne_Bt : ∀ rel ∈ ts,
      (C ++ [sent]) ++ rel ≠ (C ++ [sent]) ++ [Links.backName sent] := by
    intro rel hm he
    have h2 : rel = [Links.backName sent] := List.append_cancel_left he
    exact Hbackname rel hm (pre_of_eq h2.symm)
  have hF8Bt : ∀ rel ∈ ts, F8.find ((C ++ [sent]) ++ rel)
      = fs₀.find (S ++ rel) := by
    intro rel hm
    rw [hF8g _ (hbl_ne_Bt rel hm) (fun rel' hm' => hdiff6 rel hm rel' hm')
      (hnb2_Bt rel hm)]
    exact hg3 rel hm
  have hmv2Hnode : ∀ rel ∈ ts, F8.find ((C ++ [sent]) ++ rel) = none
      ∨ (∃ c, F8.find ((C ++ [sent]) ++ rel) = some (.file c))
      ∨ F8.find ((C ++ [sent]) ++ rel) = some .dir := by
    intro rel hm
    rw [hF8Bt rel hm]
    exact Or.inr (Hnode rel hm)
  have hmv2isSome : ∀ rel ∈ ts,
      (F8.find ((C ++ [sent]) ++ rel)).isSome = true := by
    intro rel hm
    rw [hF8Bt rel hm]
    rcases Hnode rel hm with ⟨c, hc⟩ | hd
    · rw [hc]
      rfl
    · rw [hd]
      rfl
  have hmv2Hdst : ∀ rel ∈ ts, ∀ q, (S ++ rel) <+: q → F8.find q = none := by
    intro rel hm q hq
    obtain ⟨rest, hrest⟩ := hq
    subst hrest
    have hq0 : (S ++ rel) <+: (S ++ rel) ++ rest := List.prefix_append _ _
    have hnbl : (S ++ rel) ++ rest
        ≠ (C ++ [sent]) ++ [Links.backName sent] := by
      intro he
      have hB : (C ++ [sent]) <+: (S ++ rel) ++ rest := by
        rw [he]
        exact hblB
      rcases List.prefix_or_prefix_of_prefix hB hq0 with h1 | h1
      · exact (dA rel hm).2 h1
      · exact (dA rel hm).1 h1
    have hnb2 : ¬ ((C ++ [sent]) ++ [CONFGUARD_BKP_DIR])
        <+: (S ++ rel) ++ rest := by
      intro h
      rcases List.prefix_or_prefix_of_prefix h hq0 with h1 | h1
      · exact (dA rel hm).2
          ((List.prefix_append (C ++ [sent]) [CONFGUARD_BKP_DIR]).trans h1)
      · rcases List.prefix_or_prefix_of_prefix h1
          (List.prefix_append (C ++ [sent]) [CONFGUARD_BKP_DIR])
          with h2 | h2
        · exact (dA rel hm).1 h2
        · exact (dA rel hm).2 h2
    rw [hF8e _, if_neg hnbl]
    by_cases hrest0 : rest = []
    · subst hrest0
      rw [List.append_nil]
      exact remGone rel hm
    · have hne_t : ∀ rel' ∈ ts, (S ++ rel) ++ rest ≠ S ++ rel' := by
        intro rel' hm' he
        rw [List.append_assoc] at he
        have h2 : rel ++ rest = rel' := List.append_cancel_left he
        by_cases hrr : rel = rel'
        · subst hrr
          have hlen := congrArg List.length h2
          rw [List.length_append] at hlen
          have hz : rest.length = 0 := by omega
          exact hrest0 (List.length_eq_zero.mp hz)
        · exact pairwise_non_pre ts Hpf rel hm rel' hm' hrr ⟨rest, h2⟩
      rw [remKeep _ hne_t, loc6 _ hnb2]
      exact H2 rel hm rest hrest0
  have hmv2HAB : ∀ rel ∈ ts, ¬ ((C ++ [sent]) ++ rel) <+: S
      ∧ ¬ S <+: (C ++ [sent]) ++ rel := by
    intro rel hm
    constructor
    · intro h
      exact HdisjBS ((List.prefix_append (C ++ [sent]) rel).trans h)
    · intro h
      rcases List.prefix_or_prefix_of_prefix h
        (List.prefix_append (C ++ [sent]) rel) with h1 | h1
      · exact HdisjSB h1
      · exact HdisjBS h1
  obtain ⟨rvL, rvB, rvP, rvM, _⟩ := move_files_spec ts (C ++ [sent]) S F8
    (Or.inr hmv2HB) hmv2HBparts Hpf Hne hmv2Hnode hmv2Hdst hmv2HAB
  set F9 : FS := Files.move_files ts (C ++ [sent]) S F8 with hF9
  have hF9B : F9.find (C ++ [sent]) = some .dir := by
    rw [rvL _ HdisjSB
      (fun rel hm => not_append_pre_self (C ++ [sent]) rel (Hne rel hm)),
      hF8g _ (ne_append_singleton (C ++ [sent]) (Links.backName sent))
        (fun rel hm he => HdisjSB (by rw [he]; exact List.prefix_append S rel))
        hnb2_B]
    exact H4
  have hrfEq : Files.return_files ts S (C ++ [sent]) F8
      = .ok (F9.removeTree (C ++ [sent])) := by
    simp only [Files.return_files, ← hF9, hF9B]
  set u : FS := F9.removeTree (C ++ [sent]) with hu
  have hub2 : u.find ((C ++ [sent]) ++ [CONFGUARD_BKP_DIR]) = none := by
    rw [hu, FS.find_removeTree,
      if_pos (List.prefix_append (C ++ [sent]) [CONFGUARD_BKP_DIR])]
  have hddEq : Files.delete_dir ((C ++ [sent]) ++ [CONFGUARD_BKP_DIR]) u
      = .ok u := by
    simp only [Files.delete_dir, hub2]
  have htrans : ∀ rel ∈ ts, ∀ rest, u.find ((S ++ rel) ++ rest)
      = fs₀.find ((S ++ rel) ++ rest) := by
    intro rel hm rest
    have hnB : ¬ (C ++ [sent]) <+: (S ++ rel) ++ rest := by
      intro h
      rcases List.prefix_or_prefix_of_prefix h
        (List.prefix_append (S ++ rel) rest) with h1 | h1
      · exact (dA rel hm).2 h1
      · exact (dA rel hm).1 h1
    rw [hu, FS.find_removeTree, if_neg hnB,
      (rvM rel hm (hmv2isSome rel hm)).1 rest]
    have h1 : ((C ++ [sent]) ++ rel) ++ rest
        ≠ (C ++ [sent]) ++ [Links.backName sent] := by
      intro he
      rw [List.append_assoc] at he
      have h2 : rel ++ rest = [Links.backName sent] :=
        List.append_cancel_left he
      have h4 := pre_singleton rel (Links.backName sent) ⟨rest, h2⟩
        (Hne rel hm)
      exact Hbackname rel hm (pre_of_eq h4.symm)
    have h2 : ∀ rel' ∈ ts, ((C ++ [sent]) ++ rel) ++ rest ≠ S ++ rel' := by
      intro rel' hm' he
      have hS : S <+: ((C ++ [sent]) ++ rel) ++ rest := by
        rw [he]
        exact List.prefix_append S rel'
      have hB : (C ++ [sent]) <+: ((C ++ [sent]) ++ rel) ++ rest :=
        (List.prefix_append _ rel).trans (List.prefix_append _ rest)
      rcases List.prefix_or_prefix_of_prefix hB hS with h1' | h1'
      · exact HdisjBS h1'
      · exact HdisjSB h1'
    have h3 : ¬ ((C ++ [sent]) ++ [CONFGUARD_BKP_DIR])
        <+: ((C ++ [sent]) ++ rel) ++ rest := by
      intro h
      rw [List.append_assoc (C ++ [sent]) rel rest] at h
      have h4 := (pre_append_iff (C ++ [sent]) _ _).mp h
      rcases List.prefix_or_prefix_of_prefix h4
        (List.prefix_append rel rest) with h5 | h5
      · exact Hbkpname rel hm h5
      · have h6 := pre_singleton rel CONFGUARD_BKP_DIR h5 (Hne rel hm)
        exact Hbkpname rel hm (pre_of_eq h6.symm)
    rw [hF8g _ h1 h2 h3]
    exact H3 rel hm rest
  refine ⟨u, ?_, htrans, ?_, ?_⟩
  · simp only [_unguard, hcb2Eq, ← hF7, ← hF8, hrfEq, finallyDelete, hddEq]
  · intro q hq
    rw [hu, FS.find_removeTree, if_pos hq]
  · intro rel hm
    have h0 := htrans rel hm []
    rw [List.append_nil] at h0
    rcases Hnode rel hm with ⟨c, hc⟩ | hd
    · simp only [FS.is_symlink, h0, hc]
    · simp only [FS.is_symlink, h0, hd]

/-- C1 counterexample: every configured target exists under the source
directory (`.run` is a directory), both slots are free, yet `guard` does
not succeed: the target directory contains a dangling symlink, so the
backup phase's `shutil.copytree` raises and `_guard` exits 1; the claim
asserts the round trip succeeds on any such world. -/
theorem c1_counterexample :
    fsDirDangling.find (["home", "proj"] ++ [".run"]) = some .dir
  ∧ (_guard ["cg"] [[".run"]] "s1" ["home", "proj"]
      ⟨fsDirDangling, none⟩).2 = .err .copyFailed :=
  ⟨rfl, rfl⟩

/-- C1 (amended): round trip.  On a world where every configured target
exists under `source_dir` as a regular file or directory, **no target's
subtree contains a symlink** (a dangling one would make the backup
phase's `shutil.copytree` raise and abort the guard) and every entry
below a target sits under directory nodes, the project is unguarded, the
storage slot `confguard_path/<sent>` and the backup slot
`source_dir/.confguard.bkp` are free, and the usual sanity conditions on
the directory tree hold, `_guard` succeeds, `_unguard` on its result
succeeds, and the final state restores every target subtree exactly (same
content, location and type), leaves no symlink at any target path, leaves
the sentinel `none`, and the storage directory is removed entirely. -/
theorem c1_roundtrip (C S : FPath) (ts : List FPath) (sent : String)
    (fs₀ : FS)
    (Hpf : List.Pairwise (fun r1 r2 => ¬ r1 <+: r2 ∧ ¬ r2 <+: r1) ts)
    (Hne : ∀ rel ∈ ts, rel ≠ [])
    (Hnode : ∀ rel ∈ ts, plainNode (fs₀.find (S ++ rel)) = true)
    (HSdir : fs₀.find S = some .dir)
    (HSparts : ∀ i < S.length, (fs₀.find (S.take i)).isSome = true)
    (HCdir : fs₀.find C = some .dir)
    (HCparts : ∀ i < C.length, (fs₀.find (C.take i)).isSome = true)
    (Hsfresh : ∀ kv ∈ fs₀, ¬ (C ++ [sent]) <+: kv.1)
    (Hbfresh : ∀ kv ∈ fs₀, ¬ (S ++ [CONFGUARD_BKP_DIR]) <+: kv.1)
    (HdisjSB : ¬ S <+: C ++ [sent]) (HdisjBS : ¬ C ++ [sent] <+: S)
    (Hbkpname : ∀ rel ∈ ts, ¬ [CONFGUARD_BKP_DIR] <+: rel)
    (Hbackname : ∀ rel ∈ ts, ¬ [Links.backName sent] <+: rel)
    (Hnames : Links.backName sent ≠ CONFGUARD_BKP_DIR)
    (Hnosym : ∀ kv ∈ fs₀, ∀ rel ∈ ts, (S ++ rel) <+: kv.1 →
      kv.1 ≠ S ++ rel → kv.2.isLink = false)
    (Hclosed : ∀ kv ∈ fs₀, ∀ rel ∈ ts, (S ++ rel) <+: kv.1 →
      ∀ i < kv.1.length, (S ++ rel).length < i →
      fs₀.find (kv.1.take i) = some .dir) :
    (_guard C ts sent S ⟨fs₀, none⟩).2 = .ok
  ∧ (_unguard C ts S (_guard C ts sent S ⟨fs₀, none⟩).1).2 = .ok
  ∧ (_unguard C ts S (_guard C ts sent S ⟨fs₀, none⟩).1).1.sentinel = none
  ∧ (∀ rel ∈ ts, ∀ rest,
      (_unguard C ts S (_guard C ts sent S ⟨fs₀, none⟩).1).1.fs.find
          ((S ++ rel) ++ rest)
        = fs₀.find ((S ++ rel) ++ rest))
  ∧ (∀ rel ∈ ts,
      (_unguard C ts S (_guard C ts sent S ⟨fs₀, none⟩).1).1.fs.is_symlink
          (S ++ rel) = false)
  ∧ (∀ q, (C ++ [sent]) <+: q →
      (_unguard C ts S (_guard C ts sent S ⟨fs₀, none⟩).1).1.fs.find q
        = none) := by
  have Hnode' : ∀ rel ∈ ts, (∃ c, fs₀.find (S ++ rel) = some (.file c))
      ∨ fs₀.find (S ++ rel) = some .dir :=
    fun rel hm => plainNode_cases _ (Hnode rel hm)
  have Hnls : ∀ rel ∈ ts, ∀ rest, rest ≠ [] → ∀ r,
      fs₀.find ((S ++ rel) ++ rest) ≠ some (.symlink r) :=
    fun rel hm => nls_of_scan fs₀ (S ++ rel)
      (fun kv hkv hp hne2 => Hnosym kv hkv rel hm hp hne2)
  have Hcloses : ∀ rel ∈ ts, ∀ rest, rest ≠ [] →
      (fs₀.find ((S ++ rel) ++ rest)).isSome = true →
      ∀ i, 0 < i → i < rest.length →
      fs₀.find ((S ++ rel) ++ rest.take i) = some .dir :=
    fun rel hm => closes_of_scan fs₀ (S ++ rel)
      (fun kv hkv hp i hrt hln => Hclosed kv hkv rel hm hp i hln hrt)
  obtain ⟨g, hgEq, HL, H1, H2, H3, H4, _, H6, _⟩ := guard_spec C S ts sent
    fs₀ Hpf Hne Hnode' HSdir HSparts HCdir HCparts Hsfresh Hbfresh HdisjSB
    HdisjBS Hbkpname Hbackname Hnls Hcloses
  obtain ⟨u, huEq, htrans, hstore, hsym⟩ := unguard_spec C S ts sent fs₀ g
    Hpf Hne Hnode' HSdir HSparts HCdir HCparts HdisjSB HdisjBS Hbkpname
    Hbackname Hnames HL H1 H2 H3 H4 H6 Hnls Hcloses
  have hout : (_guard C ts sent S ⟨fs₀, none⟩).2 = Outcome.ok := by
    rw [hgEq]
  have hpair : (_guard C ts sent S ⟨fs₀, none⟩).1 = ⟨g, some sent⟩ := by
    rw [hgEq]
  rw [hpair]
  have huout : (_unguard C ts S ⟨g, some sent⟩).2 = Outcome.ok := by
    rw [huEq]
  have husent : (_unguard C ts S ⟨g, some sent⟩).1.sentinel = none := by
    rw [huEq]
  have hufs : (_unguard C ts S ⟨g, some sent⟩).1.fs = u := by
    rw [huEq]
  refine ⟨hout, huout, husent, ?_, ?_, ?_⟩
  · intro rel hm rest
    rw [hufs]
    exact htrans rel hm rest
  · intro rel hm
    rw [hufs]
    exact hsym rel hm
  · intro q hq
    rw [hufs]
    exact hstore q hq

/-- C1 witness: the demo project guarded into `cg/s1` and unguarded
again. -/
theorem c1_roundtrip_witness :
    ((_guard ["cg"] demoTargets "s1" ["home", "proj"] ⟨fsDemo, none⟩).2
      = .ok)
  ∧ (_unguard ["cg"] demoTargets ["home", "proj"]
      (_guard ["cg"] demoTargets "s1" ["home", "proj"]
        ⟨fsDemo, none⟩).1).2 = .ok
  ∧ (_unguard ["cg"] demoTargets ["home", "proj"]
      (_guard ["cg"] demoTargets "s1" ["home", "proj"]
        ⟨fsDemo, none⟩).1).1.sentinel = none
  ∧ (∀ rel ∈ demoTargets, ∀ rest,
      (_unguard ["cg"] demoTargets ["home", "proj"]
          (_guard ["cg"] demoTargets "s1" ["home", "proj"]
            ⟨fsDemo, none⟩).1).1.fs.find ((["home", "proj"] ++ rel) ++ rest)
        = fsDemo.find ((["home", "proj"] ++ rel) ++ rest))
  ∧ (∀ rel ∈ demoTargets,
      (_unguard ["cg"] demoTargets ["home", "proj"]
          (_guard ["cg"] demoTargets "s1" ["home", "proj"]
            ⟨fsDemo, none⟩).1).1.fs.is_symlink (["home", "proj"] ++ rel)
        = false)
  ∧ (∀ q, (["cg"] ++ ["s1"]) <+: q →
      (_unguard ["cg"] demoTargets ["home", "proj"]
          (_guard ["cg"] demoTargets "s1" ["home", "proj"]
            ⟨fsDemo, none⟩).1).1.fs.find q = none) :=
  c1_roundtrip ["cg"] ["home", "proj"] demoTargets "s1" fsDemo
    (by decide) (by decide) (by decide) (by decide) (by decide) (by decide)
    (by decide) (by decide) (by decide) (by decide) (by decide) (by decide)
    (by decide) (by decide) (by decide) (by decide)

end Confguard
